import Mathlib

/-!
# Shard merge (`merge.go`) : a shallow embedding

The Go file `merge.go` holds three functions: `Merge`, `builderWriteAll` and
`merge`.  They are embedded here as pure Lean functions.

* Go `error` values are values of `Error`; a run-time panic (index out of
  range on a slice) is the separate outcome `Outcome.panic`.
* Slices are lists and an index expression `xs[i]` is `index xs i`, which
  panics when `i` is out of range.  Go maps and collaborator methods
  (`fileName`, `readContents`, `readDocSections`, `symbols.data`) are total
  functions.
* Machine integers are naturals; the three places where arithmetic can wrap
  (`id <<= 1`, `fileEndSymbol[docID] + uint32(i)` and `ib.ContentSize()+1`, all
  `uint32`) carry an explicit `% 2 ^ 32`.  Document ids are `uint32` in the shard format, so a
  shard has fewer than `2 ^ 32` documents and the counter `docID` does not wrap.
* The index builder is the record of the calls made to it.
* The file system is explicit state threaded through `builderWriteAll`.  A path
  is its directory and its base name; `filepath.Join` cleans the directory.
-/

namespace Zoekt

/-! ## Errors and outcomes -/

/-- Go `error` values that `merge.go` creates itself or passes through. -/
inductive Error where
  /-- The value of `fmt.Errorf("need 1 or more indexData to merge")`. -/
  | needIndexData
  /-- The value of `fmt.Errorf("non-contiguous repo ids in %s for document %d: old=%d current=%d", ...)`. -/
  | nonContiguous (shard : String) (docID : Nat) (old : Int) (current : Int)
  /-- An error made by a collaborator (decoder, builder, operating system). -/
  | other (msg : String)
  deriving DecidableEq, Repr

/-- What a call does: it returns a value, returns an error, or panics. -/
inductive Outcome (α : Type) where
  | ok (a : α)
  | error (e : Error)
  | panic
  deriving DecidableEq, Repr

namespace Outcome

/-- Sequencing: the first error or panic ends the run. -/
def bind {α β : Type} (x : Outcome α) (f : α → Outcome β) : Outcome β :=
  match x with
  | ok a => f a
  | error e => error e
  | panic => panic

instance : Monad Outcome where
  pure := Outcome.ok
  bind := Outcome.bind

/-- A collaborator result `(value, err)` seen as an outcome. -/
def ofExcept {α : Type} : Except Error α → Outcome α
  | .ok a => ok a
  | .error e => error e

end Outcome

/-- The slice index expression `xs[i]`: a panic when `i` is out of range. -/
def index {α : Type} (xs : List α) (i : Nat) : Outcome α :=
  match xs[i]? with
  | some x => .ok x
  | none => .panic

/-! ## Data model -/

/-- Modelled from the spec: the type `Repository` is declared outside `merge.go`;
the merge only passes it around.  It has a name and an ordered branch-name list. -/
structure Repository where
  Name : String
  Branches : List String
  deriving DecidableEq, Repr

/-- Modelled from the spec: the type `DocumentSection` (a symbol-occurrence span)
is declared outside `merge.go`. -/
structure DocumentSection where
  Start : Nat
  End : Nat
  deriving DecidableEq, Repr

/-- Modelled from the spec: the type `Symbol` (symbol metadata record) is
declared outside `merge.go`. -/
structure Symbol where
  Sym : String
  Kind : String
  deriving DecidableEq, Repr

abbrev Bytes := List Nat

/-- The fields of `Document` that `merge` sets (plus `SkipReason`, which it
leaves at its zero value).  `SymbolsMetaData` holds pointers, `none` is `nil`. -/
structure Document where
  Name : String
  Content : Bytes
  Branches : List String
  SubRepositoryPath : String
  Language : String
  SkipReason : String
  Symbols : List DocumentSection
  SymbolsMetaData : List (Option Symbol)
  deriving DecidableEq, Repr

/-- The parts of `indexData` that `merge` reads. -/
structure IndexData where
  /-- Value of `d.String()`. -/
  name : String
  repoMetaData : List Repository
  /-- Slice `[]uint64`, one mask per document. -/
  fileBranchMasks : List Nat
  /-- Slice `[]uint16`, the owning repository id per document. -/
  repos : List Nat
  /-- Method `d.fileName(docID)`. -/
  fileName : Nat → String
  subRepoPaths : List (List String)
  subRepos : List Nat
  /-- A Go map: absent keys give the empty string. -/
  languageMap : Nat → String
  languages : List Nat
  /-- Method `d.readContents(docID)`. -/
  readContents : Nat → Except Error Bytes
  /-- Method `d.readDocSections(docID, nil)`, first result and error. -/
  readDocSections : Nat → Except Error (List DocumentSection)
  /-- Method `d.symbols.data(i)`. -/
  symbolsData : Nat → Option Symbol
  fileEndSymbol : List Nat
  /-- Slice of Go maps keyed by `uint`: absent keys give the empty string. -/
  branchNames : List (Nat → String)

/-- Method `d.Repository()`: the shard's repository metadata list. -/
def IndexData.Repository (d : IndexData) : List Repository := d.repoMetaData

/-! ## The index builder, as the record of calls made to it -/

/-- One call that changed the builder. -/
inductive BuilderCall where
  /-- A repository was opened: by `NewIndexBuilder` or by `setRepository`. -/
  | setRepository (r : Repository)
  /-- A document was accepted by `Add`. -/
  | add (doc : Document)
  deriving DecidableEq, Repr

/-- Modelled from the spec: `IndexBuilder` is declared outside `merge.go`.  Its
state is the ordered list of registered repositories and added documents. -/
structure IndexBuilder where
  calls : List BuilderCall
  deriving DecidableEq, Repr

/-- The validation done by the builder, which lives outside `merge.go`: when
`NewIndexBuilder` refuses a repository, and when `Add` refuses a document
(which may depend on what the builder already holds). -/
structure BuilderRules where
  newErr : Repository → Option Error
  addErr : IndexBuilder → Document → Option Error

/-- Modelled from the spec: `NewIndexBuilder(r)` opens a builder on `r`. -/
def NewIndexBuilder (B : BuilderRules) (r : Repository) : Outcome IndexBuilder :=
  match B.newErr r with
  | some e => .error e
  | none => .ok ⟨[.setRepository r]⟩

/-- Modelled from the spec: `ib.setRepository(r)` registers `r`; later documents
belong to it. -/
def IndexBuilder.setRepository (ib : IndexBuilder) (r : Repository) : IndexBuilder :=
  ⟨ib.calls ++ [.setRepository r]⟩

/-- Modelled from the spec: `ib.Add(doc)` validates and appends a document to the
currently open repository, or returns an error and changes nothing. -/
def IndexBuilder.Add (B : BuilderRules) (ib : IndexBuilder) (doc : Document) :
    Outcome IndexBuilder :=
  match B.addErr ib doc with
  | some e => .error e
  | none => .ok ⟨ib.calls ++ [.add doc]⟩

/-- The repositories registered with the builder, in order. -/
def IndexBuilder.registered (ib : IndexBuilder) : List Repository :=
  ib.calls.filterMap fun c =>
    match c with
    | .setRepository r => some r
    | .add _ => none

/-- The documents added to the builder, in order. -/
def IndexBuilder.added (ib : IndexBuilder) : List Document :=
  ib.calls.filterMap fun c =>
    match c with
    | .setRepository _ => none
    | .add doc => some doc

/-- Each added document with the repository that was open when it was added
(`cur` is the repository open before the first call of the list). -/
def ownersFrom : Option Repository → List BuilderCall → List (Option Repository × Document)
  | _, [] => []
  | _, .setRepository r :: cs => ownersFrom (some r) cs
  | cur, .add doc :: cs => (cur, doc) :: ownersFrom cur cs

/-- Each added document with the repository open at the moment of its `Add`. -/
def IndexBuilder.owners (ib : IndexBuilder) : List (Option Repository × Document) :=
  ownersFrom none ib.calls

/-! ## `merge` -/

/-- The variables of the loop of lines 118-126: `mask`, `id` (a `uint32`) and
`doc.Branches`.  `passes` is the number of passes of the loop body made so far; the
program keeps no such counter, it is carried along to state how long the loop runs. -/
structure BranchVars where
  mask : Nat
  id : Nat
  branches : List String
  passes : Nat
  deriving DecidableEq, Repr

/-- Lines 120-126: the loop `for mask != 0 { ... id <<= 1; mask >>= 1 }`, started
on the variables `v`; the result is the variables when the loop is left.  The first
argument bounds the number of passes.  The loop has been left through its condition
exactly when the `mask` returned is 0; a returned `mask` other than 0 means that the
bound was used up first.  `mask` halves on every pass, so a bound of `mask` passes
always suffices (see `branchLoop_eq`). -/
def branchLoop (d : IndexData) (repoID : Nat) : Nat → BranchVars → Outcome BranchVars
  | 0, v => .ok v
  | fuel + 1, ⟨mask, id, branches, passes⟩ =>
    if mask = 0 then .ok ⟨mask, id, branches, passes⟩
    else
      (if mask % 2 ≠ 0 then
        (index d.branchNames repoID).bind fun names => .ok (branches ++ [names id])
      else .ok branches).bind fun branches1 =>
      branchLoop d repoID fuel ⟨mask / 2, id * 2 % 2 ^ 32, branches1, passes + 1⟩

/-- Lines 116-127 for a given mask: `id` starts at 1 and `doc.Branches` empty. -/
def calcBranches (d : IndexData) (repoID mask : Nat) : Outcome (List String) :=
  (branchLoop d repoID mask ⟨mask, 1, [], 0⟩).bind fun v => .ok v.branches

/-- Lines 111-114: one record per symbol section, read at offset
`fileEndSymbol[docID] + uint32(i)`. -/
def symbolsMetaData (d : IndexData) (docID n : Nat) : Outcome (List (Option Symbol)) :=
  if n = 0 then .ok []
  else
    (index d.fileEndSymbol docID).bind fun base =>
    .ok ((List.range n).map fun i => d.symbolsData ((base + i) % 2 ^ 32))

/-- Lines 94-127: the document built for `docID`, owned by repository `repoID`. -/
def assemble (d : IndexData) (docID repoID : Nat) : Outcome Document :=
  (index d.subRepoPaths repoID).bind fun paths =>
  (index d.subRepos docID).bind fun sub =>
  (index paths sub).bind fun subRepositoryPath =>
  (index d.languages docID).bind fun lang =>
  (Outcome.ofExcept (d.readContents docID)).bind fun content =>
  (Outcome.ofExcept (d.readDocSections docID)).bind fun symbols =>
  (symbolsMetaData d docID symbols.length).bind fun symbolsMeta =>
  (index d.fileBranchMasks docID).bind fun mask =>
  (calcBranches d repoID mask).bind fun branches =>
  .ok { Name := d.fileName docID
        Content := content
        Branches := branches
        SubRepositoryPath := subRepositoryPath
        Language := d.languageMap lang
        SkipReason := ""
        Symbols := symbols
        SymbolsMetaData := symbolsMeta }

/-- The loop state of `merge`: the builder `ib` and `lastRepoID`. -/
abbrev MergeState := IndexBuilder × Int

/-- Lines 86-92: the contiguity check and the registration of a new repository. -/
def checkRepo (d : IndexData) (docID repoID : Nat) (st : MergeState) : Outcome MergeState :=
  if (repoID : Int) ≠ st.2 then
    if st.2 + 1 ≠ (repoID : Int) then
      .error (.nonContiguous d.name docID st.2 repoID)
    else
      (index d.repoMetaData repoID).bind fun r =>
      .ok (st.1.setRepository r, (repoID : Int))
  else .ok st

/-- Lines 84-131: the body of the inner loop for one document. -/
def mergeDoc (B : BuilderRules) (d : IndexData) (st : MergeState) (docID : Nat) :
    Outcome MergeState :=
  (index d.repos docID).bind fun repoID =>
  (checkRepo d docID repoID st).bind fun st1 =>
  (assemble d docID repoID).bind fun doc =>
  (st1.1.Add B doc).bind fun ib =>
  .ok (ib, st1.2)

/-- The inner loop over the given document ids, in order. -/
def mergeDocs (B : BuilderRules) (d : IndexData) : List Nat → MergeState → Outcome MergeState
  | [], st => .ok st
  | docID :: rest, st => (mergeDoc B d st docID).bind fun st1 => mergeDocs B d rest st1

/-- Lines 83-135: one pass of the outer loop: every document of `d`, then
`lastRepoID = -1`. -/
def mergeShard (B : BuilderRules) (d : IndexData) (st : MergeState) : Outcome MergeState :=
  (mergeDocs B d (List.range d.fileBranchMasks.length) st).bind fun st1 =>
  .ok (st1.1, -1)

/-- The outer loop `for _, d := range ds`. -/
def mergeShards (B : BuilderRules) : List IndexData → MergeState → Outcome MergeState
  | [], st => .ok st
  | d :: rest, st => (mergeShard B d st).bind fun st1 => mergeShards B rest st1

/-- Lines 71-80 of `merge`: the empty-input check, the builder opened on
`ds[0].Repository()[0]`, and `lastRepoID := 0`. -/
def mergeInit (B : BuilderRules) (ds : List IndexData) : Outcome MergeState :=
  match ds with
  | [] => .error .needIndexData
  | d0 :: _ =>
    (index d0.Repository 0).bind fun r0 =>
    (NewIndexBuilder B r0).bind fun ib =>
    .ok (ib, 0)

/-- Function `merge` of `merge.go`. -/
def merge (B : BuilderRules) (ds : List IndexData) : Outcome IndexBuilder :=
  (mergeInit B ds).bind fun st0 =>
  (mergeShards B ds st0).bind fun st =>
  .ok st.1

/-! ## The file system and `builderWriteAll`

The file system is a value of `FS`.  The calls into `os`, `ioutil` and the open
file are standard-library code; each is modelled by its documented effect, and
an `OSRun` says which of them fail in the run at hand.  A failing call leaves the
file system as it was; only `ib.Write` may have written part of its output to
the open file before it fails.  Closing a file (also the deferred `f.Close()`)
does not change any content.
-/

/-- A file path, as its directory (`filepath.Dir`) and base name (`filepath.Base`). -/
structure Path where
  dir : String
  base : String
  deriving DecidableEq, Repr

/-- The elements of a slash-separated path: the pieces between the separators
(`cur` is the piece being read, last character first). -/
def splitPath : List Char → List Char → List (List Char)
  | [], cur => [cur.reverse]
  | c :: cs, cur => if c = '/' then cur.reverse :: splitPath cs [] else splitPath cs (c :: cur)

/-- One element `e` read by `filepath.Clean`; `out` holds the elements kept so
far, last first.  Empty elements and `.` are dropped; `..` removes the element
before it, is dropped at the root, and is kept at the start of a relative path. -/
def cleanStep (rooted : Bool) (out : List (List Char)) (e : List Char) : List (List Char) :=
  if e = [] ∨ e = ['.'] then out
  else if e = ['.', '.'] then
    match out with
    | [] => if rooted then [] else [e]
    | top :: rest => if top = ['.', '.'] then e :: out else rest
  else e :: out

/-- The elements written with one separator between them. -/
def joinPath : List (List Char) → List Char
  | [] => []
  | [e] => e
  | e :: es => e ++ '/' :: joinPath es

/-- The library function `filepath.Clean` for slash-separated paths (volume names
and the backslash of Windows paths are not modelled): the shortest equivalent
path, `.` for the empty one. -/
def filepathClean (path : String) : String :=
  let rooted : Bool :=
    match path.data with
    | c :: _ => c = '/'
    | [] => false
  let out := ((splitPath path.data []).foldl (cleanStep rooted) []).reverse
  if rooted then String.mk ('/' :: joinPath out)
  else if out = [] then "." else String.mk (joinPath out)

/-- The call `filepath.Join(dir, name)` for a plain file name `name` (no
separator in it, neither `.` nor `..`): `Join` cleans its result, so the directory
of the joined path (`filepath.Dir`) is `filepath.Clean(dir)`, and its base name is
`name`. -/
def Path.join (dir name : String) : Path := ⟨filepathClean dir, name⟩

/-- A regular file: permission bits and content. -/
structure File where
  mode : Nat
  data : Bytes
  deriving DecidableEq, Repr

/-- The line written by `log.Printf`: path, index bytes, and the two terms of the
overhead quotient `float64(fi.Size()) / float64(ib.ContentSize()+1)`.  The sum
`ib.ContentSize()+1` is taken in `uint32` before the conversion, so the divisor is
0 when the content size is `2^32 - 1`. -/
structure LogRecord where
  path : Path
  size : Nat
  overheadNum : Nat
  overheadDen : Nat
  deriving DecidableEq, Repr

/-- File-system state (with the process log). -/
structure FS where
  dirs : List String
  files : Path → Option File
  log : List LogRecord

/-- What the operating system does during one run of `builderWriteAll`: which
calls fail, and the random part `TempFile` picks for the temp name. -/
structure OSRun where
  /-- Whether `runtime.GOOS` is `"windows"`. -/
  windows : Bool
  mkdirAll : Option Error
  tempFile : Except Error String
  chmod : Option Error
  stat : Option Error
  close : Option Error
  rename : Option Error

/-- The serializing side of the builder: `ib.Write(w)` hands some bytes to the
sink and may then fail; `ib.ContentSize()`, a `uint32`. -/
structure Serializer where
  write : IndexBuilder → Bytes × Option Error
  contentSize : IndexBuilder → Nat

/-- Replace the file at `p`. -/
def FS.setFile (fs : FS) (p : Path) (f : Option File) : FS :=
  { fs with files := fun q => if q = p then f else fs.files q }

/-- The call `os.MkdirAll(dir, 0o700)`. -/
def osMkdirAll (os : OSRun) (fs : FS) (dir : String) : Except Error FS :=
  match os.mkdirAll with
  | some e => .error e
  | none => .ok (if dir ∈ fs.dirs then fs else { fs with dirs := dir :: fs.dirs })

/-- The name `TempFile` builds from the pattern `base + ".*.tmp"`: the star is
replaced by a random string. -/
def tempName (base rnd : String) : String := base ++ "." ++ rnd ++ ".tmp"

/-- The call `ioutil.TempFile(dir, base + ".*.tmp")`: a new empty file, mode
`0o600`, that did not exist before. -/
def ioutilTempFile (os : OSRun) (fs : FS) (dir base : String) : Except Error (Path × FS) :=
  match os.tempFile with
  | .error e => .error e
  | .ok rnd =>
    let p : Path := ⟨dir, tempName base rnd⟩
    match fs.files p with
    | some _ => .error (.other "file exists")
    | none => .ok (p, fs.setFile p (some ⟨0o600, []⟩))

/-- The call `f.Chmod(mode)` on the open file `p`. -/
def fileChmod (os : OSRun) (fs : FS) (p : Path) (mode : Nat) : Except Error FS :=
  match os.chmod with
  | some e => .error e
  | none => .ok (fs.setFile p ((fs.files p).map fun f => { f with mode := mode }))

/-- The call `ib.Write(f)`: the bytes handed over are appended to the file at `p`. -/
def builderWrite (S : Serializer) (ib : IndexBuilder) (fs : FS) (p : Path) : FS × Option Error :=
  (fs.setFile p ((fs.files p).map fun f => { f with data := f.data ++ (S.write ib).1 }),
   (S.write ib).2)

/-- The call `f.Stat()`, of which only `Size()` is used. -/
def fileStat (os : OSRun) (fs : FS) (p : Path) : Except Error Nat :=
  match os.stat with
  | some e => .error e
  | none => .ok (match fs.files p with
                 | some f => f.data.length
                 | none => 0)

/-- The call `os.Rename(old, new)`. -/
def osRename (os : OSRun) (fs : FS) (old new : Path) : Except Error FS :=
  match os.rename with
  | some e => .error e
  | none => .ok ((fs.setFile new (fs.files old)).setFile old none)

/-- Function `builderWriteAll` of `merge.go`: the error returned (`none` is
`nil`) and the file system afterwards. -/
def builderWriteAll (os : OSRun) (S : Serializer) (fn : Path) (ib : IndexBuilder) (fs : FS) :
    Option Error × FS :=
  let dir := fn.dir
  match osMkdirAll os fs dir with
  | .error e => (some e, fs)
  | .ok fs1 =>
  match ioutilTempFile os fs1 dir fn.base with
  | .error e => (some e, fs1)
  | .ok (f, fs2) =>
  match (if os.windows then .ok fs2 else fileChmod os fs2 f 0o666) with
  | .error e => (some e, fs2)
  | .ok fs3 =>
  match builderWrite S ib fs3 f with
  | (fs4, some e) => (some e, fs4)
  | (fs4, none) =>
  match fileStat os fs4 f with
  | .error e => (some e, fs4)
  | .ok size =>
  match os.close with
  | some e => (some e, fs4)
  | none =>
  match osRename os fs4 f fn with
  | .error e => (some e, fs4)
  | .ok fs5 =>
    (none, { fs5 with log := fs5.log ++ [⟨fn, size, size, (S.contentSize ib + 1) % 2 ^ 32⟩] })

/-! ## `Merge` -/

/-- The loop of `Merge` over `files`: every file is opened with `NewSearcher`,
the first failure is returned. -/
def openAll {F : Type} (NewSearcher : F → Except Error IndexData) :
    List F → List IndexData → Except Error (List IndexData)
  | [], ds => .ok ds
  | f :: rest, ds =>
    match NewSearcher f with
    | .error e => .error e
    | .ok d => openAll NewSearcher rest (ds ++ [d])

/-- The verb `%05d` of `fmt.Sprintf`: decimal, zero-padded to five digits. -/
def fmt05d (n : Nat) : String :=
  String.mk (List.replicate (5 - (toString n).length) '0') ++ toString n

/-- The name `fmt.Sprintf("merged_v%d.%05d.zoekt", version, seq)`. -/
def mergedName (version seq : Nat) : String :=
  "merged_v" ++ toString version ++ "." ++ fmt05d seq ++ ".zoekt"

/-- Function `Merge` of `merge.go`: what it returns, and the file system
afterwards.  `IndexFormatVersion` and `NewSearcher` are declared elsewhere. -/
def Merge {F : Type} (NewSearcher : F → Except Error IndexData) (B : BuilderRules)
    (S : Serializer) (os : OSRun) (IndexFormatVersion : Nat)
    (dstDir : String) (files : List F) (fs : FS) : Outcome Unit × FS :=
  match openAll NewSearcher files [] with
  | .error e => (.error e, fs)
  | .ok ds =>
    match merge B ds with
    | .panic => (.panic, fs)
    | .error e => (.error e, fs)
    | .ok ib =>
      let fn := Path.join dstDir (mergedName IndexFormatVersion 0)
      match builderWriteAll os S fn ib fs with
      | (some e, fs1) => (.error e, fs1)
      | (none, fs1) => (.ok (), fs1)


/-! ## Vocabulary of the properties -/

/-- The source documents of a merge: shard order, then ascending document id. -/
def sourceDocs : List IndexData → List (IndexData × Nat)
  | [] => []
  | d :: ds => (List.range d.fileBranchMasks.length).map (fun docID => (d, docID)) ++ sourceDocs ds

/-- Document `doc` is the one assembled from source document `src`: the code of
lines 94-127 run on `src` with its owning repository id gives `doc`. -/
def AssembledFrom (src : IndexData × Nat) (doc : Document) : Prop :=
  ∃ repoID, src.1.repos[src.2]? = some repoID ∧ assemble src.1 src.2 repoID = .ok doc

/-- The loop state of `merge` on `pre ++ d :: post` when it reaches document
`docID` of shard `d`: lines 71-80 are done, the shards of `pre` are done, and so
are the documents `0 .. docID - 1` of `d`.  It is `ok` exactly when no earlier
step failed. -/
def stateAt (B : BuilderRules) (pre : List IndexData) (d : IndexData) (post : List IndexData)
    (docID : Nat) : Outcome MergeState :=
  (mergeInit B (pre ++ d :: post)).bind fun st0 =>
  (mergeShards B pre st0).bind fun st1 =>
  mergeDocs B d (List.range docID) st1

/-- Lines 94-101 raise no panic for document `docID` of repository `repoID`:
the three slice index expressions of the `Document` literal are in range. -/
def FieldsInRange (d : IndexData) (docID repoID : Nat) : Prop :=
  ∃ paths sub path lang, d.subRepoPaths[repoID]? = some paths ∧ d.subRepos[docID]? = some sub ∧
    paths[sub]? = some path ∧ d.languages[docID]? = some lang

/-- The repository open after the calls `cs`, when `cur` was open before them. -/
def lastOpen : Option Repository → List BuilderCall → Option Repository
  | cur, [] => cur
  | _, .setRepository r :: cs => lastOpen (some r) cs
  | cur, .add _ :: cs => lastOpen cur cs

/-- The loop invariant behind repository fidelity: when `lastRepoID` is a
repository id, the builder's open repository is the shard's metadata at that id. -/
def OpenMatches (d : IndexData) (st : MergeState) : Prop :=
  ∀ n : Nat, st.2 = (n : Int) →
    ∃ r, d.repoMetaData[n]? = some r ∧ lastOpen none st.1.calls = some r

/-- An added document with the repository it was added under, against its source. -/
def OwnedBySource (src : IndexData × Nat) (o : Option Repository × Document) : Prop :=
  ∃ repoID r, src.1.repos[src.2]? = some repoID ∧ src.1.repoMetaData[repoID]? = some r ∧
    o.1 = some r ∧ AssembledFrom src o.2

/-- The positions below `w` of the set bits of `m`, in ascending order. -/
def setBits (w m : Nat) : List Nat :=
  (List.range w).filter fun i => m.testBit i

/-- The branch list by 1-based branch id: for each set bit `i` of `m` below `w`,
ascending, the name of the branch whose id is `i + 1`, the `(i + 1)`-th of the
branches `branches` of the repository. -/
def branchesByID (branches : List String) (w m : Nat) : List String :=
  (setBits w m).map fun i => branches.getD i ""

/-- The number of set bits of `m`. -/
def popCount (m : Nat) : Nat := (setBits m.size m).length

/-- The repository ids of shard `d` that own at least one document, ascending. -/
def ownedRepoIDs (d : IndexData) : List Nat :=
  (List.range d.repoMetaData.length).filter fun r =>
    r ∈ d.repos.take d.fileBranchMasks.length

/-- The metadata records of the (shard, repository id) pairs that own at least
one document: shard order, then ascending repository id, each pair once. -/
def ownedRepos : List IndexData → List Repository
  | [] => []
  | d :: ds => (ownedRepoIDs d).filterMap (fun r => d.repoMetaData[r]?) ++ ownedRepos ds

/-- The loop invariant behind registration, after `j` documents of shard `d`:
`lastRepoID` is an id `m`, the ids seen so far are exactly `0 .. m`, and the
repositories registered since `base` are the records `0 .. m` of `d`. -/
def RegisteredUpTo (d : IndexData) (base : List Repository) (j : Nat) (st : MergeState) : Prop :=
  ∃ m : Nat, st.2 = (m : Int) ∧ m < d.repoMetaData.length ∧
    (∀ r, r ∈ d.repos.take j ↔ r ≤ m) ∧
    st.1.registered = base ++ (List.range (m + 1)).filterMap (fun r => d.repoMetaData[r]?)

/-- The bounds that make every slice index of the loop body in range for shard
`d`: the per-document tables are at least as long as `fileBranchMasks`, every
document's repository id indexes `repoMetaData`, `subRepoPaths` and
`branchNames`, and its sub-repository index is in range of
`subRepoPaths[repoID]`. -/
def TablesInRange (d : IndexData) : Prop :=
  d.fileBranchMasks.length ≤ d.repos.length ∧
  d.fileBranchMasks.length ≤ d.subRepos.length ∧
  d.fileBranchMasks.length ≤ d.languages.length ∧
  d.fileBranchMasks.length ≤ d.fileEndSymbol.length ∧
  ∀ docID repoID, docID < d.fileBranchMasks.length → d.repos[docID]? = some repoID →
    repoID < d.repoMetaData.length ∧ repoID < d.branchNames.length ∧
    ∃ paths sub, d.subRepoPaths[repoID]? = some paths ∧ d.subRepos[docID]? = some sub ∧
      sub < paths.length

/-- The check of `TablesInRange` for one document, as a computation. -/
def docInRange (d : IndexData) (docID : Nat) : Bool :=
  match d.repos[docID]? with
  | none => false
  | some repoID =>
    decide (repoID < d.repoMetaData.length) && decide (repoID < d.branchNames.length) &&
      match d.subRepoPaths[repoID]?, d.subRepos[docID]? with
      | some paths, some sub => decide (sub < paths.length)
      | _, _ => false

/-- The check of `TablesInRange` for a shard, as a computation. -/
def tablesInRange (d : IndexData) : Bool :=
  decide (d.fileBranchMasks.length ≤ d.repos.length) &&
  decide (d.fileBranchMasks.length ≤ d.subRepos.length) &&
  decide (d.fileBranchMasks.length ≤ d.languages.length) &&
  decide (d.fileBranchMasks.length ≤ d.fileEndSymbol.length) &&
  (List.range d.fileBranchMasks.length).all (docInRange d)

/-- For each added document of the calls `cs`, the position in the list of
registered repositories of the repository that was open when it was added
(`n` repositories were registered before `cs`). -/
def ownerIdxFrom : Nat → List BuilderCall → List Nat
  | _, [] => []
  | n, .setRepository _ :: cs => ownerIdxFrom (n + 1) cs
  | n, .add _ :: cs => (n - 1) :: ownerIdxFrom n cs

/-- The owning repository of each added document, as an index into the
registered repositories: every document is owned by the most recently
registered repository. -/
def IndexBuilder.repos (ib : IndexBuilder) : List Nat := ownerIdxFrom 0 ib.calls

/-- Modelled from the spec: the serializer `ib.Write` and the shard decoder are
outside `merge.go`; decoding is taken to be the inverse of serialization.  The
shard `out` is the decoded output of builder `ib` when reading it gives the
builder back: its repository metadata are the registered repositories, it has
one document per added document, each document's repository id is the index of
its owning repository, and the document assembled from its tables is the added
document. -/
def Decodes (out : IndexData) (ib : IndexBuilder) : Prop :=
  out.repoMetaData = ib.registered ∧
  out.fileBranchMasks.length = ib.added.length ∧
  out.repos.take ib.added.length = ib.repos ∧
  (List.range ib.added.length).map (fun docID => (index out.repos docID).bind (assemble out docID)) =
    ib.added.map Outcome.ok

/-- The calls `fin` continue the calls `cs` the way `merge` makes them: document
by document, each accepted by `Add`, some preceded by the registration of a new
repository. -/
inductive Grows (B : BuilderRules) : List BuilderCall → List BuilderCall → Prop where
  | done (cs : List BuilderCall) : Grows B cs cs
  | add {cs fin : List BuilderCall} {doc : Document} :
      B.addErr ⟨cs⟩ doc = none → Grows B (cs ++ [.add doc]) fin → Grows B cs fin
  | register {cs fin : List BuilderCall} {r : Repository} {doc : Document} :
      B.addErr ⟨cs ++ [.setRepository r]⟩ doc = none →
      Grows B (cs ++ [.setRepository r, .add doc]) fin → Grows B cs fin

/-- The error `ioutil.TempFile` ends with, if any: its own failure, or every
candidate name being taken. -/
def tempFileFailure (os : OSRun) (fn : Path) (fs : FS) : Option Error :=
  match os.tempFile with
  | .error e => some e
  | .ok rnd =>
    match fs.files ⟨fn.dir, tempName fn.base rnd⟩ with
    | some _ => some (.other "file exists")
    | none => none

/-- The error of the first failing step of `builderWriteAll`, in the order of the
text: directory creation, temp-file creation, chmod (not on Windows),
serialization, stat, close, rename. -/
def firstFailure (os : OSRun) (S : Serializer) (fn : Path) (ib : IndexBuilder) (fs : FS) :
    Option Error :=
  os.mkdirAll <|> tempFileFailure os fn fs <|> (if os.windows then none else os.chmod) <|>
    (S.write ib).2 <|> os.stat <|> os.close <|> os.rename

/-! ## Sample data -/

/-- A builder that accepts every repository and every document. -/
def acceptAll : BuilderRules := ⟨fun _ => none, fun _ _ => none⟩

/-- A branch-name map holding the names of `branches` under the keys `1, 2, 4, ...`. -/
def branchMap (branches : List String) (key : Nat) : String :=
  match (List.range branches.length).find? fun i => 2 ^ i = key with
  | some i => branches.getD i ""
  | none => ""

/-- A small shard: document `i` is named `name/i`, has content `[i]`, no symbols,
language `"Go"`, sub-repository path `""`. -/
def sampleShard (name : String) (metas : List Repository) (repos masks : List Nat) : IndexData where
  name := name
  repoMetaData := metas
  fileBranchMasks := masks
  repos := repos
  fileName := fun i => name ++ "/" ++ toString i
  subRepoPaths := metas.map fun _ => [""]
  subRepos := masks.map fun _ => 0
  languageMap := fun _ => "Go"
  languages := masks.map fun _ => 0
  readContents := fun i => .ok [i]
  readDocSections := fun _ => .ok []
  symbolsData := fun _ => none
  fileEndSymbol := masks.map fun _ => 0
  branchNames := metas.map fun r => branchMap r.Branches

/-- The document `sampleShard` yields for document `i` with the given branches. -/
def sampleDoc (name : String) (i : Nat) (branches : List String) : Document :=
  { Name := name ++ "/" ++ toString i, Content := [i], Branches := branches,
    SubRepositoryPath := "", Language := "Go", SkipReason := "", Symbols := [],
    SymbolsMetaData := [] }

/-- Shard `a`: one repository, two documents. -/
def shardA : IndexData :=
  sampleShard "a" [⟨"repoA", ["HEAD", "dev", "rel"]⟩] [0, 0] [1, 5]

/-- Shard `b`: one repository, two documents. -/
def shardB : IndexData :=
  sampleShard "b" [⟨"repoB", ["HEAD"]⟩] [0, 0] [1, 0]

/-- The builder after merging `shardA` and `shardB`. -/
def mergedAB : IndexBuilder :=
  ⟨[.setRepository ⟨"repoA", ["HEAD", "dev", "rel"]⟩,
    .add (sampleDoc "a" 0 ["HEAD"]), .add (sampleDoc "a" 1 ["HEAD", "rel"]),
    .setRepository ⟨"repoB", ["HEAD"]⟩,
    .add (sampleDoc "b" 0 ["HEAD"]), .add (sampleDoc "b" 1 [])]⟩

/-- A shard whose documents have repository ids `0, 1, 3`. -/
def gapShard : IndexData :=
  sampleShard "gap" [⟨"r0", ["HEAD"]⟩, ⟨"r1", ["HEAD"]⟩, ⟨"r2", ["HEAD"]⟩, ⟨"r3", ["HEAD"]⟩]
    [0, 1, 3] [1, 1, 1]

/-- The loop state when `merge` reaches the third document of `gapShard`. -/
def gapState : MergeState :=
  (⟨[.setRepository ⟨"r0", ["HEAD"]⟩, .add (sampleDoc "gap" 0 ["HEAD"]),
     .setRepository ⟨"r1", ["HEAD"]⟩, .add (sampleDoc "gap" 1 ["HEAD"])]⟩, 1)

/-- A first shard whose first document belongs to repository 1. -/
def lateShard : IndexData :=
  sampleShard "late" [⟨"r0", ["HEAD"]⟩, ⟨"r1", ["HEAD"]⟩] [1, 1] [1, 1]

/-- A first shard whose first document belongs to repository 2. -/
def skipShard : IndexData :=
  sampleShard "skip" [⟨"r0", ["HEAD"]⟩, ⟨"r1", ["HEAD"]⟩, ⟨"r2", ["HEAD"]⟩] [2] [1]

/-- The builder `merge` returns for `lateShard` alone. -/
def mergedLate : IndexBuilder :=
  ⟨[.setRepository ⟨"r0", ["HEAD"]⟩, .setRepository ⟨"r1", ["HEAD"]⟩,
    .add (sampleDoc "late" 0 ["HEAD"]), .add (sampleDoc "late" 1 ["HEAD"])]⟩

/-- The loop state after `shardA` was merged, at the start of the next shard. -/
def stateAfterA : MergeState :=
  (⟨[.setRepository ⟨"repoA", ["HEAD", "dev", "rel"]⟩,
     .add (sampleDoc "a" 0 ["HEAD"]), .add (sampleDoc "a" 1 ["HEAD", "rel"])]⟩, -1)

/-- A branch table with a name under every key. -/
def keyNames (key : Nat) : String := "b" ++ toString key

/-- Thirty-three branch names, `b1` to `b33`. -/
def wideBranches : List String := (List.range 33).map fun j => "b" ++ toString (j + 1)

/-- A shard with one document that is live on branch 33 only (mask `2 ^ 32`);
its branch table holds the name of branch `k` under key `2 ^ (k - 1)`. -/
def wideShard : IndexData :=
  sampleShard "w" [⟨"r", wideBranches⟩] [0] [2 ^ 32]

/-- Shard `a` without its branch table: `branchNames` is empty, so repository id 0
does not index it. -/
def noTableShard : IndexData :=
  { shardA with branchNames := [] }

/-- A shard without documents, with one repository record. -/
def emptyShard : IndexData :=
  sampleShard "empty" [⟨"lonely", ["HEAD"]⟩] [] []

/-- The builder after merging `shardA` twice. -/
def mergedAA : IndexBuilder :=
  ⟨[.setRepository ⟨"repoA", ["HEAD", "dev", "rel"]⟩,
    .add (sampleDoc "a" 0 ["HEAD"]), .add (sampleDoc "a" 1 ["HEAD", "rel"]),
    .setRepository ⟨"repoA", ["HEAD", "dev", "rel"]⟩,
    .add (sampleDoc "a" 0 ["HEAD"]), .add (sampleDoc "a" 1 ["HEAD", "rel"])]⟩

/-- A builder whose `NewIndexBuilder` refuses every repository. -/
def rejectNew : BuilderRules := ⟨fun _ => some (.other "bad repository"), fun _ _ => none⟩

/-- A builder whose `Add` refuses every document. -/
def rejectAdd : BuilderRules := ⟨fun _ => none, fun _ _ => some (.other "bad document")⟩

/-- A shard with one document whose content cannot be decoded. -/
def corruptShard : IndexData :=
  { sampleShard "corrupt" [⟨"r0", ["HEAD"]⟩] [0] [1] with
    readContents := fun _ => .error (.other "corrupt content") }

/-- The same shard without any repository metadata record. -/
def corruptBareShard : IndexData :=
  { corruptShard with repoMetaData := [] }

/-- A file system with one index file already in place. -/
def sampleFS : FS :=
  { dirs := ["idx"]
    files := fun p => if p = ⟨"idx", "merged_v16.00000.zoekt"⟩ then some ⟨0o644, [7, 7]⟩ else none
    log := [] }

/-- A run in which every system call succeeds and `TempFile` picks `"42"`. -/
def osAllGood : OSRun :=
  { windows := false, mkdirAll := none, tempFile := .ok "42", chmod := none, stat := none,
    close := none, rename := none }

/-- A serializer that fails after handing over two bytes. -/
def brokenSerializer : Serializer :=
  { write := fun _ => ([1, 2], some (.other "disk full")), contentSize := fun _ => 0 }

/-- A serializer that writes three bytes. -/
def goodSerializer : Serializer :=
  { write := fun _ => ([1, 2, 3], none), contentSize := fun _ => 2 }

/-- The final path of the sample runs. -/
def samplePath : Path := ⟨"idx", "merged_v16.00000.zoekt"⟩

/-- A searcher for files named by strings: `"a"` and `"b"` open as `shardA` and
`shardB`, `"gap"` as `gapShard`, anything else fails. -/
def sampleSearcher (f : String) : Except Error IndexData :=
  if f = "a" then .ok shardA
  else if f = "b" then .ok shardB
  else if f = "gap" then .ok gapShard
  else .error (.other "no such shard")

/-- A file system without any file. -/
def freshFS : FS := { dirs := [], files := fun _ => none, log := [] }

/-- A serializer whose output is one byte: the number of documents. -/
def countingSerializer : Serializer :=
  { write := fun ib => ([ib.added.length], none), contentSize := fun ib => ib.added.length }

/-- A first run of `Merge` into directory `idx`: shard `a` alone. -/
def firstRun : Outcome Unit × FS :=
  Merge sampleSearcher acceptAll countingSerializer osAllGood 16 "idx" ["a"] freshFS

/-- A run of `Merge` whose destination directory is written with a trailing
separator. -/
def slashRun : Outcome Unit × FS :=
  Merge sampleSearcher acceptAll countingSerializer osAllGood 16 "idx/" ["a"] freshFS

/-- A serializer that writes three bytes and reports the largest content size. -/
def fullSerializer : Serializer :=
  { write := fun _ => ([1, 2, 3], none), contentSize := fun _ => 2 ^ 32 - 1 }

/-- A second run of `Merge` into the same directory, after `firstRun`: shards `a`
and `b`. -/
def secondRun : Outcome Unit × FS :=
  Merge sampleSearcher acceptAll countingSerializer osAllGood 16 "idx" ["a", "b"] firstRun.2

/-- A shard with one document that has two symbol sections, a sub-repository
path and a language code; its symbol store holds a record at every offset. -/
def richShard : IndexData :=
  { sampleShard "rich" [⟨"r0", ["HEAD"]⟩] [0] [1] with
    subRepoPaths := [["", "vendor/x"]]
    subRepos := [1]
    languageMap := fun code => if code = 7 then "Go" else ""
    languages := [7]
    readContents := fun _ => .ok [80, 75]
    readDocSections := fun _ => .ok [⟨0, 4⟩, ⟨9, 12⟩]
    symbolsData := fun offset => some ⟨"sym" ++ toString offset, "func"⟩
    fileEndSymbol := [3] }

/-- The document assembled from the document of `richShard`. -/
def richDoc : Document :=
  { Name := "rich/0", Content := [80, 75], Branches := ["HEAD"], SubRepositoryPath := "vendor/x",
    Language := "Go", SkipReason := "", Symbols := [⟨0, 4⟩, ⟨9, 12⟩],
    SymbolsMetaData := [some ⟨"sym3", "func"⟩, some ⟨"sym4", "func"⟩] }

/-- Thirty-four branch names, `b1` to `b34`. -/
def manyBranches : List String := (List.range 34).map fun j => "b" ++ toString (j + 1)

/-- A shard with one document that is live on branches 33 and 34 (mask
`2 ^ 32 + 2 ^ 33`); its branch table holds the name of branch `k` under key
`2 ^ (k - 1)`. -/
def highShard : IndexData :=
  sampleShard "high" [⟨"r", manyBranches⟩] [0] [2 ^ 32 + 2 ^ 33]

/-- The same shard with the branch table `keyNames`, which names every key. -/
def highKeyShard : IndexData :=
  { highShard with branchNames := [keyNames] }

/-- A shard whose two documents belong to repository 0, with a `subRepos` table
that covers only the first of them. -/
def shortShard : IndexData :=
  { sampleShard "short" [⟨"r0", ["HEAD"]⟩] [0, 0] [1, 1] with subRepos := [0] }

/-- A shard without documents and without repository metadata. -/
def bareShard : IndexData :=
  sampleShard "bare" [] [] []

/-- The builder after merging `emptyShard` and then `shardA`. -/
def mergedEmptyA : IndexBuilder :=
  ⟨[.setRepository ⟨"lonely", ["HEAD"]⟩, .setRepository ⟨"repoA", ["HEAD", "dev", "rel"]⟩,
    .add (sampleDoc "a" 0 ["HEAD"]), .add (sampleDoc "a" 1 ["HEAD", "rel"])]⟩

/-- The shard that the builder `mergedAB` decodes to: four documents, two
repositories. -/
def decodedAB : IndexData :=
  { sampleShard "merged" [⟨"repoA", ["HEAD", "dev", "rel"]⟩, ⟨"repoB", ["HEAD"]⟩]
      [0, 0, 1, 1] [1, 5, 1, 0] with
    fileName := fun i => (["a/0", "a/1", "b/0", "b/1"]).getD i ""
    readContents := fun i => .ok [i % 2] }

/-- The shard that the builder `mergedEmptyA` decodes to: the first repository
owns no document. -/
def decodedEmptyA : IndexData :=
  { sampleShard "merged" [⟨"lonely", ["HEAD"]⟩, ⟨"repoA", ["HEAD", "dev", "rel"]⟩]
      [1, 1] [1, 5] with
    fileName := fun i => (["a/0", "a/1"]).getD i "" }


/-! ## Sequencing lemmas -/

@[simp] theorem Outcome.ok_bind {α β : Type} (a : α) (f : α → Outcome β) :
    (Outcome.ok a).bind f = f a := rfl

@[simp] theorem Outcome.error_bind {α β : Type} (e : Error) (f : α → Outcome β) :
    (Outcome.error e : Outcome α).bind f = .error e := rfl

@[simp] theorem Outcome.panic_bind {α β : Type} (f : α → Outcome β) :
    (Outcome.panic : Outcome α).bind f = .panic := rfl

theorem Outcome.bind_eq_ok {α β : Type} {x : Outcome α} {f : α → Outcome β} {b : β} :
    x.bind f = .ok b ↔ ∃ a, x = .ok a ∧ f a = .ok b := by
  cases x <;> simp

theorem Outcome.bind_assoc {α β γ : Type} (x : Outcome α) (f : α → Outcome β)
    (g : β → Outcome γ) : (x.bind f).bind g = x.bind fun a => (f a).bind g := by
  cases x <;> simp

theorem index_eq_ok {α : Type} {xs : List α} {i : Nat} {x : α} :
    index xs i = .ok x ↔ xs[i]? = some x := by
  unfold index
  cases h : xs[i]? <;> simp

theorem index_ne_error {α : Type} (xs : List α) (i : Nat) (e : Error) :
    index xs i ≠ .error e := by
  unfold index
  cases h : xs[i]? <;> simp

theorem mergeDocs_append (B : BuilderRules) (d : IndexData) (xs ys : List Nat) (st : MergeState) :
    mergeDocs B d (xs ++ ys) st = (mergeDocs B d xs st).bind (mergeDocs B d ys) := by
  induction xs generalizing st with
  | nil => simp [mergeDocs]
  | cons x xs ih =>
    simp only [List.cons_append, mergeDocs, Outcome.bind_assoc]
    congr 1
    funext st1
    exact ih st1

theorem mergeShards_append (B : BuilderRules) (xs ys : List IndexData) (st : MergeState) :
    mergeShards B (xs ++ ys) st = (mergeShards B xs st).bind (mergeShards B ys) := by
  induction xs generalizing st with
  | nil => simp [mergeShards]
  | cons x xs ih =>
    simp only [List.cons_append, mergeShards, Outcome.bind_assoc]
    congr 1
    funext st1
    exact ih st1

/-- What a successful pass of the loop body did. -/
theorem mergeDoc_eq_ok {B : BuilderRules} {d : IndexData} {st st1 : MergeState} {docID : Nat} :
    mergeDoc B d st docID = .ok st1 ↔
      ∃ repoID doc, d.repos[docID]? = some repoID ∧ assemble d docID repoID = .ok doc ∧
        (((repoID : Int) = st.2 ∧ B.addErr st.1 doc = none ∧
            st1 = (⟨st.1.calls ++ [.add doc]⟩, st.2)) ∨
         ((repoID : Int) = st.2 + 1 ∧ ∃ r, d.repoMetaData[repoID]? = some r ∧
            B.addErr (st.1.setRepository r) doc = none ∧
            st1 = (⟨st.1.calls ++ [.setRepository r, .add doc]⟩, (repoID : Int)))) := by
  unfold mergeDoc
  simp only [Outcome.bind_eq_ok, index_eq_ok]
  constructor
  · rintro ⟨repoID, hrepo, st2, hcheck, doc, hdoc, ib, hadd, hst⟩
    refine ⟨repoID, doc, hrepo, hdoc, ?_⟩
    unfold checkRepo at hcheck
    unfold IndexBuilder.Add at hadd
    by_cases h1 : (repoID : Int) = st.2
    · left
      simp [h1] at hcheck
      subst hcheck
      cases hB : B.addErr st.1 doc with
      | some e => simp [hB] at hadd
      | none =>
        simp [hB] at hadd
        subst hadd
        simp at hst
        exact ⟨h1, rfl, hst.symm⟩
    · right
      by_cases h2 : st.2 + 1 = (repoID : Int)
      · simp [h1, h2, Outcome.bind_eq_ok, index_eq_ok] at hcheck
        obtain ⟨r, hr, hst2⟩ := hcheck
        subst hst2
        cases hB : B.addErr (st.1.setRepository r) doc with
        | some e => simp [hB] at hadd
        | none =>
          simp [hB] at hadd
          subst hadd
          simp at hst
          refine ⟨h2.symm, r, hr, hB, ?_⟩
          rw [← hst]
          simp [IndexBuilder.setRepository]
      · simp [h1, h2] at hcheck
  · rintro ⟨repoID, doc, hrepo, hdoc, h⟩
    refine ⟨repoID, hrepo, ?_⟩
    rcases h with ⟨h1, hB, hst⟩ | ⟨h1, r, hr, hB, hst⟩
    · refine ⟨st, ?_, doc, hdoc, ⟨st.1.calls ++ [.add doc]⟩, ?_, ?_⟩
      · simp [checkRepo, h1]
      · simp [IndexBuilder.Add, hB]
      · simp [hst]
    · refine ⟨(st.1.setRepository r, (repoID : Int)), ?_, doc, hdoc,
        ⟨st.1.calls ++ [.setRepository r, .add doc]⟩, ?_, ?_⟩
      · have hne : ¬ ((repoID : Int) = st.2) := by omega
        simp [checkRepo, hne, h1, Outcome.bind_eq_ok, index_eq_ok, hr]
      · have hB1 : B.addErr ⟨st.1.calls ++ [.setRepository r]⟩ doc = none := hB
        simp [IndexBuilder.Add, hB1, IndexBuilder.setRepository]
      · simp [hst]


/-! ## Documents added by the loops -/

theorem added_append (xs ys : List BuilderCall) :
    (IndexBuilder.mk (xs ++ ys)).added = (IndexBuilder.mk xs).added ++ (IndexBuilder.mk ys).added := by
  simp [IndexBuilder.added]

theorem mergeDoc_added {B : BuilderRules} {d : IndexData} {st st1 : MergeState} {docID : Nat}
    (h : mergeDoc B d st docID = .ok st1) :
    ∃ doc, st1.1.added = st.1.added ++ [doc] ∧ AssembledFrom (d, docID) doc := by
  obtain ⟨repoID, doc, hrepo, hdoc, hcase⟩ := mergeDoc_eq_ok.mp h
  refine ⟨doc, ?_, repoID, hrepo, hdoc⟩
  rcases hcase with ⟨_, _, hst⟩ | ⟨_, r, _, _, hst⟩ <;> subst hst <;>
    simp [IndexBuilder.added]

theorem mergeDocs_added {B : BuilderRules} {d : IndexData} (ids : List Nat) {st st1 : MergeState}
    (h : mergeDocs B d ids st = .ok st1) :
    ∃ docs, st1.1.added = st.1.added ++ docs ∧
      List.Forall₂ (fun docID doc => AssembledFrom (d, docID) doc) ids docs := by
  induction ids generalizing st with
  | nil =>
    simp only [mergeDocs, Outcome.ok.injEq] at h
    subst h
    exact ⟨[], by simp, List.Forall₂.nil⟩
  | cons i ids ih =>
    simp only [mergeDocs, Outcome.bind_eq_ok] at h
    obtain ⟨st2, h1, h2⟩ := h
    obtain ⟨doc, hdoc, hasm⟩ := mergeDoc_added h1
    obtain ⟨docs, hdocs, hall⟩ := ih h2
    exact ⟨doc :: docs, by simp [hdocs, hdoc], List.Forall₂.cons hasm hall⟩

theorem mergeShard_added {B : BuilderRules} {d : IndexData} {st st1 : MergeState}
    (h : mergeShard B d st = .ok st1) :
    ∃ docs, st1.1.added = st.1.added ++ docs ∧
      List.Forall₂ AssembledFrom
        ((List.range d.fileBranchMasks.length).map fun docID => (d, docID)) docs := by
  simp only [mergeShard, Outcome.bind_eq_ok] at h
  obtain ⟨st2, h1, h2⟩ := h
  obtain ⟨docs, hdocs, hall⟩ := mergeDocs_added _ h1
  simp only [Outcome.ok.injEq] at h2
  subst h2
  exact ⟨docs, hdocs, by simpa [List.forall₂_map_left_iff] using hall⟩

theorem mergeShards_added {B : BuilderRules} (ds : List IndexData) {st st1 : MergeState}
    (h : mergeShards B ds st = .ok st1) :
    ∃ docs, st1.1.added = st.1.added ++ docs ∧
      List.Forall₂ AssembledFrom (sourceDocs ds) docs := by
  induction ds generalizing st with
  | nil =>
    simp only [mergeShards, Outcome.ok.injEq] at h
    subst h
    exact ⟨[], by simp, List.Forall₂.nil⟩
  | cons d ds ih =>
    simp only [mergeShards, Outcome.bind_eq_ok] at h
    obtain ⟨st2, h1, h2⟩ := h
    obtain ⟨docs1, hdocs1, hall1⟩ := mergeShard_added h1
    obtain ⟨docs2, hdocs2, hall2⟩ := ih h2
    exact ⟨docs1 ++ docs2, by simp [hdocs2, hdocs1], List.rel_append hall1 hall2⟩

theorem mergeInit_eq_ok {B : BuilderRules} {ds : List IndexData} {st : MergeState} :
    mergeInit B ds = .ok st ↔
      ∃ d0 rest r0, ds = d0 :: rest ∧ d0.repoMetaData[0]? = some r0 ∧ B.newErr r0 = none ∧
        st = (⟨[.setRepository r0]⟩, 0) := by
  cases ds with
  | nil => simp [mergeInit]
  | cons d0 rest =>
    simp only [mergeInit, Outcome.bind_eq_ok, index_eq_ok, IndexData.Repository, NewIndexBuilder]
    constructor
    · rintro ⟨r0, hr0, ib, hib, hst⟩
      cases hB : B.newErr r0 with
      | some e => simp [hB] at hib
      | none =>
        simp [hB] at hib
        subst hib
        simp at hst
        exact ⟨d0, rest, r0, rfl, hr0, hB, hst.symm⟩
    · rintro ⟨d0', rest', r0, hds, hr0, hB, hst⟩
      simp only [List.cons.injEq] at hds
      obtain ⟨rfl, rfl⟩ := hds
      exact ⟨r0, hr0, ⟨[.setRepository r0]⟩, by simp [hB], by simp [hst]⟩

theorem merge_eq_ok {B : BuilderRules} {ds : List IndexData} {ib : IndexBuilder} :
    merge B ds = .ok ib ↔
      ∃ st0 st, mergeInit B ds = .ok st0 ∧ mergeShards B ds st0 = .ok st ∧ st.1 = ib := by
  simp [merge, Outcome.bind_eq_ok]

theorem assemble_content {d : IndexData} {docID repoID : Nat} {doc : Document}
    (h : assemble d docID repoID = .ok doc) : d.readContents docID = .ok doc.Content := by
  simp only [assemble, Outcome.bind_eq_ok] at h
  obtain ⟨_, _, _, _, _, _, _, _, content, hc, _, _, _, _, _, _, _, _, hdoc⟩ := h
  simp only [Outcome.ok.injEq] at hdoc
  subst hdoc
  cases hr : d.readContents docID with
  | error e => simp [hr, Outcome.ofExcept] at hc
  | ok c =>
    simp [hr, Outcome.ofExcept] at hc
    simp [hc]

theorem length_sourceDocs (ds : List IndexData) :
    (sourceDocs ds).length = (ds.map fun d => d.fileBranchMasks.length).sum := by
  induction ds with
  | nil => rfl
  | cons d ds ih => simp [sourceDocs, ih]

/-- The documents a successful `merge` added are those assembled from the source
documents, position by position. -/
theorem merge_added (B : BuilderRules) (ds : List IndexData) (ib : IndexBuilder)
    (h : merge B ds = .ok ib) : List.Forall₂ AssembledFrom (sourceDocs ds) ib.added := by
  obtain ⟨st0, st, h0, h1, rfl⟩ := merge_eq_ok.mp h
  obtain ⟨d0, rest, r0, -, -, -, hst0⟩ := mergeInit_eq_ok.mp h0
  obtain ⟨docs, hdocs, hall⟩ := mergeShards_added ds h1
  have hadd : st.1.added = docs := by
    rw [hdocs, hst0]
    simp [IndexBuilder.added]
  rw [hadd]
  exact hall

/-- C1 (completeness): when `merge` succeeds, the documents added to the builder
are, position by position, the documents assembled from the source documents
taken in shard order and then ascending document id; their number is the sum of
the shards' document counts and each carries the content `readContents` gives
for its source document. -/
theorem merge_complete (B : BuilderRules) (ds : List IndexData) (ib : IndexBuilder)
    (h : merge B ds = .ok ib) :
    ib.added.length = (ds.map fun d => d.fileBranchMasks.length).sum ∧
    List.Forall₂
      (fun src doc => AssembledFrom src doc ∧ src.1.readContents src.2 = .ok doc.Content)
      (sourceDocs ds) ib.added := by
  have hall := merge_added B ds ib h
  refine ⟨?_, ?_⟩
  · rw [← hall.length_eq, length_sourceDocs]
  · refine hall.imp ?_
    intro src doc hsrc
    exact ⟨hsrc, hsrc.elim fun _ hr => assemble_content hr.2⟩

theorem merge_complete_witness :
    merge acceptAll [shardA, shardB] = .ok mergedAB ∧
    mergedAB.added.length = ([shardA, shardB].map fun d => d.fileBranchMasks.length).sum ∧
    List.Forall₂
      (fun src doc => AssembledFrom src doc ∧ src.1.readContents src.2 = .ok doc.Content)
      (sourceDocs [shardA, shardB]) mergedAB.added :=
  ⟨by decide, merge_complete acceptAll [shardA, shardB] mergedAB (by decide)⟩


/-! ## Cutting a run of `merge` at a document -/

theorem merge_split (B : BuilderRules) (pre : List IndexData) (d : IndexData)
    (post : List IndexData) (k : Nat) (hk : k ≤ d.fileBranchMasks.length) :
    merge B (pre ++ d :: post) =
      (stateAt B pre d post k).bind fun st =>
      (mergeDocs B d (List.range' k (d.fileBranchMasks.length - k)) st).bind fun st1 =>
      (mergeShards B post (st1.1, -1)).bind fun st2 => .ok st2.1 := by
  have hrange : List.range d.fileBranchMasks.length =
      List.range k ++ List.range' k (d.fileBranchMasks.length - k) := by
    rw [List.range_eq_range', List.range_eq_range']
    have := List.range'_append_1 0 k (d.fileBranchMasks.length - k)
    rw [Nat.zero_add] at this
    rw [this]
    congr 1
    omega
  simp only [merge, stateAt, mergeShards_append, mergeShards, mergeShard, hrange,
    mergeDocs_append, Outcome.bind_assoc, Outcome.ok_bind]

theorem merge_at_doc (B : BuilderRules) (pre : List IndexData) (d : IndexData)
    (post : List IndexData) (k : Nat) (hk : k < d.fileBranchMasks.length) :
    merge B (pre ++ d :: post) =
      (stateAt B pre d post k).bind fun st =>
      (mergeDoc B d st k).bind fun st1 =>
      (mergeDocs B d (List.range' (k + 1) (d.fileBranchMasks.length - k - 1)) st1).bind fun st2 =>
      (mergeShards B post (st2.1, -1)).bind fun st3 => .ok st3.1 := by
  rw [merge_split B pre d post k (Nat.le_of_lt hk)]
  have hcons : List.range' k (d.fileBranchMasks.length - k) =
      k :: List.range' (k + 1) (d.fileBranchMasks.length - k - 1) := by
    rw [List.range'_eq_cons_iff]
    exact ⟨rfl, by omega, rfl⟩
  simp only [hcons, mergeDocs, Outcome.bind_assoc]

/-- The first failing document decides the result: an error of the loop body is
the error of `merge`. -/
theorem merge_eq_error_of_doc {B : BuilderRules} {pre : List IndexData} {d : IndexData}
    {post : List IndexData} {k : Nat} {st : MergeState} {e : Error}
    (hk : k < d.fileBranchMasks.length) (hst : stateAt B pre d post k = .ok st)
    (hdoc : mergeDoc B d st k = .error e) : merge B (pre ++ d :: post) = .error e := by
  rw [merge_at_doc B pre d post k hk, hst]
  simp [hdoc]

/-- A successful run reached every document. -/
theorem stateAt_of_merge_ok {B : BuilderRules} {pre : List IndexData} {d : IndexData}
    {post : List IndexData} {ib : IndexBuilder} (h : merge B (pre ++ d :: post) = .ok ib)
    (k : Nat) (hk : k ≤ d.fileBranchMasks.length) : ∃ st, stateAt B pre d post k = .ok st := by
  rw [merge_split B pre d post k hk, Outcome.bind_eq_ok] at h
  obtain ⟨st, hst, _⟩ := h
  exact ⟨st, hst⟩

theorem stateAt_succ (B : BuilderRules) (pre : List IndexData) (d : IndexData)
    (post : List IndexData) (k : Nat) :
    stateAt B pre d post (k + 1) = (stateAt B pre d post k).bind fun st => mergeDoc B d st k := by
  simp only [stateAt, List.range_succ, mergeDocs_append, mergeDocs, Outcome.bind_assoc]
  congr 1
  funext st0
  congr 1
  funext st1
  congr 1
  funext st2
  cases mergeDoc B d st2 k <;> rfl

/-- After a document was merged, `lastRepoID` is its repository id. -/
theorem mergeDoc_last {B : BuilderRules} {d : IndexData} {st st1 : MergeState} {docID : Nat}
    (h : mergeDoc B d st docID = .ok st1) :
    ∃ repoID : Nat, d.repos[docID]? = some repoID ∧ st1.2 = (repoID : Int) := by
  obtain ⟨repoID, doc, hrepo, -, hcase⟩ := mergeDoc_eq_ok.mp h
  refine ⟨repoID, hrepo, ?_⟩
  rcases hcase with ⟨h1, _, hst⟩ | ⟨_, r, _, _, hst⟩ <;> subst hst
  · exact h1.symm
  · rfl

/-- The contiguity check of line 87 fails: the loop body returns the error of line 88. -/
theorem mergeDoc_nonContiguous {B : BuilderRules} {d : IndexData} {st : MergeState}
    {docID repoID : Nat} (hrepo : d.repos[docID]? = some repoID)
    (h1 : (repoID : Int) ≠ st.2) (h2 : st.2 + 1 ≠ (repoID : Int)) :
    mergeDoc B d st docID = .error (.nonContiguous d.name docID st.2 repoID) := by
  simp [mergeDoc, index_eq_ok.mpr hrepo, checkRepo, h1, h2]

/-- C2 (contiguity rejection): in any shard of a non-empty input, a document
other than the shard's first whose repository id is neither equal to nor one
greater than the repository id of the preceding document makes `merge` return
the non-contiguous error (and hence no builder), provided no earlier step
failed, that is, provided the run reached that document. -/
theorem merge_rejects_noncontiguous (B : BuilderRules) (pre : List IndexData) (d : IndexData)
    (post : List IndexData) (docID a b : Nat) (st : MergeState)
    (hlen : docID + 1 < d.fileBranchMasks.length)
    (ha : d.repos[docID]? = some a) (hb : d.repos[docID + 1]? = some b)
    (hne : b ≠ a) (hne1 : b ≠ a + 1)
    (hreach : stateAt B pre d post (docID + 1) = .ok st) :
    merge B (pre ++ d :: post) = .error (.nonContiguous d.name (docID + 1) a b) := by
  have hlast : st.2 = (a : Int) := by
    rw [stateAt_succ, Outcome.bind_eq_ok] at hreach
    obtain ⟨st0, -, hdoc⟩ := hreach
    obtain ⟨r, hr, hst⟩ := mergeDoc_last hdoc
    rw [ha] at hr
    cases hr
    exact hst
  have hdoc : mergeDoc B d st (docID + 1) = .error (.nonContiguous d.name (docID + 1) st.2 b) :=
    mergeDoc_nonContiguous hb (by rw [hlast]; exact_mod_cast hne) (by rw [hlast]; omega)
  rw [hlast] at hdoc
  exact merge_eq_error_of_doc hlen hreach hdoc

theorem merge_rejects_noncontiguous_witness :
    stateAt acceptAll [] gapShard [] 2 = .ok gapState ∧
    merge acceptAll ([] ++ gapShard :: []) = .error (.nonContiguous gapShard.name 2 1 3) :=
  ⟨by decide,
   merge_rejects_noncontiguous acceptAll [] gapShard [] 1 1 3 gapState (by decide) (by decide)
     (by decide) (by decide) (by decide) (by decide)⟩


/-! ## The tracker `lastRepoID` at the start of a shard -/

theorem mergeShard_last {B : BuilderRules} {d : IndexData} {st st1 : MergeState}
    (h : mergeShard B d st = .ok st1) : st1.2 = -1 := by
  simp only [mergeShard, Outcome.bind_eq_ok] at h
  obtain ⟨st2, -, h2⟩ := h
  simp only [Outcome.ok.injEq] at h2
  subst h2
  rfl

theorem mergeShards_last {B : BuilderRules} (ds : List IndexData) {st st1 : MergeState}
    (hne : ds ≠ []) (h : mergeShards B ds st = .ok st1) : st1.2 = -1 := by
  induction ds generalizing st with
  | nil => exact absurd rfl hne
  | cons d rest ih =>
    simp only [mergeShards, Outcome.bind_eq_ok] at h
    obtain ⟨st2, h1, h2⟩ := h
    cases rest with
    | nil =>
      simp only [mergeShards, Outcome.ok.injEq] at h2
      subst h2
      exact mergeShard_last h1
    | cons d1 rest1 => exact ih (by simp) h2

theorem stateAt_zero (B : BuilderRules) (pre : List IndexData) (d : IndexData)
    (post : List IndexData) :
    stateAt B pre d post 0 = (mergeInit B (pre ++ d :: post)).bind fun st0 => mergeShards B pre st0 := by
  simp only [stateAt, List.range_zero, mergeDocs]
  congr 1
  funext st0
  cases mergeShards B pre st0 <;> rfl

theorem stateAt_zero_last {B : BuilderRules} {pre : List IndexData} {d : IndexData}
    {post : List IndexData} {st : MergeState} (h : stateAt B pre d post 0 = .ok st) :
    (pre = [] → st.2 = 0) ∧ (pre ≠ [] → st.2 = -1) := by
  rw [stateAt_zero, Outcome.bind_eq_ok] at h
  obtain ⟨st0, h0, h1⟩ := h
  refine ⟨fun hpre => ?_, fun hpre => mergeShards_last pre hpre h1⟩
  subst hpre
  simp only [mergeShards, Outcome.ok.injEq] at h1
  subst h1
  obtain ⟨_, _, _, _, _, _, hst0⟩ := mergeInit_eq_ok.mp h0
  simp [hst0]

/-- C3, as amended: at the start of every shard after the first the tracker
`lastRepoID` holds the sentinel -1, and such a shard whose first document has a
repository id other than 0 is never merged: `merge` returns no builder, and it
returns the non-contiguous error when no earlier step failed.  At the start of
the first shard the tracker holds 0 (repository 0 is already open in the
builder), and a first document with repository id 2 or more is rejected in the
same way. -/
theorem merge_first_doc_of_shard (B : BuilderRules) (pre : List IndexData) (d : IndexData)
    (post : List IndexData) (r : Nat)
    (hlen : 0 < d.fileBranchMasks.length) (hr : d.repos[0]? = some r) :
    (∀ st, stateAt B pre d post 0 = .ok st → (pre = [] → st.2 = 0) ∧ (pre ≠ [] → st.2 = -1)) ∧
    (pre ≠ [] → r ≠ 0 →
      (∀ ib, merge B (pre ++ d :: post) ≠ .ok ib) ∧
      ∀ st, stateAt B pre d post 0 = .ok st →
        merge B (pre ++ d :: post) = .error (.nonContiguous d.name 0 (-1) r)) ∧
    (pre = [] → 2 ≤ r →
      (∀ ib, merge B (pre ++ d :: post) ≠ .ok ib) ∧
      ∀ st, stateAt B pre d post 0 = .ok st →
        merge B (pre ++ d :: post) = .error (.nonContiguous d.name 0 0 r)) := by
  have key : ∀ st, stateAt B pre d post 0 = .ok st →
      (r : Int) ≠ st.2 → st.2 + 1 ≠ (r : Int) →
      merge B (pre ++ d :: post) = .error (.nonContiguous d.name 0 st.2 r) := by
    intro st hst h1 h2
    exact merge_eq_error_of_doc hlen hst (mergeDoc_nonContiguous hr h1 h2)
  have later : pre ≠ [] → r ≠ 0 → ∀ st, stateAt B pre d post 0 = .ok st →
      merge B (pre ++ d :: post) = .error (.nonContiguous d.name 0 (-1) r) := by
    intro hpre hr0 st hst
    have hlast := (stateAt_zero_last hst).2 hpre
    have := key st hst (by rw [hlast]; omega) (by rw [hlast]; omega)
    rwa [hlast] at this
  have first : pre = [] → 2 ≤ r → ∀ st, stateAt B pre d post 0 = .ok st →
      merge B (pre ++ d :: post) = .error (.nonContiguous d.name 0 0 r) := by
    intro hpre hr2 st hst
    have hlast := (stateAt_zero_last hst).1 hpre
    have := key st hst (by rw [hlast]; omega) (by rw [hlast]; omega)
    rwa [hlast] at this
  refine ⟨fun st hst => stateAt_zero_last hst, ?_, ?_⟩
  · intro hpre hr0
    refine ⟨?_, later hpre hr0⟩
    intro ib hok
    obtain ⟨st, hst⟩ := stateAt_of_merge_ok hok 0 (Nat.zero_le _)
    rw [later hpre hr0 st hst] at hok
    cases hok
  · intro hpre hr2
    refine ⟨?_, first hpre hr2⟩
    intro ib hok
    obtain ⟨st, hst⟩ := stateAt_of_merge_ok hok 0 (Nat.zero_le _)
    rw [first hpre hr2 st hst] at hok
    cases hok

/-- C3, counterexample: the first document of `lateShard` has repository id 1,
the tracker holds 0 (an id in range) when the shard starts, and `merge` accepts
the shard. -/
theorem first_shard_accepts_repo_one :
    lateShard.repos[0]? = some 1 ∧
    stateAt acceptAll [] lateShard [] 0 = .ok (⟨[.setRepository ⟨"r0", ["HEAD"]⟩]⟩, 0) ∧
    merge acceptAll [lateShard] = .ok mergedLate := by
  decide

theorem merge_first_doc_of_shard_witness :
    ((0 < lateShard.fileBranchMasks.length ∧ lateShard.repos[0]? = some 1) ∧
      stateAt acceptAll [shardA] lateShard [] 0 = .ok stateAfterA ∧
      merge acceptAll ([shardA] ++ lateShard :: []) =
        .error (.nonContiguous lateShard.name 0 (-1) 1)) ∧
    ((0 < skipShard.fileBranchMasks.length ∧ skipShard.repos[0]? = some 2) ∧
      stateAt acceptAll [] skipShard [] 0 = .ok (⟨[.setRepository ⟨"r0", ["HEAD"]⟩]⟩, 0) ∧
      merge acceptAll ([] ++ skipShard :: []) = .error (.nonContiguous skipShard.name 0 0 2)) :=
  ⟨⟨by decide, by decide,
    ((merge_first_doc_of_shard acceptAll [shardA] lateShard [] 1 (by decide) (by decide)).2.1
      (by simp) (by decide)).2 stateAfterA (by decide)⟩,
   ⟨by decide, by decide,
    ((merge_first_doc_of_shard acceptAll [] skipShard [] 2 (by decide) (by decide)).2.2
      rfl (by decide)).2 (⟨[.setRepository ⟨"r0", ["HEAD"]⟩]⟩, 0) (by decide)⟩⟩


/-! ## The repository open when a document is added -/

theorem lastOpen_append (cur : Option Repository) (xs ys : List BuilderCall) :
    lastOpen cur (xs ++ ys) = lastOpen (lastOpen cur xs) ys := by
  induction xs generalizing cur with
  | nil => rfl
  | cons c cs ih => cases c <;> simp [lastOpen, ih]

theorem ownersFrom_append (cur : Option Repository) (xs ys : List BuilderCall) :
    ownersFrom cur (xs ++ ys) = ownersFrom cur xs ++ ownersFrom (lastOpen cur xs) ys := by
  induction xs generalizing cur with
  | nil => rfl
  | cons c cs ih => cases c <;> simp [ownersFrom, lastOpen, ih]

theorem mergeDoc_owner {B : BuilderRules} {d : IndexData} {st st1 : MergeState} {docID : Nat}
    (hinv : OpenMatches d st) (h : mergeDoc B d st docID = .ok st1) :
    OpenMatches d st1 ∧
    ∃ o, st1.1.owners = st.1.owners ++ [o] ∧ OwnedBySource (d, docID) o := by
  obtain ⟨repoID, doc, hrepo, hdoc, hcase⟩ := mergeDoc_eq_ok.mp h
  rcases hcase with ⟨h1, _, hst⟩ | ⟨_, r, hr, _, hst⟩
  · obtain ⟨r, hr, hopen⟩ := hinv repoID h1.symm
    subst hst
    refine ⟨?_, (some r, doc), ?_, repoID, r, hrepo, hr, rfl, repoID, hrepo, hdoc⟩
    · intro n hn
      obtain ⟨r1, hr1, hopen1⟩ := hinv n hn
      exact ⟨r1, hr1, by simp [lastOpen_append, hopen1, lastOpen]⟩
    · simp [IndexBuilder.owners, ownersFrom_append, hopen, ownersFrom]
  · subst hst
    refine ⟨?_, (some r, doc), ?_, repoID, r, hrepo, hr, rfl, repoID, hrepo, hdoc⟩
    · intro n hn
      have hn' : (repoID : Int) = (n : Int) := hn
      have hn1 : repoID = n := by exact_mod_cast hn'
      subst hn1
      exact ⟨r, hr, by simp [lastOpen_append, lastOpen]⟩
    · simp [IndexBuilder.owners, ownersFrom_append, ownersFrom, lastOpen]

theorem mergeDocs_owners {B : BuilderRules} {d : IndexData} (ids : List Nat) {st st1 : MergeState}
    (hinv : OpenMatches d st) (h : mergeDocs B d ids st = .ok st1) :
    ∃ os, st1.1.owners = st.1.owners ++ os ∧
      List.Forall₂ (fun docID o => OwnedBySource (d, docID) o) ids os := by
  induction ids generalizing st with
  | nil =>
    simp only [mergeDocs, Outcome.ok.injEq] at h
    subst h
    exact ⟨[], by simp, List.Forall₂.nil⟩
  | cons i ids ih =>
    simp only [mergeDocs, Outcome.bind_eq_ok] at h
    obtain ⟨st2, h1, h2⟩ := h
    obtain ⟨hinv2, o, ho, hown⟩ := mergeDoc_owner hinv h1
    obtain ⟨os, hos, hall⟩ := ih hinv2 h2
    exact ⟨o :: os, by simp [hos, ho], List.Forall₂.cons hown hall⟩

theorem mergeShards_owners {B : BuilderRules} (ds : List IndexData) {st st1 : MergeState}
    (hinv : ∀ d rest, ds = d :: rest → OpenMatches d st) (h : mergeShards B ds st = .ok st1) :
    ∃ os, st1.1.owners = st.1.owners ++ os ∧
      List.Forall₂ OwnedBySource (sourceDocs ds) os := by
  induction ds generalizing st with
  | nil =>
    simp only [mergeShards, Outcome.ok.injEq] at h
    subst h
    exact ⟨[], by simp, List.Forall₂.nil⟩
  | cons d ds ih =>
    simp only [mergeShards, Outcome.bind_eq_ok] at h
    obtain ⟨st2, h1, h2⟩ := h
    have hlast := mergeShard_last h1
    simp only [mergeShard, Outcome.bind_eq_ok] at h1
    obtain ⟨st3, h3, h4⟩ := h1
    simp only [Outcome.ok.injEq] at h4
    obtain ⟨os1, hos1, hall1⟩ := mergeDocs_owners _ (hinv d ds rfl) h3
    have hinv2 : ∀ d1 rest, ds = d1 :: rest → OpenMatches d1 st2 := by
      intro d1 rest _ n hn
      rw [hlast] at hn
      omega
    obtain ⟨os2, hos2, hall2⟩ := ih hinv2 h2
    refine ⟨os1 ++ os2, ?_, ?_⟩
    · rw [hos2, ← h4]
      simp [hos1]
    · simp only [sourceDocs]
      refine List.rel_append ?_ hall2
      simpa [List.forall₂_map_left_iff] using hall1

/-- C4 (repository fidelity): when `merge` succeeds, every added document was
added while the builder's open repository (the one given to `NewIndexBuilder`
or to the latest `setRepository`) was the source shard's `repoMetaData` entry
at the repository id of the source document it was assembled from. -/
theorem merge_repository_fidelity (B : BuilderRules) (ds : List IndexData) (ib : IndexBuilder)
    (h : merge B ds = .ok ib) :
    List.Forall₂
      (fun src o => ∃ repoID r, src.1.repos[src.2]? = some repoID ∧
        src.1.repoMetaData[repoID]? = some r ∧ o.1 = some r ∧ AssembledFrom src o.2)
      (sourceDocs ds) ib.owners := by
  obtain ⟨st0, st, h0, h1, rfl⟩ := merge_eq_ok.mp h
  obtain ⟨d0, rest, r0, hds, hr0, -, hst0⟩ := mergeInit_eq_ok.mp h0
  have hinv : ∀ d rest, ds = d :: rest → OpenMatches d st0 := by
    intro d rest1 hd n hn
    rw [hds] at hd
    simp only [List.cons.injEq] at hd
    obtain ⟨rfl, -⟩ := hd
    rw [hst0] at hn ⊢
    have hn' : (0 : Int) = (n : Int) := hn
    have hn0 : n = 0 := by omega
    subst hn0
    exact ⟨r0, hr0, rfl⟩
  obtain ⟨os, hos, hall⟩ := mergeShards_owners ds hinv h1
  have : st.1.owners = os := by
    rw [hos, hst0]
    simp [IndexBuilder.owners, ownersFrom]
  rw [this]
  exact hall

theorem merge_repository_fidelity_witness :
    merge acceptAll [shardA, shardB] = .ok mergedAB ∧
    List.Forall₂
      (fun src o => ∃ repoID r, src.1.repos[src.2]? = some repoID ∧
        src.1.repoMetaData[repoID]? = some r ∧ o.1 = some r ∧ AssembledFrom src o.2)
      (sourceDocs [shardA, shardB]) mergedAB.owners :=
  ⟨by decide, merge_repository_fidelity acceptAll [shardA, shardB] mergedAB (by decide)⟩


/-! ## Decoding the branch mask -/

theorem setBits_zero (w : Nat) : setBits w 0 = [] := by
  simp [setBits]

theorem setBits_succ (w m : Nat) :
    setBits (w + 1) m =
      (if m % 2 = 1 then [0] else []) ++ (setBits w (m / 2)).map (· + 1) := by
  unfold setBits
  rw [List.range_succ_eq_map, List.filter_cons, List.filter_map]
  have h0 : m.testBit 0 = decide (m % 2 = 1) := Nat.testBit_zero m
  have hs : ((fun i => m.testBit i) ∘ Nat.succ) = fun i => (m / 2).testBit i := by
    funext i
    simp [Nat.testBit_succ]
  rw [hs, h0]
  by_cases h : m % 2 = 1 <;> simp [h]

theorem two_pow_step (k : Nat) : 2 ^ k % 2 ^ 32 * 2 % 2 ^ 32 = 2 ^ (k + 1) % 2 ^ 32 := by
  rw [Nat.mod_mul_mod, ← pow_succ]

theorem size_half {m : Nat} (hm : m ≠ 0) : m.size = (m / 2).size + 1 := by
  have hpos : 0 < m.size := Nat.size_pos.mpr (Nat.pos_of_ne_zero hm)
  have key : ∀ k, m.size ≤ k + 1 ↔ (m / 2).size ≤ k := by
    intro k
    rw [Nat.size_le, Nat.size_le, Nat.div_lt_iff_lt_mul (by decide), pow_succ]
  have h1 := (key (m / 2).size).mpr (Nat.le_refl _)
  have h2 := (key (m.size - 1)).mp (by omega)
  omega

/-- With a bound that covers the bits of `mask`, the loop is left through its
condition (`mask` is 0 at the end) after as many passes as `mask` has bits.  It
appends, for every set bit of `mask` in ascending order, the name found under
the current value of `id`; `id` is `2 ^ k` reduced to 32 bits. -/
theorem branchLoop_eq {d : IndexData} {repoID : Nat} {names : Nat → String}
    (hnames : d.branchNames[repoID]? = some names) (fuel : Nat) :
    ∀ (w mask k : Nat) (acc : List String) (p : Nat), mask < 2 ^ fuel → mask < 2 ^ w →
      branchLoop d repoID fuel ⟨mask, 2 ^ k % 2 ^ 32, acc, p⟩ =
        .ok ⟨0, 2 ^ (k + mask.size) % 2 ^ 32,
          acc ++ (setBits w mask).map fun i => names (2 ^ (k + i) % 2 ^ 32), p + mask.size⟩ := by
  induction fuel with
  | zero =>
    intro w mask k acc p hf _
    have : mask = 0 := by simpa using hf
    subst this
    simp [branchLoop, setBits_zero]
  | succ fuel ih =>
    intro w mask k acc p hf hw
    by_cases hm : mask = 0
    · subst hm
      simp [branchLoop, setBits_zero]
    · cases w with
      | zero => exact absurd (by simpa using hw) hm
      | succ w =>
        have hf2 : mask / 2 < 2 ^ fuel := by
          rw [Nat.div_lt_iff_lt_mul (by decide)]
          rw [pow_succ] at hf
          exact hf
        have hw2 : mask / 2 < 2 ^ w := by
          rw [Nat.div_lt_iff_lt_mul (by decide)]
          rw [pow_succ] at hw
          exact hw
        have hshift : (fun i => names (2 ^ (k + 1 + i) % 2 ^ 32)) =
            (fun i => names (2 ^ (k + i) % 2 ^ 32)) ∘ (· + 1) := by
          funext i
          simp only [Function.comp]
          congr 3
          omega
        have hk : k + 1 + (mask / 2).size = k + mask.size := by
          rw [size_half hm]
          omega
        have hp : p + 1 + (mask / 2).size = p + mask.size := by
          rw [size_half hm]
          omega
        rw [branchLoop]
        simp only [hm, if_false]
        by_cases hbit : mask % 2 = 1
        · have hbit' : mask % 2 ≠ 0 := by omega
          simp only [hbit', ne_eq, not_false_eq_true, if_true, index_eq_ok.mpr hnames,
            Outcome.ok_bind]
          rw [two_pow_step, ih w (mask / 2) (k + 1) _ _ hf2 hw2, setBits_succ, hk, hp]
          simp only [hbit, if_true, List.map_append, List.map_map, hshift, List.map_cons,
            List.map_nil, Nat.add_zero, List.append_assoc]
        · have hbit' : mask % 2 = 0 := by omega
          simp only [hbit', ne_eq, not_true_eq_false, if_false, Outcome.ok_bind]
          rw [two_pow_step, ih w (mask / 2) (k + 1) _ _ hf2 hw2, setBits_succ, hk, hp]
          simp only [hbit', if_false, List.map_append, List.map_map, hshift, List.map_nil,
            List.nil_append, Nat.zero_ne_one]

/-- With a bound below the bit length of `mask`, the bound is used up before
the loop condition fails: every unit of the bound is one pass, and `mask` is not
yet 0. -/
theorem branchLoop_short {d : IndexData} {repoID : Nat} {names : Nat → String}
    (hnames : d.branchNames[repoID]? = some names) (fuel : Nat) :
    ∀ (mask id : Nat) (acc : List String) (p : Nat), fuel < mask.size →
      ∃ v, branchLoop d repoID fuel ⟨mask, id, acc, p⟩ = .ok v ∧ v.mask ≠ 0 ∧
        v.passes = p + fuel := by
  induction fuel with
  | zero =>
    intro mask id acc p hf
    refine ⟨⟨mask, id, acc, p⟩, rfl, ?_, rfl⟩
    intro h0
    simp only at h0
    subst h0
    simp [Nat.size_zero] at hf
  | succ fuel ih =>
    intro mask id acc p hf
    have hm : mask ≠ 0 := by
      intro h0
      subst h0
      simp [Nat.size_zero] at hf
    have hf2 : fuel < (mask / 2).size := by
      rw [size_half hm] at hf
      omega
    rw [branchLoop]
    simp only [hm, if_false]
    by_cases hbit : mask % 2 = 1
    · have hbit' : mask % 2 ≠ 0 := by omega
      simp only [hbit', ne_eq, not_false_eq_true, if_true, index_eq_ok.mpr hnames,
        Outcome.ok_bind]
      obtain ⟨v, hv, hv0, hvp⟩ := ih (mask / 2) (id * 2 % 2 ^ 32) (acc ++ [names id]) (p + 1) hf2
      exact ⟨v, hv, hv0, by omega⟩
    · have hbit' : mask % 2 = 0 := by omega
      simp only [hbit', ne_eq, not_true_eq_false, if_false, Outcome.ok_bind]
      obtain ⟨v, hv, hv0, hvp⟩ := ih (mask / 2) (id * 2 % 2 ^ 32) acc (p + 1) hf2
      exact ⟨v, hv, hv0, by omega⟩

theorem calcBranches_zero (d : IndexData) (repoID : Nat) : calcBranches d repoID 0 = .ok [] := by
  simp [calcBranches, branchLoop]

theorem calcBranches_eq {d : IndexData} {repoID : Nat} {names : Nat → String}
    (hnames : d.branchNames[repoID]? = some names) (w mask : Nat) (hw : mask < 2 ^ w) :
    calcBranches d repoID mask = .ok ((setBits w mask).map fun i => names (2 ^ i % 2 ^ 32)) := by
  have h := branchLoop_eq hnames mask w mask 0 [] 0 (Nat.lt_two_pow mask) hw
  simp only [pow_zero, Nat.zero_add, List.nil_append] at h
  have h1 : (1 : Nat) % 2 ^ 32 = 1 := by decide
  rw [h1] at h
  simp [calcBranches, h]

theorem mem_setBits {w m i : Nat} (h : i ∈ setBits w m) : i < w := by
  simp only [setBits, List.mem_filter, List.mem_range] at h
  exact h.1

theorem assemble_branches_eq {d : IndexData} {docID repoID : Nat} {doc : Document}
    (h : assemble d docID repoID = .ok doc) :
    ∃ mask, d.fileBranchMasks[docID]? = some mask ∧ calcBranches d repoID mask = .ok doc.Branches := by
  simp only [assemble, Outcome.bind_eq_ok, index_eq_ok] at h
  obtain ⟨_, _, _, _, _, _, _, _, _, _, _, _, _, _, mask, hmask, br, hbr, hdoc⟩ := h
  simp only [Outcome.ok.injEq] at hdoc
  subst hdoc
  exact ⟨mask, hmask, hbr⟩

theorem testBit_eq_false_of_lt {m n i : Nat} (hm : m < 2 ^ n) (hi : n ≤ i) :
    m.testBit i = false := by
  apply Nat.testBit_lt_two_pow
  exact Nat.lt_of_lt_of_le hm (Nat.pow_le_pow_right (by decide) hi)

/-- Below bit 32 the loop decodes a mask by branch id.  For a document with
branch mask `m`, an empty mask gives the empty `Branches` list, and for
`m < 2 ^ 32` the assembled `Branches` list is the list, over the set bits `i` of
`m` in ascending order, of the name the owning repository's branch table holds
under the key `2 ^ i` (the counter `id`, which starts at 1 and is doubled at
every bit position).  When the table holds the `k`-th name of a list `branches`
under key `2 ^ (k - 1)`, these are the names of the branches with the 1-based
ids `i + 1`, provided all set bits lie below the length of the list. -/
theorem assemble_branches_below_wrap (d : IndexData) (docID repoID m : Nat) (doc : Document)
    (hdoc : assemble d docID repoID = .ok doc) (hm : d.fileBranchMasks[docID]? = some m) :
    (m = 0 → doc.Branches = []) ∧
    ∀ names, d.branchNames[repoID]? = some names →
      (m < 2 ^ 32 → doc.Branches = (setBits 32 m).map fun i => names (2 ^ i)) ∧
      (m = 1 → doc.Branches = [names 1]) ∧
      (m = 5 → doc.Branches = [names 1, names 4]) ∧
      (∀ branches : List String, (∀ j, j < branches.length → names (2 ^ j) = branches.getD j "") →
        m < 2 ^ 32 → m < 2 ^ branches.length →
        doc.Branches = branchesByID branches 32 m) := by
  obtain ⟨mask, hmask, hbr⟩ := assemble_branches_eq hdoc
  rw [hm] at hmask
  cases hmask
  have main : ∀ names, d.branchNames[repoID]? = some names → m < 2 ^ 32 →
      doc.Branches = (setBits 32 m).map fun i => names (2 ^ i) := by
    intro names hnames h32
    rw [calcBranches_eq hnames 32 m h32] at hbr
    simp only [Outcome.ok.injEq] at hbr
    rw [← hbr]
    apply List.map_congr_left
    intro i hi
    have hi32 : i < 32 := mem_setBits hi
    rw [Nat.mod_eq_of_lt (Nat.pow_lt_pow_right (by decide) hi32)]
  refine ⟨?_, fun names hnames => ⟨main names hnames, ?_, ?_, ?_⟩⟩
  · intro h0
    subst h0
    rw [calcBranches_zero] at hbr
    simp only [Outcome.ok.injEq] at hbr
    exact hbr.symm
  · intro h1
    subst h1
    rw [main names hnames (by decide), show setBits 32 1 = [0] by decide]
    rfl
  · intro h5
    subst h5
    rw [main names hnames (by decide), show setBits 32 5 = [0, 2] by decide]
    rfl
  · intro branches htable h32 hlen
    rw [main names hnames h32]
    unfold branchesByID
    apply List.map_congr_left
    intro i hi
    simp only [setBits, List.mem_filter, List.mem_range] at hi
    have hlt : i < branches.length := by
      by_contra hge
      rw [testBit_eq_false_of_lt hlen (Nat.le_of_not_lt hge)] at hi
      exact absurd hi.2 (by decide)
    exact htable i hlt

/-- C5, the code at the failing input: the document of `wideShard` is live on
branch 33 only, its mask is `2 ^ 32` (bit 32 alone), and the branch table of its
repository holds the name of the branch with 1-based id `k` under the key
`2 ^ (k - 1)`, so `b33` under `2 ^ 32`.  The list by branch id is `["b33"]`.  The
loop looks the name up under `id`, a `uint32` that is 0 after 32 doublings, and
the assembled list is `[""]`, the name of an absent key.  On the masks `0b0000`,
`0b0001` and `0b0101` of the documents of `shardB` and `shardA` the assembled
lists are the lists by branch id: none, the branch at id 1, the branches at ids
1 and 3. -/
theorem branch_33_lost :
    (wideShard.fileBranchMasks[0]? = some (2 ^ 32) ∧
      wideShard.repoMetaData[0]? = some ⟨"r", wideBranches⟩ ∧
      (∀ j, j < 33 →
        (index wideShard.branchNames 0).bind (fun names => .ok (names (2 ^ j))) =
          .ok (wideBranches.getD j "")) ∧
      branchesByID wideBranches 64 (2 ^ 32) = ["b33"] ∧
      (assemble wideShard 0 0).bind (fun doc => .ok doc.Branches) = .ok [""] ∧
      (assemble wideShard 0 0).bind (fun doc => .ok doc.Branches) ≠
        .ok (branchesByID wideBranches 64 (2 ^ 32))) ∧
    (shardB.fileBranchMasks[1]? = some 0 ∧
      (assemble shardB 1 0).bind (fun doc => .ok doc.Branches) =
        .ok (branchesByID ["HEAD"] 64 0) ∧
      branchesByID ["HEAD"] 64 0 = []) ∧
    (shardA.fileBranchMasks[0]? = some 1 ∧
      (assemble shardA 0 0).bind (fun doc => .ok doc.Branches) =
        .ok (branchesByID ["HEAD", "dev", "rel"] 64 1) ∧
      branchesByID ["HEAD", "dev", "rel"] 64 1 = ["HEAD"]) ∧
    (shardA.fileBranchMasks[1]? = some 5 ∧
      (assemble shardA 1 0).bind (fun doc => .ok doc.Branches) =
        .ok (branchesByID ["HEAD", "dev", "rel"] 64 5) ∧
      branchesByID ["HEAD", "dev", "rel"] 64 5 = ["HEAD", "rel"]) := by
  decide


/-! ## Which repositories get registered -/

theorem registered_append (xs ys : List BuilderCall) :
    (IndexBuilder.mk (xs ++ ys)).registered =
      (IndexBuilder.mk xs).registered ++ (IndexBuilder.mk ys).registered := by
  simp [IndexBuilder.registered]

theorem mergeDocs_range_succ (B : BuilderRules) (d : IndexData) (j : Nat) (st : MergeState) :
    mergeDocs B d (List.range (j + 1)) st =
      (mergeDocs B d (List.range j) st).bind fun st1 => mergeDoc B d st1 j := by
  rw [List.range_succ, mergeDocs_append]
  congr 1
  funext st1
  simp only [mergeDocs]
  cases mergeDoc B d st1 j <;> rfl

theorem registeredUpTo_step {B : BuilderRules} {d : IndexData} {base : List Repository} {j : Nat}
    {st st1 : MergeState} (hinv : RegisteredUpTo d base j st)
    (h : mergeDoc B d st j = .ok st1) : RegisteredUpTo d base (j + 1) st1 := by
  obtain ⟨m, hm, hlt, hseen, hreg⟩ := hinv
  obtain ⟨repoID, doc, hrepo, -, hcase⟩ := mergeDoc_eq_ok.mp h
  have htake : ∀ r, r ∈ d.repos.take (j + 1) ↔ r ∈ d.repos.take j ∨ r = repoID := by
    intro r
    rw [List.take_succ, hrepo]
    simp
  rcases hcase with ⟨h1, _, hst⟩ | ⟨h1, r, hr, _, hst⟩
  · have hrm : repoID = m := by omega
    subst hst
    refine ⟨m, hm, hlt, ?_, ?_⟩
    · intro r
      rw [htake, hseen, hrm]
      omega
    · show (IndexBuilder.mk (st.1.calls ++ [.add doc])).registered = _
      rw [registered_append, ← hreg]
      simp [IndexBuilder.registered]
  · have hrm : repoID = m + 1 := by omega
    subst hst
    have hlt1 : m + 1 < d.repoMetaData.length := by
      rw [hrm] at hr
      exact (List.getElem?_eq_some_iff.mp hr).1
    refine ⟨m + 1, by simp [hrm], hlt1, ?_, ?_⟩
    · intro r
      rw [htake, hseen, hrm]
      omega
    · show (IndexBuilder.mk (st.1.calls ++ [.setRepository r, .add doc])).registered = _
      rw [registered_append, List.range_succ, List.filterMap_append, ← List.append_assoc, ← hreg]
      rw [hrm] at hr
      simp [IndexBuilder.registered, hr]

theorem registeredUpTo_range {B : BuilderRules} {d : IndexData} {base : List Repository}
    {st : MergeState}
    (h1 : ∀ st1, mergeDoc B d st 0 = .ok st1 → RegisteredUpTo d base 1 st1) (j : Nat) :
    ∀ stj, mergeDocs B d (List.range (j + 1)) st = .ok stj → RegisteredUpTo d base (j + 1) stj := by
  induction j with
  | zero =>
    intro stj h
    rw [mergeDocs_range_succ] at h
    simp only [List.range_zero, mergeDocs, Outcome.ok_bind] at h
    exact h1 stj h
  | succ j ih =>
    intro stj h
    rw [mergeDocs_range_succ, Outcome.bind_eq_ok] at h
    obtain ⟨st2, h2, h3⟩ := h
    exact registeredUpTo_step (ih st2 h2) h3

theorem filter_le_range (m k : Nat) :
    (List.range (m + 1 + k)).filter (fun r => decide (r ≤ m)) = List.range (m + 1) := by
  have hleft : (List.range (m + 1)).filter (fun r => decide (r ≤ m)) = List.range (m + 1) := by
    rw [List.filter_eq_self]
    intro r hr
    simp only [List.mem_range] at hr
    simp only [decide_eq_true_eq]
    omega
  have hright : ((List.range k).map (m + 1 + ·)).filter (fun r => decide (r ≤ m)) = [] := by
    rw [List.filter_eq_nil_iff]
    intro r hr
    simp only [List.mem_map] at hr
    obtain ⟨a, -, rfl⟩ := hr
    simp only [decide_eq_true_eq]
    omega
  rw [List.range_add, List.filter_append, hleft, hright, List.append_nil]

theorem ownedRepoIDs_eq {d : IndexData} {base : List Repository} {st : MergeState}
    (hinv : RegisteredUpTo d base d.fileBranchMasks.length st) :
    st.1.registered = base ++ (ownedRepoIDs d).filterMap (fun r => d.repoMetaData[r]?) := by
  obtain ⟨m, -, hlt, hseen, hreg⟩ := hinv
  rw [hreg]
  congr 2
  unfold ownedRepoIDs
  have hfilter : (List.range d.repoMetaData.length).filter
      (fun r => decide (r ∈ d.repos.take d.fileBranchMasks.length)) =
      (List.range d.repoMetaData.length).filter (fun r => decide (r ≤ m)) := by
    apply List.filter_congr
    intro r _
    simp [hseen r]
  obtain ⟨k, hk⟩ : ∃ k, d.repoMetaData.length = m + 1 + k := ⟨d.repoMetaData.length - (m + 1), by omega⟩
  rw [hfilter, hk, filter_le_range]

/-- A shard that starts with the tracker at -1 registers exactly its owned records. -/
theorem mergeShard_registered {B : BuilderRules} {d : IndexData} {st st1 : MergeState}
    (hlast : st.2 = -1) (h : mergeShard B d st = .ok st1) :
    st1.1.registered =
      st.1.registered ++ (ownedRepoIDs d).filterMap (fun r => d.repoMetaData[r]?) := by
  simp only [mergeShard, Outcome.bind_eq_ok] at h
  obtain ⟨st2, h2, h3⟩ := h
  simp only [Outcome.ok.injEq] at h3
  subst h3
  cases hn : d.fileBranchMasks.length with
  | zero =>
    rw [hn] at h2
    simp only [List.range_zero, mergeDocs, Outcome.ok.injEq] at h2
    subst h2
    simp [ownedRepoIDs, hn]
  | succ n =>
    rw [hn] at h2
    have hfirst : ∀ s1, mergeDoc B d st 0 = .ok s1 → RegisteredUpTo d st.1.registered 1 s1 := by
      intro s1 hs1
      obtain ⟨repoID, doc, hrepo, -, hcase⟩ := mergeDoc_eq_ok.mp hs1
      rcases hcase with ⟨h1, _, _⟩ | ⟨h1, r, hr, _, hst⟩
      · omega
      · have h0 : repoID = 0 := by omega
        subst h0
        subst hst
        refine ⟨0, rfl, (List.getElem?_eq_some_iff.mp hr).1, ?_, ?_⟩
        · intro r1
          rw [List.take_succ, hrepo]
          simp
        · show (IndexBuilder.mk (st.1.calls ++ [.setRepository r, .add doc])).registered = _
          rw [registered_append]
          simp [IndexBuilder.registered, hr, List.range_succ]
    have hinv := registeredUpTo_range hfirst n st2 h2
    rw [← hn] at hinv
    show st2.1.registered = _
    exact ownedRepoIDs_eq hinv

theorem mergeShards_registered {B : BuilderRules} (ds : List IndexData) {st st1 : MergeState}
    (hlast : st.2 = -1) (h : mergeShards B ds st = .ok st1) :
    st1.1.registered = st.1.registered ++ ownedRepos ds := by
  induction ds generalizing st with
  | nil =>
    simp only [mergeShards, Outcome.ok.injEq] at h
    subst h
    simp [ownedRepos]
  | cons d ds ih =>
    simp only [mergeShards, Outcome.bind_eq_ok] at h
    obtain ⟨st2, h1, h2⟩ := h
    rw [ih (mergeShard_last h1) h2, mergeShard_registered hlast h1, ownedRepos,
      List.append_assoc]

/-- The first shard, whose tracker starts at 0 with repository 0 already open. -/
theorem mergeShard_registered_first {B : BuilderRules} {d : IndexData} {r0 : Repository}
    {st1 : MergeState} (hr0 : d.repoMetaData[0]? = some r0)
    (h : mergeShard B d (⟨[.setRepository r0]⟩, 0) = .ok st1) :
    (d.fileBranchMasks.length = 0 → st1.1.registered = [r0] ∧ ownedRepoIDs d = []) ∧
    (0 < d.fileBranchMasks.length → d.repos[0]? = some 0 →
      st1.1.registered = (ownedRepoIDs d).filterMap (fun r => d.repoMetaData[r]?)) := by
  simp only [mergeShard, Outcome.bind_eq_ok] at h
  obtain ⟨st2, h2, h3⟩ := h
  simp only [Outcome.ok.injEq] at h3
  subst h3
  constructor
  · intro hn
    rw [hn] at h2
    simp only [List.range_zero, mergeDocs, Outcome.ok.injEq] at h2
    subst h2
    simp [ownedRepoIDs, hn, IndexBuilder.registered]
  · intro hpos hfirst0
    obtain ⟨n, hn⟩ : ∃ n, d.fileBranchMasks.length = n + 1 := ⟨_, (Nat.succ_pred_eq_of_pos hpos).symm⟩
    rw [hn] at h2
    have hfirst : ∀ s1, mergeDoc B d (⟨[.setRepository r0]⟩, 0) 0 = .ok s1 →
        RegisteredUpTo d [] 1 s1 := by
      intro s1 hs1
      obtain ⟨repoID, doc, hrepo, -, hcase⟩ := mergeDoc_eq_ok.mp hs1
      rw [hfirst0] at hrepo
      cases hrepo
      rcases hcase with ⟨-, -, hst⟩ | ⟨h1, -⟩
      · subst hst
        refine ⟨0, rfl, (List.getElem?_eq_some_iff.mp hr0).1, ?_, ?_⟩
        · intro r1
          rw [List.take_succ, hfirst0]
          simp
        · simp [IndexBuilder.registered, hr0, List.range_succ]
      · simp at h1
    have hinv := registeredUpTo_range hfirst n st2 h2
    rw [← hn] at hinv
    show st2.1.registered = _
    simpa using ownedRepoIDs_eq hinv


theorem mem_ownedRepoIDs (d : IndexData) (r : Nat) :
    r ∈ ownedRepoIDs d ↔
      r < d.repoMetaData.length ∧
      ∃ docID, docID < d.fileBranchMasks.length ∧ d.repos[docID]? = some r := by
  simp only [ownedRepoIDs, List.mem_filter, List.mem_range, decide_eq_true_eq,
    List.mem_take_iff_getElem, List.getElem?_eq_some_iff]
  constructor
  · rintro ⟨hr, i, hi, rfl⟩
    exact ⟨hr, i, by omega, by omega, rfl⟩
  · rintro ⟨hr, i, hi, hlt, rfl⟩
    exact ⟨hr, i, by omega, rfl⟩

theorem ownedRepoIDs_pairwise (d : IndexData) : (ownedRepoIDs d).Pairwise (· < ·) :=
  List.Pairwise.filter _ (List.pairwise_lt_range _)

/-- C6, as amended: when `merge` succeeds and the first document of the first
shard has repository id 0, the repositories registered with the builder (by
`NewIndexBuilder`, then by every `setRepository`) are, in order, exactly the
metadata records of the (shard, repository id) pairs that own at least one
document, in shard order and then ascending repository id, each registered
once, without deduplication across shards.  When the first shard has no
document its record 0, with which the builder was opened, comes first in
addition. -/
theorem merge_registered (B : BuilderRules) (d0 : IndexData) (rest : List IndexData)
    (ib : IndexBuilder) (h : merge B (d0 :: rest) = .ok ib) :
    (0 < d0.fileBranchMasks.length → d0.repos[0]? = some 0 →
      ib.registered = ownedRepos (d0 :: rest)) ∧
    (d0.fileBranchMasks.length = 0 →
      ∃ r0, d0.repoMetaData[0]? = some r0 ∧ ib.registered = r0 :: ownedRepos (d0 :: rest)) ∧
    (∀ d ∈ d0 :: rest, (ownedRepoIDs d).Pairwise (· < ·) ∧
      ∀ r, r ∈ ownedRepoIDs d ↔ r < d.repoMetaData.length ∧
        ∃ docID, docID < d.fileBranchMasks.length ∧ d.repos[docID]? = some r) := by
  obtain ⟨st0, st, h0, h1, rfl⟩ := merge_eq_ok.mp h
  obtain ⟨d0', rest', r0, hds, hr0, -, hst0⟩ := mergeInit_eq_ok.mp h0
  simp only [List.cons.injEq] at hds
  obtain ⟨rfl, rfl⟩ := hds
  subst hst0
  simp only [mergeShards, Outcome.bind_eq_ok] at h1
  obtain ⟨st1, h2, h3⟩ := h1
  have hrest := mergeShards_registered rest (mergeShard_last h2) h3
  obtain ⟨hempty, hstart⟩ := mergeShard_registered_first hr0 h2
  refine ⟨?_, ?_, fun d _ => ⟨ownedRepoIDs_pairwise d, mem_ownedRepoIDs d⟩⟩
  · intro hpos hfirst
    rw [hrest, hstart hpos hfirst, ownedRepos]
  · intro hlen
    obtain ⟨hreg, hown⟩ := hempty hlen
    refine ⟨r0, hr0, ?_⟩
    rw [hrest, hreg, ownedRepos, hown]
    rfl

theorem merge_registered_witness :
    merge acceptAll (shardA :: [shardA]) = .ok mergedAA ∧
    ((0 < shardA.fileBranchMasks.length ∧ shardA.repos[0]? = some 0) ∧
      mergedAA.registered = ownedRepos (shardA :: [shardA]) ∧
      mergedAA.registered =
        [⟨"repoA", ["HEAD", "dev", "rel"]⟩, ⟨"repoA", ["HEAD", "dev", "rel"]⟩]) :=
  ⟨by decide, by decide,
   (merge_registered acceptAll shardA [shardA] mergedAA (by decide)).1 (by decide) (by decide),
   by decide⟩

/-- C6, counterexample: merging the single shard `emptyShard`, which has no
document, succeeds and registers its repository record, although no (shard,
repository id) pair owns a document. -/
theorem registered_without_documents :
    merge acceptAll [emptyShard] = .ok ⟨[.setRepository ⟨"lonely", ["HEAD"]⟩]⟩ ∧
    (IndexBuilder.mk [.setRepository ⟨"lonely", ["HEAD"]⟩]).registered = [⟨"lonely", ["HEAD"]⟩] ∧
    sourceDocs [emptyShard] = [] ∧
    ownedRepos [emptyShard] = [] := by
  refine ⟨by decide, by decide, rfl, by decide⟩


/-! ## Failures -/

theorem assemble_sections {d : IndexData} {docID repoID : Nat} {doc : Document}
    (h : assemble d docID repoID = .ok doc) : d.readDocSections docID = .ok doc.Symbols := by
  simp only [assemble, Outcome.bind_eq_ok] at h
  obtain ⟨_, _, _, _, _, _, _, _, _, _, symbols, hs, _, _, _, _, _, _, hdoc⟩ := h
  simp only [Outcome.ok.injEq] at hdoc
  subst hdoc
  cases hr : d.readDocSections docID with
  | error e => simp [hr, Outcome.ofExcept] at hs
  | ok c =>
    simp [hr, Outcome.ofExcept] at hs
    simp [hs]

theorem assemble_content_error {d : IndexData} {docID repoID : Nat} {e : Error}
    (hrange : FieldsInRange d docID repoID) (h : d.readContents docID = .error e) :
    assemble d docID repoID = .error e := by
  obtain ⟨paths, sub, path, lang, h1, h2, h3, h4⟩ := hrange
  simp [assemble, index_eq_ok.mpr h1, index_eq_ok.mpr h2, index_eq_ok.mpr h3,
    index_eq_ok.mpr h4, h, Outcome.ofExcept]

theorem assemble_sections_error {d : IndexData} {docID repoID : Nat} {c : Bytes} {e : Error}
    (hrange : FieldsInRange d docID repoID) (hc : d.readContents docID = .ok c)
    (h : d.readDocSections docID = .error e) : assemble d docID repoID = .error e := by
  obtain ⟨paths, sub, path, lang, h1, h2, h3, h4⟩ := hrange
  simp [assemble, index_eq_ok.mpr h1, index_eq_ok.mpr h2, index_eq_ok.mpr h3,
    index_eq_ok.mpr h4, hc, h, Outcome.ofExcept]

theorem forall₂_exists_of_mem {α β : Type} {R : α → β → Prop} {xs : List α} {ys : List β}
    (h : List.Forall₂ R xs ys) {a : α} (ha : a ∈ xs) : ∃ b, R a b := by
  induction h with
  | nil => cases ha
  | cons hab _ ih =>
    rcases List.mem_cons.mp ha with rfl | hmem
    · exact ⟨_, hab⟩
    · exact ih hmem

/-- C7, as amended: `merge` on a non-empty list of shards returns a builder
only with every input document added to it, and, unless an index expression is
out of range (then it panics), it returns either such a builder or an error.  A
document whose content or sections cannot be decoded excludes success.  The
error returned is that of the first failing step: building the builder first,
then, for the first document reached where a step fails, the contiguity check,
then content, then sections, then `Add`. -/
theorem merge_atomic (B : BuilderRules) (pre : List IndexData) (d : IndexData)
    (post : List IndexData) :
    (∀ ib, merge B (pre ++ d :: post) = .ok ib →
      List.Forall₂ AssembledFrom (sourceDocs (pre ++ d :: post)) ib.added) ∧
    (merge B (pre ++ d :: post) ≠ .panic →
      (∃ ib, merge B (pre ++ d :: post) = .ok ib ∧
        List.Forall₂ AssembledFrom (sourceDocs (pre ++ d :: post)) ib.added) ∨
      ∃ e, merge B (pre ++ d :: post) = .error e) ∧
    (∀ src ∈ sourceDocs (pre ++ d :: post),
      ((∃ e, src.1.readContents src.2 = .error e) ∨
        (∃ e, src.1.readDocSections src.2 = .error e)) →
      (∀ ib, merge B (pre ++ d :: post) ≠ .ok ib) ∧
      (merge B (pre ++ d :: post) ≠ .panic → ∃ e, merge B (pre ++ d :: post) = .error e)) ∧
    (∀ e, mergeInit B (pre ++ d :: post) = .error e → merge B (pre ++ d :: post) = .error e) ∧
    (∀ k st repoID, k < d.fileBranchMasks.length → stateAt B pre d post k = .ok st →
      d.repos[k]? = some repoID →
      ((repoID : Int) ≠ st.2 → st.2 + 1 ≠ (repoID : Int) →
        merge B (pre ++ d :: post) = .error (.nonContiguous d.name k st.2 repoID)) ∧
      (∀ st1, checkRepo d k repoID st = .ok st1 →
        (FieldsInRange d k repoID → ∀ e, d.readContents k = .error e →
          merge B (pre ++ d :: post) = .error e) ∧
        (FieldsInRange d k repoID → ∀ c e, d.readContents k = .ok c →
          d.readDocSections k = .error e → merge B (pre ++ d :: post) = .error e) ∧
        (∀ doc e, assemble d k repoID = .ok doc → B.addErr st1.1 doc = some e →
          merge B (pre ++ d :: post) = .error e))) := by
  have hnotok : ∀ src ∈ sourceDocs (pre ++ d :: post),
      ((∃ e, src.1.readContents src.2 = .error e) ∨
        (∃ e, src.1.readDocSections src.2 = .error e)) →
      ∀ ib, merge B (pre ++ d :: post) ≠ .ok ib := by
    intro src hsrc hfail ib hok
    obtain ⟨doc, repoID, -, hasm⟩ := forall₂_exists_of_mem (merge_added B _ ib hok) hsrc
    rcases hfail with ⟨e, he⟩ | ⟨e, he⟩
    · rw [assemble_content hasm] at he
      cases he
    · rw [assemble_sections hasm] at he
      cases he
  refine ⟨merge_added B _, ?_, ?_, ?_, ?_⟩
  · intro hpanic
    cases hres : merge B (pre ++ d :: post) with
    | ok ib => exact Or.inl ⟨ib, rfl, merge_added B _ ib hres⟩
    | error e => exact Or.inr ⟨e, rfl⟩
    | panic => exact absurd hres hpanic
  · intro src hsrc hfail
    refine ⟨hnotok src hsrc hfail, fun hpanic => ?_⟩
    cases hres : merge B (pre ++ d :: post) with
    | ok ib => exact absurd hres (hnotok src hsrc hfail ib)
    | error e => exact ⟨e, rfl⟩
    | panic => exact absurd hres hpanic
  · intro e he
    simp [merge, he]
  · intro k st repoID hk hst hrepo
    have hbody : mergeDoc B d st k =
        (checkRepo d k repoID st).bind fun st1 =>
        (assemble d k repoID).bind fun doc =>
        (st1.1.Add B doc).bind fun ib => .ok (ib, st1.2) := by
      simp [mergeDoc, index_eq_ok.mpr hrepo]
    refine ⟨fun h1 h2 => merge_eq_error_of_doc hk hst (mergeDoc_nonContiguous hrepo h1 h2), ?_⟩
    intro st1 hcheck
    rw [hcheck, Outcome.ok_bind] at hbody
    refine ⟨?_, ?_, ?_⟩
    · intro hrange e he
      apply merge_eq_error_of_doc hk hst
      rw [hbody, assemble_content_error hrange he]
      rfl
    · intro hrange c e hc he
      apply merge_eq_error_of_doc hk hst
      rw [hbody, assemble_sections_error hrange hc he]
      rfl
    · intro doc e hdoc hadd
      apply merge_eq_error_of_doc hk hst
      rw [hbody, hdoc]
      simp [IndexBuilder.Add, hadd]

theorem merge_atomic_witness :
    (stateAt rejectAdd [] shardA [shardB] 0 = .ok (⟨[.setRepository ⟨"repoA", ["HEAD", "dev", "rel"]⟩]⟩, 0) ∧
      assemble shardA 0 0 = .ok (sampleDoc "a" 0 ["HEAD"])) ∧
    merge rejectAdd ([] ++ shardA :: [shardB]) = .error (.other "bad document") :=
  ⟨by decide,
   (((merge_atomic rejectAdd [] shardA [shardB]).2.2.2.2 0
      (⟨[.setRepository ⟨"repoA", ["HEAD", "dev", "rel"]⟩]⟩, 0) 0 (by decide) (by decide)
      (by decide)).2 (⟨[.setRepository ⟨"repoA", ["HEAD", "dev", "rel"]⟩]⟩, 0) (by decide)).2.2
      (sampleDoc "a" 0 ["HEAD"]) (.other "bad document") (by decide) (by decide)⟩

/-- C7, counterexample: the only document of both shards has undecodable
content.  On `corruptBareShard`, which has no repository record, `merge` panics
at line 75: it returns neither a builder nor an error.  On `corruptShard` with a
builder that refuses the repository, the error returned is that of
`NewIndexBuilder`, not that of the content step. -/
theorem merge_not_always_error :
    corruptBareShard.readContents 0 = .error (.other "corrupt content") ∧
    merge acceptAll [corruptBareShard] = .panic ∧
    corruptShard.readContents 0 = .error (.other "corrupt content") ∧
    merge rejectNew [corruptShard] = .error (.other "bad repository") ∧
    merge acceptAll [corruptShard] = .error (.other "corrupt content") :=
  ⟨rfl, by decide, rfl, by decide, by decide⟩


/-! ## The writer -/

theorem tempName_ne (base rnd : String) : tempName base rnd ≠ base := by
  intro h
  have hlen := congrArg String.length h
  simp only [tempName, String.length_append] at hlen
  have : (".tmp" : String).length = 4 := by decide
  omega

theorem setFile_files (fs : FS) (p q : Path) (f : Option File) :
    (fs.setFile p f).files q = if q = p then f else fs.files q := rfl

theorem setFile_files_ne (fs : FS) {p q : Path} (f : Option File) (h : q ≠ p) :
    (fs.setFile p f).files q = fs.files q := by
  simp [setFile_files, h]

theorem setFile_files_self (fs : FS) (p : Path) (f : Option File) :
    (fs.setFile p f).files p = f := by
  simp [setFile_files]

theorem except_cases {ε α : Type} (x : Except ε α) : (∃ e, x = .error e) ∨ ∃ a, x = .ok a := by
  cases x with
  | error e => exact Or.inl ⟨e, rfl⟩
  | ok a => exact Or.inr ⟨a, rfl⟩

theorem option_cases {α : Type} (x : Option α) : x = none ∨ ∃ a, x = some a := by
  cases x with
  | none => exact Or.inl rfl
  | some a => exact Or.inr ⟨a, rfl⟩

theorem setFile_setFile (fs : FS) (p : Path) (a b : Option File) :
    (fs.setFile p a).setFile p b = fs.setFile p b := by
  simp only [FS.setFile]
  congr 1
  funext q
  by_cases h : q = p <;> simp [h]


theorem osMkdirAll_files {os : OSRun} {fs fs1 : FS} {dir : String}
    (h : osMkdirAll os fs dir = .ok fs1) :
    os.mkdirAll = none ∧ fs1.files = fs.files ∧ fs1.log = fs.log := by
  unfold osMkdirAll at h
  cases hm : os.mkdirAll with
  | some e => simp [hm] at h
  | none =>
    simp only [hm, Except.ok.injEq] at h
    subst h
    by_cases hd : dir ∈ fs.dirs <;> simp [hd]

/-- What `builderWriteAll` does, case by case: either some step fails, the error
is the first failure and every path other than the temp file is untouched, or
all steps succeed and only the final path changed. -/
theorem builderWriteAll_cases (os : OSRun) (S : Serializer) (fn : Path) (ib : IndexBuilder)
    (fs : FS) :
    (builderWriteAll os S fn ib fs).1 = firstFailure os S fn ib fs ∧
    ((∃ e, (builderWriteAll os S fn ib fs).1 = some e ∧
        (builderWriteAll os S fn ib fs).2.files fn = fs.files fn ∧
        ∀ p, (builderWriteAll os S fn ib fs).2.files p ≠ fs.files p →
          ∃ rnd, os.tempFile = .ok rnd ∧ p = ⟨fn.dir, tempName fn.base rnd⟩ ∧
            fs.files p = none) ∨
     ((builderWriteAll os S fn ib fs).1 = none ∧
        (S.write ib).2 = none ∧ os.close = none ∧ os.rename = none ∧
        (∃ mode, (builderWriteAll os S fn ib fs).2.files fn = some ⟨mode, (S.write ib).1⟩) ∧
        ∀ p, p ≠ fn → (builderWriteAll os S fn ib fs).2.files p = fs.files p)) := by
  cases hmk : osMkdirAll os fs fn.dir with
  | error e =>
    have hm : os.mkdirAll = some e := by
      unfold osMkdirAll at hmk
      cases hm : os.mkdirAll with
      | some e1 => simpa [hm] using hmk
      | none => simp [hm] at hmk
    have hres : builderWriteAll os S fn ib fs = (some e, fs) := by
      simp [builderWriteAll, hmk]
    rw [hres]
    refine ⟨by simp [firstFailure, hm], Or.inl ⟨e, rfl, rfl, fun p hp => absurd rfl hp⟩⟩
  | ok fs1 =>
    obtain ⟨hm, hfiles1, -⟩ := osMkdirAll_files hmk
    rcases except_cases os.tempFile with ⟨e, htf⟩ | ⟨rnd, htf⟩
    · have hres : builderWriteAll os S fn ib fs = (some e, fs1) := by
        simp [builderWriteAll, hmk, ioutilTempFile, htf]
      rw [hres]
      refine ⟨by simp [firstFailure, hm, tempFileFailure, htf],
        Or.inl ⟨e, rfl, by simp [hfiles1], fun p hp => absurd (by simp [hfiles1]) hp⟩⟩
    · rcases option_cases (fs.files ⟨fn.dir, tempName fn.base rnd⟩) with hex | ⟨f0, hex⟩
      swap
      · have hres : builderWriteAll os S fn ib fs = (some (.other "file exists"), fs1) := by
          simp [builderWriteAll, hmk, ioutilTempFile, htf, hfiles1, hex]
        rw [hres]
        refine ⟨by simp [firstFailure, hm, tempFileFailure, htf, hex],
          Or.inl ⟨_, rfl, by simp [hfiles1], fun p hp => absurd (by simp [hfiles1]) hp⟩⟩
      · have hne : (⟨fn.dir, tempName fn.base rnd⟩ : Path) ≠ fn := by
          intro h
          exact tempName_ne fn.base rnd (congrArg Path.base h)
        have hex1 : fs1.files ⟨fn.dir, tempName fn.base rnd⟩ = none := by rw [hfiles1, hex]
        have hff : firstFailure os S fn ib fs =
            ((if os.windows then none else os.chmod) <|>
              (S.write ib).2 <|> os.stat <|> os.close <|> os.rename) := by
          simp [firstFailure, hm, tempFileFailure, htf, hex]
        -- every failure from here on leaves a state that differs from `fs` at most at the temp file
        have herr : ∀ (e : Error) (g : FS),
            builderWriteAll os S fn ib fs = (some e, g) →
            (∀ p, p ≠ (⟨fn.dir, tempName fn.base rnd⟩ : Path) → g.files p = fs.files p) →
            firstFailure os S fn ib fs = some e →
            (builderWriteAll os S fn ib fs).1 = firstFailure os S fn ib fs ∧
            ((∃ e, (builderWriteAll os S fn ib fs).1 = some e ∧
                (builderWriteAll os S fn ib fs).2.files fn = fs.files fn ∧
                ∀ p, (builderWriteAll os S fn ib fs).2.files p ≠ fs.files p →
                  ∃ rnd, os.tempFile = .ok rnd ∧ p = ⟨fn.dir, tempName fn.base rnd⟩ ∧
                    fs.files p = none) ∨
             ((builderWriteAll os S fn ib fs).1 = none ∧
                (S.write ib).2 = none ∧ os.close = none ∧ os.rename = none ∧
                (∃ mode, (builderWriteAll os S fn ib fs).2.files fn =
                  some ⟨mode, (S.write ib).1⟩) ∧
                ∀ p, p ≠ fn → (builderWriteAll os S fn ib fs).2.files p = fs.files p)) := by
          intro e g hres hg hfirst
          rw [hres, hfirst]
          refine ⟨rfl, Or.inl ⟨e, rfl, hg fn (Ne.symm hne), ?_⟩⟩
          intro p hp
          by_cases hpt : p = ⟨fn.dir, tempName fn.base rnd⟩
          · exact ⟨rnd, htf, hpt, by rw [hpt, hex]⟩
          · exact absurd (hg p hpt) hp
        -- the state after `TempFile`, after `Chmod`, after `Write`
        have hchmod : (∃ e, os.windows = false ∧ os.chmod = some e) ∨
            ∃ mode, (if os.windows then Except.ok
                (fs1.setFile ⟨fn.dir, tempName fn.base rnd⟩ (some ⟨0o600, []⟩))
              else fileChmod os (fs1.setFile ⟨fn.dir, tempName fn.base rnd⟩ (some ⟨0o600, []⟩))
                ⟨fn.dir, tempName fn.base rnd⟩ 0o666) =
              .ok (fs1.setFile ⟨fn.dir, tempName fn.base rnd⟩ (some ⟨mode, []⟩)) ∧
              (if os.windows then none else os.chmod) = none := by
          cases hw : os.windows with
          | true => exact Or.inr ⟨0o600, by simp⟩
          | false =>
            cases hc : os.chmod with
            | some e => exact Or.inl ⟨e, rfl, rfl⟩
            | none =>
              refine Or.inr ⟨0o666, ?_, by simp⟩
              simp only [fileChmod, hc, Bool.false_eq_true, if_false, setFile_files_self,
                Option.map_some', setFile_setFile]
        have hstart : builderWriteAll os S fn ib fs =
            match (if os.windows then Except.ok
                (fs1.setFile ⟨fn.dir, tempName fn.base rnd⟩ (some ⟨0o600, []⟩))
              else fileChmod os (fs1.setFile ⟨fn.dir, tempName fn.base rnd⟩ (some ⟨0o600, []⟩))
                ⟨fn.dir, tempName fn.base rnd⟩ 0o666) with
            | .error e => (some e, fs1.setFile ⟨fn.dir, tempName fn.base rnd⟩ (some ⟨0o600, []⟩))
            | .ok fs3 =>
              match builderWrite S ib fs3 ⟨fn.dir, tempName fn.base rnd⟩ with
              | (fs4, some e) => (some e, fs4)
              | (fs4, none) =>
                match fileStat os fs4 ⟨fn.dir, tempName fn.base rnd⟩ with
                | .error e => (some e, fs4)
                | .ok size =>
                  match os.close with
                  | some e => (some e, fs4)
                  | none =>
                    match osRename os fs4 ⟨fn.dir, tempName fn.base rnd⟩ fn with
                    | .error e => (some e, fs4)
                    | .ok fs5 =>
                      (none, { fs5 with
                        log := fs5.log ++ [⟨fn, size, size, (S.contentSize ib + 1) % 2 ^ 32⟩] }) := by
          simp only [builderWriteAll, hmk, ioutilTempFile, htf, hex1]
        have hkeep : ∀ (f : Option File) (p : Path), p ≠ (⟨fn.dir, tempName fn.base rnd⟩ : Path) →
            (fs1.setFile ⟨fn.dir, tempName fn.base rnd⟩ f).files p = fs.files p := by
          intro f p hp
          rw [setFile_files_ne _ _ hp, hfiles1]
        rcases hchmod with ⟨e, hw, hc⟩ | ⟨mode, hstep, hnone⟩
        · refine herr e (fs1.setFile ⟨fn.dir, tempName fn.base rnd⟩ (some ⟨0o600, []⟩)) ?_
            (hkeep _) (by simp [hff, hw, hc])
          rw [hstart]
          simp [hw, fileChmod, hc]
        · rw [hstep] at hstart
          simp only at hstart
          have hwrite : builderWrite S ib
              (fs1.setFile ⟨fn.dir, tempName fn.base rnd⟩ (some ⟨mode, []⟩))
              ⟨fn.dir, tempName fn.base rnd⟩ =
              (fs1.setFile ⟨fn.dir, tempName fn.base rnd⟩ (some ⟨mode, (S.write ib).1⟩),
                (S.write ib).2) := by
            simp [builderWrite, setFile_files_self, setFile_setFile]
          rw [hwrite] at hstart
          rw [hnone] at hff
          rcases option_cases (S.write ib).2 with hwr | ⟨e, hwr⟩
          swap
          · refine herr e
              (fs1.setFile ⟨fn.dir, tempName fn.base rnd⟩ (some ⟨mode, (S.write ib).1⟩)) ?_
              (hkeep _) (by simp [hff, hwr])
            rw [hstart]
            simp [hwr]
          · have hstat : fileStat os
                (fs1.setFile ⟨fn.dir, tempName fn.base rnd⟩ (some ⟨mode, (S.write ib).1⟩))
                ⟨fn.dir, tempName fn.base rnd⟩ =
                match os.stat with
                | some e => .error e
                | none => .ok (S.write ib).1.length := by
              simp [fileStat, setFile_files_self]
            rcases option_cases os.stat with hst | ⟨e, hst⟩
            swap
            · refine herr e
                (fs1.setFile ⟨fn.dir, tempName fn.base rnd⟩ (some ⟨mode, (S.write ib).1⟩)) ?_
                (hkeep _) (by simp [hff, hwr, hst])
              rw [hstart]
              simp only [hwr]
              simp [hwr, hstat, hst]
            · rcases option_cases os.close with hcl | ⟨e, hcl⟩
              swap
              · refine herr e
                  (fs1.setFile ⟨fn.dir, tempName fn.base rnd⟩ (some ⟨mode, (S.write ib).1⟩)) ?_
                  (hkeep _) (by simp [hff, hwr, hst, hcl])
                rw [hstart]
                simp [hwr, hstat, hst, hcl]
              · rcases option_cases os.rename with hrn | ⟨e, hrn⟩
                swap
                · refine herr e
                    (fs1.setFile ⟨fn.dir, tempName fn.base rnd⟩ (some ⟨mode, (S.write ib).1⟩)) ?_
                    (hkeep _) (by simp [hff, hwr, hst, hcl, hrn])
                  rw [hstart]
                  simp [hwr, hstat, hst, hcl, osRename, hrn]
                · have hres : builderWriteAll os S fn ib fs =
                      (none, { ((fs1.setFile ⟨fn.dir, tempName fn.base rnd⟩
                          (some ⟨mode, (S.write ib).1⟩)).setFile fn
                            (some ⟨mode, (S.write ib).1⟩)).setFile
                              ⟨fn.dir, tempName fn.base rnd⟩ none with
                        log := fs1.log ++ [⟨fn, (S.write ib).1.length, (S.write ib).1.length,
                          (S.contentSize ib + 1) % 2 ^ 32⟩] }) := by
                    rw [hstart]
                    simp only [hwr, hstat, hst, hcl, osRename, hrn, setFile_files_self]
                    rfl
                  rw [hres]
                  refine ⟨by simp [hff, hwr, hst, hcl, hrn], Or.inr ⟨rfl, hwr, hcl, hrn, ⟨mode, ?_⟩, ?_⟩⟩
                  · show (((fs1.setFile ⟨fn.dir, tempName fn.base rnd⟩
                          (some ⟨mode, (S.write ib).1⟩)).setFile fn
                            (some ⟨mode, (S.write ib).1⟩)).setFile
                              ⟨fn.dir, tempName fn.base rnd⟩ none).files fn = _
                    rw [setFile_files_ne _ _ (Ne.symm hne), setFile_files_self]
                  · intro p hp
                    show (((fs1.setFile ⟨fn.dir, tempName fn.base rnd⟩
                          (some ⟨mode, (S.write ib).1⟩)).setFile fn
                            (some ⟨mode, (S.write ib).1⟩)).setFile
                              ⟨fn.dir, tempName fn.base rnd⟩ none).files p = _
                    by_cases hpt : p = ⟨fn.dir, tempName fn.base rnd⟩
                    · rw [hpt, setFile_files_self, hex]
                    · rw [setFile_files_ne _ _ hpt, setFile_files_ne _ _ hp,
                        setFile_files_ne _ _ hpt, hfiles1]


theorem firstFailure_isSome {os : OSRun} {S : Serializer} {fn : Path} {ib : IndexBuilder}
    {fs : FS} {e : Error}
    (h : os.mkdirAll = some e ∨ tempFileFailure os fn fs = some e ∨
      (os.windows = false ∧ os.chmod = some e) ∨ (S.write ib).2 = some e ∨
      os.stat = some e ∨ os.close = some e) :
    ∃ e1, firstFailure os S fn ib fs = some e1 := by
  unfold firstFailure
  rcases option_cases os.mkdirAll with h1 | ⟨e1, h1⟩
  swap
  · exact ⟨e1, by simp [h1]⟩
  rcases option_cases (tempFileFailure os fn fs) with h2 | ⟨e2, h2⟩
  swap
  · exact ⟨e2, by simp [h1, h2]⟩
  rcases option_cases (if os.windows then none else os.chmod) with h3 | ⟨e3, h3⟩
  swap
  · exact ⟨e3, by simp [h1, h2, h3]⟩
  rcases option_cases (S.write ib).2 with h4 | ⟨e4, h4⟩
  swap
  · exact ⟨e4, by simp [h1, h2, h3, h4]⟩
  rcases option_cases os.stat with h5 | ⟨e5, h5⟩
  swap
  · exact ⟨e5, by simp [h1, h2, h3, h4, h5]⟩
  rcases option_cases os.close with h6 | ⟨e6, h6⟩
  swap
  · exact ⟨e6, by simp [h1, h2, h3, h4, h5, h6]⟩
  rcases h with h | h | ⟨hw, h⟩ | h | h | h
  · rw [h1] at h
    cases h
  · rw [h2] at h
    cases h
  · simp [hw, h] at h3
  · rw [h4] at h
    cases h
  · rw [h5] at h
    cases h
  · rw [h6] at h
    cases h

/-- C9 (writer atomicity): `builderWriteAll` returns the error of its first
failing step, so a failure of any step before the rename (directory creation,
temp-file creation, chmod, serialization, stat, close) is returned; whenever it
returns an error the content at the final path `fn` is what it was; the only
other file it can create is the temp file, in the directory of `fn`, under a
name different from that of `fn`, at a path that was free; and the content at
`fn` changes only in a run where serialization, close and rename all succeeded,
to the serialized bytes. -/
theorem builderWriteAll_atomic (os : OSRun) (S : Serializer) (fn : Path) (ib : IndexBuilder)
    (fs : FS) :
    (builderWriteAll os S fn ib fs).1 = firstFailure os S fn ib fs ∧
    (∀ e, (os.mkdirAll = some e ∨ tempFileFailure os fn fs = some e ∨
        (os.windows = false ∧ os.chmod = some e) ∨ (S.write ib).2 = some e ∨
        os.stat = some e ∨ os.close = some e) →
      ∃ e1, (builderWriteAll os S fn ib fs).1 = some e1 ∧
        (builderWriteAll os S fn ib fs).2.files fn = fs.files fn) ∧
    (∀ e, (builderWriteAll os S fn ib fs).1 = some e →
      (builderWriteAll os S fn ib fs).2.files fn = fs.files fn) ∧
    (∀ p, p ≠ fn → (builderWriteAll os S fn ib fs).2.files p ≠ fs.files p →
      ∃ rnd, os.tempFile = .ok rnd ∧ p = ⟨fn.dir, tempName fn.base rnd⟩ ∧
        p.dir = fn.dir ∧ p.base ≠ fn.base ∧ fs.files p = none) ∧
    ((builderWriteAll os S fn ib fs).2.files fn ≠ fs.files fn →
      (builderWriteAll os S fn ib fs).1 = none ∧ (S.write ib).2 = none ∧ os.close = none ∧
        os.rename = none ∧
        ∃ mode, (builderWriteAll os S fn ib fs).2.files fn = some ⟨mode, (S.write ib).1⟩) := by
  obtain ⟨hfirst, hcases⟩ := builderWriteAll_cases os S fn ib fs
  have herrkeep : ∀ e, (builderWriteAll os S fn ib fs).1 = some e →
      (builderWriteAll os S fn ib fs).2.files fn = fs.files fn := by
    intro e he
    rcases hcases with ⟨_, _, hfn, _⟩ | ⟨hnone, _⟩
    · exact hfn
    · rw [hnone] at he
      cases he
  refine ⟨hfirst, ?_, herrkeep, ?_, ?_⟩
  · intro e hfail
    obtain ⟨e1, he1⟩ : ∃ e1, firstFailure os S fn ib fs = some e1 := firstFailure_isSome hfail
    exact ⟨e1, by rw [hfirst, he1], herrkeep e1 (by rw [hfirst, he1])⟩
  · intro p hp hchg
    rcases hcases with ⟨_, _, _, hother⟩ | ⟨_, _, _, _, _, hother⟩
    · obtain ⟨rnd, htf, hpt, hfree⟩ := hother p hchg
      refine ⟨rnd, htf, hpt, ?_, ?_, hfree⟩
      · rw [hpt]
      · rw [hpt]
        exact tempName_ne fn.base rnd
    · exact absurd (hother p hp) hchg
  · intro hchg
    rcases hcases with ⟨_, _, hfn, _⟩ | ⟨hnone, hw, hc, hr, hmode, _⟩
    · exact absurd hfn hchg
    · exact ⟨hnone, hw, hc, hr, hmode⟩

theorem builderWriteAll_atomic_witness :
    (builderWriteAll osAllGood brokenSerializer samplePath mergedAB sampleFS).1 =
      some (.other "disk full") ∧
    (builderWriteAll osAllGood brokenSerializer samplePath mergedAB sampleFS).2.files samplePath =
      sampleFS.files samplePath ∧
    sampleFS.files samplePath = some ⟨0o644, [7, 7]⟩ :=
  ⟨by decide,
   (builderWriteAll_atomic osAllGood brokenSerializer samplePath mergedAB sampleFS).2.2.1
     (.other "disk full") (by decide),
   by decide⟩


/-! ## `Merge` -/

theorem openAll_ok {F : Type} {NewSearcher : F → Except Error IndexData} {files : List F}
    {ds : List IndexData} (h : List.Forall₂ (fun f d => NewSearcher f = .ok d) files ds)
    (acc : List IndexData) : openAll NewSearcher files acc = .ok (acc ++ ds) := by
  induction h generalizing acc with
  | nil => simp [openAll]
  | cons hfd _ ih => simp [openAll, hfd, ih]

theorem openAll_error {F : Type} {NewSearcher : F → Except Error IndexData} (pre : List F)
    {f : F} {post : List F} {e : Error} (hpre : ∀ g ∈ pre, ∃ d, NewSearcher g = .ok d)
    (hf : NewSearcher f = .error e) (acc : List IndexData) :
    openAll NewSearcher (pre ++ f :: post) acc = .error e := by
  induction pre generalizing acc with
  | nil => simp [openAll, hf]
  | cons g pre ih =>
    obtain ⟨d, hd⟩ := hpre g (List.mem_cons_self g pre)
    simp only [List.cons_append, openAll, hd]
    exact ih (fun g1 hg1 => hpre g1 (List.mem_cons_of_mem g hg1)) _

theorem openAll_error_of_mem {F : Type} {NewSearcher : F → Except Error IndexData}
    {files : List F} {f : F} {e : Error} (hf : f ∈ files) (he : NewSearcher f = .error e)
    (acc : List IndexData) : ∃ e1, openAll NewSearcher files acc = .error e1 := by
  induction files generalizing acc with
  | nil => cases hf
  | cons g rest ih =>
    rcases except_cases (NewSearcher g) with ⟨e1, hg⟩ | ⟨d, hg⟩
    · exact ⟨e1, by simp [openAll, hg]⟩
    · rcases List.mem_cons.mp hf with rfl | hmem
      · rw [hg] at he
        cases he
      · obtain ⟨e1, he1⟩ := ih hmem (acc ++ [d])
        exact ⟨e1, by simp [openAll, hg, he1]⟩

/-- C8 (no output on a failed merge): if opening an input file fails, `Merge`
returns the error of the first file that fails to open; if all files open and
the merge core returns an error, `Merge` returns that error; in both cases (and
when the core panics) the writer is not run and the file system is exactly what
it was, whatever the writer would have done. -/
theorem Merge_failure_keeps_fs {F : Type} (NewSearcher : F → Except Error IndexData)
    (B : BuilderRules) (S : Serializer) (os : OSRun) (IndexFormatVersion : Nat)
    (dstDir : String) (files : List F) (fs : FS) :
    (∀ f ∈ files, ∀ e, NewSearcher f = .error e →
      ∃ e1, Merge NewSearcher B S os IndexFormatVersion dstDir files fs = (.error e1, fs)) ∧
    (∀ pre f post e, files = pre ++ f :: post → (∀ g ∈ pre, ∃ d, NewSearcher g = .ok d) →
      NewSearcher f = .error e →
      Merge NewSearcher B S os IndexFormatVersion dstDir files fs = (.error e, fs)) ∧
    (∀ ds, List.Forall₂ (fun f d => NewSearcher f = .ok d) files ds →
      (∀ e, merge B ds = .error e →
        Merge NewSearcher B S os IndexFormatVersion dstDir files fs = (.error e, fs)) ∧
      (merge B ds = .panic →
        Merge NewSearcher B S os IndexFormatVersion dstDir files fs = (.panic, fs))) := by
  refine ⟨?_, ?_, ?_⟩
  · intro f hf e he
    obtain ⟨e1, he1⟩ := openAll_error_of_mem hf he []
    exact ⟨e1, by simp [Merge, he1]⟩
  · intro pre f post e hfiles hpre hf
    subst hfiles
    simp [Merge, openAll_error pre hpre hf]
  · intro ds hds
    have hopen : openAll NewSearcher files [] = .ok ds := by
      simpa using openAll_ok hds []
    constructor
    · intro e he
      simp [Merge, hopen, he]
    · intro hp
      simp [Merge, hopen, hp]

theorem Merge_failure_keeps_fs_witness :
    (sampleSearcher "a" = .ok shardA ∧ sampleSearcher "gap" = .ok gapShard ∧
      merge acceptAll [shardA, gapShard] = .error (.nonContiguous "gap" 2 1 3)) ∧
    Merge sampleSearcher acceptAll goodSerializer osAllGood 16 "idx" ["a", "gap"] sampleFS =
      (.error (.nonContiguous "gap" 2 1 3), sampleFS) :=
  ⟨⟨rfl, rfl, by decide⟩,
   ((Merge_failure_keeps_fs sampleSearcher acceptAll goodSerializer osAllGood 16 "idx"
      ["a", "gap"] sampleFS).2.2 [shardA, gapShard]
      (List.Forall₂.cons rfl (List.Forall₂.cons rfl List.Forall₂.nil))).1
      (.nonContiguous "gap" 2 1 3) (by decide)⟩

/-- C10 (zero shards): `merge` on the empty list returns the usage error and no
builder, before any builder is made or any shard is read (lines 71-73, whatever
the builder and its rules), and `Merge` without input files returns that error
and leaves the file system as it was. -/
theorem merge_zero_shards {F : Type} (NewSearcher : F → Except Error IndexData)
    (B : BuilderRules) (S : Serializer) (os : OSRun) (IndexFormatVersion : Nat)
    (dstDir : String) (fs : FS) :
    merge B [] = .error .needIndexData ∧
    mergeInit B [] = .error .needIndexData ∧
    Merge NewSearcher B S os IndexFormatVersion dstDir [] fs = (.error .needIndexData, fs) :=
  ⟨rfl, rfl, rfl⟩


/-! ## The output path -/

theorem fmt05d_zero : fmt05d 0 = "00000" := by decide

theorem mergedName_zero (version : Nat) :
    mergedName version 0 = "merged_v" ++ toString version ++ ".00000.zoekt" := by
  simp only [mergedName, fmt05d_zero]
  simp [String.append_assoc]

theorem orElse_eq_none {α : Type} {a b : Option α} (h : (a <|> b) = none) :
    a = none ∧ b = none := by
  cases a <;> cases b <;> simp_all

/-- When `builderWriteAll` returns `nil`, every step succeeded. -/
theorem firstFailure_eq_none {os : OSRun} {S : Serializer} {fn : Path} {ib : IndexBuilder}
    {fs : FS} (h : firstFailure os S fn ib fs = none) :
    os.mkdirAll = none ∧
    (∃ rnd, os.tempFile = .ok rnd ∧ fs.files ⟨fn.dir, tempName fn.base rnd⟩ = none) ∧
    (os.windows = false → os.chmod = none) ∧
    (S.write ib).2 = none ∧ os.stat = none ∧ os.close = none ∧ os.rename = none := by
  unfold firstFailure at h
  obtain ⟨h1, h⟩ := orElse_eq_none h
  obtain ⟨h2, h⟩ := orElse_eq_none h
  obtain ⟨h3, h⟩ := orElse_eq_none h
  obtain ⟨h4, h⟩ := orElse_eq_none h
  obtain ⟨h5, h⟩ := orElse_eq_none h
  obtain ⟨h6, h7⟩ := orElse_eq_none h
  refine ⟨h1, ?_, ?_, h4, h5, h6, h7⟩
  · unfold tempFileFailure at h2
    rcases except_cases os.tempFile with ⟨e, htf⟩ | ⟨rnd, htf⟩
    · simp [htf] at h2
    · refine ⟨rnd, htf, ?_⟩
      rcases option_cases (fs.files ⟨fn.dir, tempName fn.base rnd⟩) with hex | ⟨f0, hex⟩
      · exact hex
      · simp [htf, hex] at h2
  · intro hw
    simpa [hw] using h3

/-- The log after a successful run of `builderWriteAll`: one record was added,
for the final path. -/
theorem builderWriteAll_log {os : OSRun} {S : Serializer} {fn : Path} {ib : IndexBuilder}
    {fs : FS} (h : (builderWriteAll os S fn ib fs).1 = none) :
    (builderWriteAll os S fn ib fs).2.log =
      fs.log ++ [⟨fn, (S.write ib).1.length, (S.write ib).1.length, (S.contentSize ib + 1) % 2 ^ 32⟩] := by
  rw [(builderWriteAll_cases os S fn ib fs).1] at h
  obtain ⟨hmk, ⟨rnd, htf, hex⟩, hch, hwr, hst, hcl, hrn⟩ := firstFailure_eq_none h
  by_cases hd : fn.dir ∈ fs.dirs <;> cases hw : os.windows <;>
    simp [builderWriteAll, osMkdirAll, ioutilTempFile, fileChmod, builderWrite, fileStat,
      osRename, FS.setFile, hmk, htf, hex, hwr, hst, hcl, hrn, hd, hw, hch]


theorem openAll_eq_ok {F : Type} {NewSearcher : F → Except Error IndexData} {files : List F}
    {acc ds : List IndexData} (h : openAll NewSearcher files acc = .ok ds) :
    ∃ opened, ds = acc ++ opened ∧
      List.Forall₂ (fun f d => NewSearcher f = .ok d) files opened := by
  induction files generalizing acc with
  | nil =>
    simp only [openAll, Except.ok.injEq] at h
    exact ⟨[], by simp [h], List.Forall₂.nil⟩
  | cons f rest ih =>
    rcases except_cases (NewSearcher f) with ⟨e, hf⟩ | ⟨d, hf⟩
    · simp [openAll, hf] at h
    · simp only [openAll, hf] at h
      obtain ⟨opened, hds, hall⟩ := ih h
      exact ⟨d :: opened, by simp [hds], List.Forall₂.cons hf hall⟩

/-- A successful `Merge`: every file opened, the core returned a builder, and the
writer ran on the path `dstDir/merged_v<version>.00000.zoekt` without error. -/
theorem Merge_eq_ok {F : Type} {NewSearcher : F → Except Error IndexData} {B : BuilderRules}
    {S : Serializer} {os : OSRun} {IndexFormatVersion : Nat} {dstDir : String}
    {files : List F} {fs fs1 : FS}
    (h : Merge NewSearcher B S os IndexFormatVersion dstDir files fs = (.ok (), fs1)) :
    ∃ ds ib, List.Forall₂ (fun f d => NewSearcher f = .ok d) files ds ∧ merge B ds = .ok ib ∧
      builderWriteAll os S (Path.join dstDir (mergedName IndexFormatVersion 0)) ib fs =
        (none, fs1) := by
  unfold Merge at h
  rcases except_cases (openAll NewSearcher files []) with ⟨e, ho⟩ | ⟨ds, ho⟩
  · simp [ho] at h
  · obtain ⟨opened, hds, hall⟩ := openAll_eq_ok ho
    simp only [List.nil_append] at hds
    subst hds
    simp only [ho] at h
    cases hm : merge B ds with
    | panic => simp [hm] at h
    | error e => simp [hm] at h
    | ok ib =>
      simp only [hm] at h
      refine ⟨ds, ib, hall, hm, ?_⟩
      rcases option_cases
        (builderWriteAll os S (Path.join dstDir (mergedName IndexFormatVersion 0)) ib fs).1
        with hw | ⟨e, hw⟩
      · have hpair : builderWriteAll os S (Path.join dstDir (mergedName IndexFormatVersion 0))
            ib fs = (none, (builderWriteAll os S
              (Path.join dstDir (mergedName IndexFormatVersion 0)) ib fs).2) := by
          rw [← hw]
        rw [hpair] at h ⊢
        simp only [Prod.mk.injEq, true_and] at h
        rw [h]
      · have hpair : builderWriteAll os S (Path.join dstDir (mergedName IndexFormatVersion 0))
            ib fs = (some e, (builderWriteAll os S
              (Path.join dstDir (mergedName IndexFormatVersion 0)) ib fs).2) := by
          rw [← hw]
        rw [hpair] at h
        simp at h

/-- What a run of the writer that returned `nil` left behind: the serialized
bytes at the final path, one more log record, nothing else changed. -/
theorem builderWriteAll_ok_effect {os : OSRun} {S : Serializer} {fn : Path} {ib : IndexBuilder}
    {fs fs1 : FS} (h : builderWriteAll os S fn ib fs = (none, fs1)) :
    (∃ mode, fs1.files fn = some ⟨mode, (S.write ib).1⟩) ∧
    (∀ p, p ≠ fn → fs1.files p = fs.files p) ∧
    fs1.log =
      fs.log ++ [⟨fn, (S.write ib).1.length, (S.write ib).1.length, (S.contentSize ib + 1) % 2 ^ 32⟩] := by
  have h1 : (builderWriteAll os S fn ib fs).1 = none := by rw [h]
  have h2 : (builderWriteAll os S fn ib fs).2 = fs1 := by rw [h]
  have hlog := builderWriteAll_log h1
  obtain ⟨-, hcases⟩ := builderWriteAll_cases os S fn ib fs
  rw [h2] at hlog
  rcases hcases with ⟨e, he, -⟩ | ⟨-, -, -, -, hmode, hother⟩
  · rw [h1] at he
    cases he
  · rw [h2] at hmode hother
    exact ⟨hmode, hother, hlog⟩

/-- The directory of the joined path is cleaned, and the divisor of the logged
overhead is taken in 32 bits: with a content size of `2 ^ 32 - 1` it is 0. -/
theorem join_and_log_examples :
    Path.join "idx/" "n" = ⟨"idx", "n"⟩ ∧ Path.join "" "n" = ⟨".", "n"⟩ ∧
    Path.join "/" "n" = ⟨"/", "n"⟩ ∧ Path.join "a//b/../c/." "n" = ⟨"a/c", "n"⟩ ∧
    Path.join "../x" "n" = ⟨"../x", "n"⟩ ∧
    (builderWriteAll osAllGood fullSerializer samplePath ⟨[]⟩ freshFS).2.log =
      [⟨samplePath, 3, 3, 0⟩] := by
  decide

/-- C11 (output file name): a successful `Merge` into directory `dstDir` writes
the serialized builder to the path `filepath.Join` makes of `dstDir` and the
name `"merged_v" ++ decimal(IndexFormatVersion) ++ ".00000.zoekt"`, the version
followed by the sequence number 0 padded to five digits: the file of that name
in the directory `filepath.Clean(dstDir)`.  It logs that path and changes no
other path.  The path is given by the directory, the version and the sequence
number alone: it is the same for all input files, builders, serializers, system
behaviours and prior file-system states. -/
theorem Merge_output_path {F : Type} (NewSearcher : F → Except Error IndexData)
    (B : BuilderRules) (S : Serializer) (os : OSRun) (IndexFormatVersion : Nat)
    (dstDir : String) (files : List F) (fs fs1 : FS)
    (h : Merge NewSearcher B S os IndexFormatVersion dstDir files fs = (.ok (), fs1)) :
    Path.join dstDir (mergedName IndexFormatVersion 0) =
      ⟨filepathClean dstDir, "merged_v" ++ toString IndexFormatVersion ++ ".00000.zoekt"⟩ ∧
    ∃ ds ib mode, List.Forall₂ (fun f d => NewSearcher f = .ok d) files ds ∧
      merge B ds = .ok ib ∧
      fs1.files
          ⟨filepathClean dstDir, "merged_v" ++ toString IndexFormatVersion ++ ".00000.zoekt"⟩ =
        some ⟨mode, (S.write ib).1⟩ ∧
      (∀ p, p ≠ (⟨filepathClean dstDir,
            "merged_v" ++ toString IndexFormatVersion ++ ".00000.zoekt"⟩ : Path) →
        fs1.files p = fs.files p) ∧
      fs1.log = fs.log ++
        [⟨⟨filepathClean dstDir, "merged_v" ++ toString IndexFormatVersion ++ ".00000.zoekt"⟩,
          (S.write ib).1.length, (S.write ib).1.length, (S.contentSize ib + 1) % 2 ^ 32⟩] := by
  have hpath : Path.join dstDir (mergedName IndexFormatVersion 0) =
      ⟨filepathClean dstDir, "merged_v" ++ toString IndexFormatVersion ++ ".00000.zoekt"⟩ := by
    simp only [Path.join, mergedName_zero]
  obtain ⟨ds, ib, hall, hm, hw⟩ := Merge_eq_ok h
  rw [hpath] at hw
  obtain ⟨⟨mode, hfile⟩, hother, hlog⟩ := builderWriteAll_ok_effect hw
  exact ⟨hpath, ds, ib, mode, hall, hm, hfile, hother, hlog⟩

theorem Merge_output_path_witness :
    slashRun.1 = .ok () ∧
    (filepathClean "idx/" = "idx" ∧ fmt05d 0 = "00000") ∧
    Path.join "idx/" (mergedName 16 0) =
      ⟨filepathClean "idx/", "merged_v" ++ toString 16 ++ ".00000.zoekt"⟩ ∧
    slashRun.2.files ⟨"idx", "merged_v16.00000.zoekt"⟩ = some ⟨0o666, [2]⟩ ∧
    slashRun.2.files ⟨"idx/", "merged_v16.00000.zoekt"⟩ = none ∧
    slashRun.2.log = [⟨⟨"idx", "merged_v16.00000.zoekt"⟩, 1, 1, 3⟩] :=
  ⟨by decide, by decide,
   (Merge_output_path sampleSearcher acceptAll countingSerializer osAllGood 16 "idx/" ["a"]
      freshFS slashRun.2 (Prod.ext (by decide) rfl)).1,
   by decide, by decide, by decide⟩


/-! ## Two merges into one directory -/

/-- C12, as amended: the output name has a slot for a sequence number, which
`Merge` always fills with 0.  Two successful `Merge` invocations with the same
destination directory and the same format version therefore write to the same
final path, the file `merged_v<version>.00000.zoekt` in the cleaned directory:
after the first run that path holds the bytes of the first merged
builder, after the second run it holds the bytes of the second, which replaced
them; no other path is changed by either run, and both log records name that
path. -/
theorem Merge_twice_same_path {F G : Type} (NewSearcher1 : F → Except Error IndexData)
    (NewSearcher2 : G → Except Error IndexData) (B1 B2 : BuilderRules) (S1 S2 : Serializer)
    (os1 os2 : OSRun) (IndexFormatVersion : Nat) (dstDir : String) (files1 : List F)
    (files2 : List G) (fs fs1 fs2 : FS)
    (h1 : Merge NewSearcher1 B1 S1 os1 IndexFormatVersion dstDir files1 fs = (.ok (), fs1))
    (h2 : Merge NewSearcher2 B2 S2 os2 IndexFormatVersion dstDir files2 fs1 = (.ok (), fs2)) :
    Path.join dstDir (mergedName IndexFormatVersion 0) =
      ⟨filepathClean dstDir, "merged_v" ++ toString IndexFormatVersion ++ ".00000.zoekt"⟩ ∧
    ∃ ds1 ib1 mode1 ds2 ib2 mode2,
      (List.Forall₂ (fun f d => NewSearcher1 f = .ok d) files1 ds1 ∧ merge B1 ds1 = .ok ib1) ∧
      (List.Forall₂ (fun f d => NewSearcher2 f = .ok d) files2 ds2 ∧ merge B2 ds2 = .ok ib2) ∧
      fs1.files (Path.join dstDir (mergedName IndexFormatVersion 0)) =
        some ⟨mode1, (S1.write ib1).1⟩ ∧
      fs2.files (Path.join dstDir (mergedName IndexFormatVersion 0)) =
        some ⟨mode2, (S2.write ib2).1⟩ ∧
      (∀ p, p ≠ Path.join dstDir (mergedName IndexFormatVersion 0) →
        fs1.files p = fs.files p ∧ fs2.files p = fs.files p) ∧
      fs2.log = fs.log ++
        [⟨Path.join dstDir (mergedName IndexFormatVersion 0),
            (S1.write ib1).1.length, (S1.write ib1).1.length, (S1.contentSize ib1 + 1) % 2 ^ 32⟩,
         ⟨Path.join dstDir (mergedName IndexFormatVersion 0),
            (S2.write ib2).1.length, (S2.write ib2).1.length, (S2.contentSize ib2 + 1) % 2 ^ 32⟩] := by
  obtain ⟨ds1, ib1, hall1, hm1, hw1⟩ := Merge_eq_ok h1
  obtain ⟨ds2, ib2, hall2, hm2, hw2⟩ := Merge_eq_ok h2
  obtain ⟨⟨mode1, hfile1⟩, hother1, hlog1⟩ := builderWriteAll_ok_effect hw1
  obtain ⟨⟨mode2, hfile2⟩, hother2, hlog2⟩ := builderWriteAll_ok_effect hw2
  refine ⟨by simp only [Path.join, mergedName_zero],
    ds1, ib1, mode1, ds2, ib2, mode2, ⟨hall1, hm1⟩, ⟨hall2, hm2⟩, hfile1, hfile2, ?_, ?_⟩
  · intro p hp
    exact ⟨hother1 p hp, by rw [hother2 p hp, hother1 p hp]⟩
  · rw [hlog2, hlog1]
    simp

theorem Merge_twice_same_path_witness :
    (firstRun.1 = .ok () ∧ secondRun.1 = .ok ()) ∧
    Path.join "idx" (mergedName 16 0) =
      ⟨filepathClean "idx", "merged_v" ++ toString 16 ++ ".00000.zoekt"⟩ ∧
    ∃ ds1 ib1 mode1 ds2 ib2 mode2,
      (List.Forall₂ (fun f d => sampleSearcher f = .ok d) ["a"] ds1 ∧
        merge acceptAll ds1 = .ok ib1) ∧
      (List.Forall₂ (fun f d => sampleSearcher f = .ok d) ["a", "b"] ds2 ∧
        merge acceptAll ds2 = .ok ib2) ∧
      firstRun.2.files (Path.join "idx" (mergedName 16 0)) =
        some ⟨mode1, (countingSerializer.write ib1).1⟩ ∧
      secondRun.2.files (Path.join "idx" (mergedName 16 0)) =
        some ⟨mode2, (countingSerializer.write ib2).1⟩ ∧
      (∀ p, p ≠ Path.join "idx" (mergedName 16 0) →
        firstRun.2.files p = freshFS.files p ∧ secondRun.2.files p = freshFS.files p) ∧
      secondRun.2.log = freshFS.log ++
        [⟨Path.join "idx" (mergedName 16 0),
            (countingSerializer.write ib1).1.length, (countingSerializer.write ib1).1.length,
            (countingSerializer.contentSize ib1 + 1) % 2 ^ 32⟩,
         ⟨Path.join "idx" (mergedName 16 0),
            (countingSerializer.write ib2).1.length, (countingSerializer.write ib2).1.length,
            (countingSerializer.contentSize ib2 + 1) % 2 ^ 32⟩] :=
  ⟨by decide,
   Merge_twice_same_path sampleSearcher sampleSearcher acceptAll acceptAll countingSerializer
     countingSerializer osAllGood osAllGood 16 "idx" ["a"] ["a", "b"] freshFS firstRun.2
     secondRun.2 (Prod.ext (by decide) rfl) (Prod.ext (by decide) rfl)⟩

/-- C12, counterexample: two successful runs of `Merge` into directory `idx`
with format version 16.  Both log the same final path; after the first run it
holds the one byte `2` (two documents), after the second the byte `4`: the
second run replaced the file of the first, and the directory holds one file. -/
theorem second_merge_replaces_first :
    firstRun.1 = .ok () ∧ secondRun.1 = .ok () ∧
    firstRun.2.log.map (fun r => r.path) = [⟨"idx", "merged_v16.00000.zoekt"⟩] ∧
    secondRun.2.log.map (fun r => r.path) =
      [⟨"idx", "merged_v16.00000.zoekt"⟩, ⟨"idx", "merged_v16.00000.zoekt"⟩] ∧
    firstRun.2.files ⟨"idx", "merged_v16.00000.zoekt"⟩ = some ⟨0o666, [2]⟩ ∧
    secondRun.2.files ⟨"idx", "merged_v16.00000.zoekt"⟩ = some ⟨0o666, [4]⟩ ∧
    secondRun.2.files ⟨"idx", "merged_v16.00001.zoekt"⟩ = none := by
  decide


/-! ## The fields of an assembled document -/

theorem ofExcept_eq_ok {α : Type} {x : Except Error α} {a : α} :
    Outcome.ofExcept x = .ok a ↔ x = .ok a := by
  cases x <;> simp [Outcome.ofExcept]

/-- What a successful run of lines 94-127 read. -/
theorem assemble_eq_ok {d : IndexData} {docID repoID : Nat} {doc : Document}
    (h : assemble d docID repoID = .ok doc) :
    ∃ paths sub path lang symbolsMeta mask,
      d.subRepoPaths[repoID]? = some paths ∧ d.subRepos[docID]? = some sub ∧
      paths[sub]? = some path ∧ d.languages[docID]? = some lang ∧
      d.readContents docID = .ok doc.Content ∧ d.readDocSections docID = .ok doc.Symbols ∧
      symbolsMetaData d docID doc.Symbols.length = .ok symbolsMeta ∧
      d.fileBranchMasks[docID]? = some mask ∧ calcBranches d repoID mask = .ok doc.Branches ∧
      doc.Name = d.fileName docID ∧ doc.SubRepositoryPath = path ∧
      doc.Language = d.languageMap lang ∧ doc.SkipReason = "" ∧
      doc.SymbolsMetaData = symbolsMeta := by
  simp only [assemble, Outcome.bind_eq_ok, index_eq_ok, ofExcept_eq_ok] at h
  obtain ⟨paths, h1, sub, h2, path, h3, lang, h4, content, h5, symbols, h6, symbolsMeta, h7,
    mask, h8, branches, h9, hdoc⟩ := h
  simp only [Outcome.ok.injEq] at hdoc
  subst hdoc
  exact ⟨paths, sub, path, lang, symbolsMeta, mask, h1, h2, h3, h4, h5, h6, h7, h8, h9,
    rfl, rfl, rfl, rfl, rfl⟩

theorem symbolsMetaData_eq_ok {d : IndexData} {docID n : Nat} {records : List (Option Symbol)}
    (h : symbolsMetaData d docID n = .ok records) :
    records.length = n ∧
    ∀ i, i < n → ∃ base, d.fileEndSymbol[docID]? = some base ∧
      records[i]? = some (d.symbolsData ((base + i) % 2 ^ 32)) := by
  unfold symbolsMetaData at h
  by_cases hn : n = 0
  · simp only [hn, if_true, Outcome.ok.injEq] at h
    subst h
    subst hn
    exact ⟨rfl, fun i hi => absurd hi (Nat.not_lt_zero i)⟩
  · simp only [hn, if_false, Outcome.bind_eq_ok, index_eq_ok, Outcome.ok.injEq] at h
    obtain ⟨base, hbase, hrec⟩ := h
    subst hrec
    refine ⟨by simp, fun i hi => ⟨base, hbase, ?_⟩⟩
    simp [List.getElem?_map, List.getElem?_range hi]

/-- C14 (symbol metadata resolution): the document assembled for `docID` has as
many `SymbolsMetaData` records as symbol sections, and its `i`-th record is the
record the shard's symbol store gives at offset `fileEndSymbol[docID] + i`
(computed in 32 bits, hence exact when the sum is below `2 ^ 32`). -/
theorem assemble_symbols (d : IndexData) (docID repoID : Nat) (doc : Document)
    (h : assemble d docID repoID = .ok doc) :
    d.readDocSections docID = .ok doc.Symbols ∧
    doc.SymbolsMetaData.length = doc.Symbols.length ∧
    ∀ i, i < doc.Symbols.length → ∃ base, d.fileEndSymbol[docID]? = some base ∧
      doc.SymbolsMetaData[i]? = some (d.symbolsData ((base + i) % 2 ^ 32)) ∧
      (base + i < 2 ^ 32 → doc.SymbolsMetaData[i]? = some (d.symbolsData (base + i))) := by
  obtain ⟨_, _, _, _, symbolsMeta, _, -, -, -, -, -, hsec, hmeta, -, -, -, -, -, -, hdoc⟩ :=
    assemble_eq_ok h
  obtain ⟨hlen, hrec⟩ := symbolsMetaData_eq_ok hmeta
  rw [hdoc]
  refine ⟨hsec, hlen, fun i hi => ?_⟩
  obtain ⟨base, hbase, hi1⟩ := hrec i hi
  refine ⟨base, hbase, hi1, fun hlt => ?_⟩
  rw [hi1, Nat.mod_eq_of_lt hlt]

theorem assemble_symbols_witness :
    assemble richShard 0 0 = .ok richDoc ∧
    (1 < richDoc.Symbols.length ∧
      ∃ base, richShard.fileEndSymbol[0]? = some base ∧
        richDoc.SymbolsMetaData[1]? = some (richShard.symbolsData ((base + 1) % 2 ^ 32)) ∧
        (base + 1 < 2 ^ 32 → richDoc.SymbolsMetaData[1]? = some (richShard.symbolsData (base + 1)))) :=
  ⟨by decide, by decide, (assemble_symbols richShard 0 0 richDoc (by decide)).2.2 1 (by decide)⟩

/-- C15 (document field resolution): the document assembled for `docID` with
repository id `repoID` has the shard's file name for `docID` as `Name`,
`subRepoPaths[repoID][subRepos[docID]]` as `SubRepositoryPath`,
`languageMap[languages[docID]]` as `Language` and an empty `SkipReason`; these
four fields are the same whatever `readContents` returns for the document. -/
theorem assemble_fields (d : IndexData) (docID repoID : Nat) (doc : Document)
    (h : assemble d docID repoID = .ok doc) :
    doc.Name = d.fileName docID ∧
    (∃ paths sub, d.subRepoPaths[repoID]? = some paths ∧ d.subRepos[docID]? = some sub ∧
      paths[sub]? = some doc.SubRepositoryPath) ∧
    (∃ lang, d.languages[docID]? = some lang ∧ doc.Language = d.languageMap lang) ∧
    doc.SkipReason = "" ∧
    ∀ (stored : Nat → Except Error Bytes) (doc1 : Document),
      assemble { d with readContents := stored } docID repoID = .ok doc1 →
      doc1.Name = doc.Name ∧ doc1.SubRepositoryPath = doc.SubRepositoryPath ∧
      doc1.Language = doc.Language ∧ doc1.SkipReason = "" := by
  obtain ⟨paths, sub, path, lang, _, _, h1, h2, h3, h4, -, -, -, -, -, hname, hpath, hlang,
    hskip, -⟩ := assemble_eq_ok h
  refine ⟨hname, ⟨paths, sub, h1, h2, by rw [hpath]; exact h3⟩, ⟨lang, h4, hlang⟩, hskip, ?_⟩
  intro stored doc1 hdoc1
  obtain ⟨paths1, sub1, path1, lang1, _, _, g1, g2, g3, g4, -, -, -, -, -, gname, gpath, glang,
    gskip, -⟩ := assemble_eq_ok hdoc1
  simp only at g1 g2 g3 g4 gname glang
  rw [h1] at g1
  rw [h2] at g2
  rw [h4] at g4
  cases g1
  cases g2
  cases g4
  rw [h3] at g3
  cases g3
  exact ⟨by rw [gname, hname], by rw [gpath, hpath], by rw [glang, hlang], gskip⟩

theorem assemble_fields_witness :
    assemble richShard 0 0 = .ok richDoc ∧
    richDoc.Name = richShard.fileName 0 ∧
    (∃ paths sub, richShard.subRepoPaths[0]? = some paths ∧ richShard.subRepos[0]? = some sub ∧
      paths[sub]? = some richDoc.SubRepositoryPath) :=
  ⟨by decide, (assemble_fields richShard 0 0 richDoc (by decide)).1,
   (assemble_fields richShard 0 0 richDoc (by decide)).2.1⟩


/-! ## The keys and the passes of the branch loop -/

/-- C16, the code at the failing input: the document of `highShard` has bits 32
and 33 set in its mask.  The counter `id` is a `uint32`, so at both positions
the lookup key is 0: with a table that names every key the two names come from
key 0, and with the table of the shard, which holds branches 33 and 34 under
the keys `2 ^ 32` and `2 ^ 33`, both names are the empty string of an absent
key.  Below position 32 the keys `2 ^ i` are distinct. -/
theorem branch_keys_collide :
    highShard.fileBranchMasks[0]? = some (2 ^ 32 + 2 ^ 33) ∧
    setBits 64 (2 ^ 32 + 2 ^ 33) = [32, 33] ∧
    (2 ^ 32 % 2 ^ 32 = 0 ∧ 2 ^ 33 % 2 ^ 32 = 0) ∧
    (assemble highKeyShard 0 0).bind (fun doc => .ok doc.Branches) = .ok ["b0", "b0"] ∧
    (assemble highShard 0 0).bind (fun doc => .ok doc.Branches) = .ok ["", ""] ∧
    branchMap manyBranches (2 ^ 32) = "b33" ∧ branchMap manyBranches (2 ^ 33) = "b34" := by
  decide

theorem setBits_pairwise (w m : Nat) : (setBits w m).Pairwise (· < ·) :=
  List.Pairwise.filter _ (List.pairwise_lt_range _)

theorem mem_setBits_iff {w m i : Nat} : i ∈ setBits w m ↔ i < w ∧ m.testBit i = true := by
  simp [setBits]

/-- C17, as amended: for a mask `m` of a document whose repository id indexes
`branchNames`, the loop of lines 120-126 is left through its condition
`mask != 0` after exactly as many passes as `m` has bits, its bit length
`m.size`.  Run with any bound of at least `m.size` passes it ends with `mask`
equal to 0 and `m.size` passes made; run with a smaller bound it has made as many
passes as the bound allows and `mask` is not yet 0.  It appends one name per set
bit of `m`, `popCount m` names in all, in ascending order of bit position, and
for `m = 0` it makes no pass and appends nothing. -/
theorem branchLoop_bounded (d : IndexData) (repoID m : Nat) (names : Nat → String)
    (hnames : d.branchNames[repoID]? = some names) :
    (∀ fuel, m.size ≤ fuel →
      branchLoop d repoID fuel ⟨m, 1, [], 0⟩ =
        .ok ⟨0, 2 ^ m.size % 2 ^ 32,
          (setBits m.size m).map fun i => names (2 ^ i % 2 ^ 32), m.size⟩) ∧
    (∀ fuel, fuel < m.size →
      ∃ v, branchLoop d repoID fuel ⟨m, 1, [], 0⟩ = .ok v ∧ v.mask ≠ 0 ∧ v.passes = fuel) ∧
    (∀ n, m < 2 ^ n → m.size ≤ n) ∧
    calcBranches d repoID m = .ok ((setBits m.size m).map fun i => names (2 ^ i % 2 ^ 32)) ∧
    ((setBits m.size m).map fun i => names (2 ^ i % 2 ^ 32)).length = popCount m ∧
    (setBits m.size m).Pairwise (· < ·) ∧
    (∀ i, i ∈ setBits m.size m ↔ m.testBit i = true) ∧
    (m = 0 → branchLoop d repoID m ⟨m, 1, [], 0⟩ = .ok ⟨0, 1, [], 0⟩) := by
  have hsize : m < 2 ^ m.size := Nat.lt_size_self m
  have hcalc := calcBranches_eq hnames m.size m hsize
  refine ⟨?_, ?_, fun n hn => Nat.size_le.mpr hn, hcalc, by simp [popCount],
    setBits_pairwise _ _, ?_, ?_⟩
  · intro fuel hfuel
    have hf : m < 2 ^ fuel := Nat.size_le.mp hfuel
    have h := branchLoop_eq hnames fuel m.size m 0 [] 0 hf hsize
    simp only [pow_zero, Nat.zero_add, List.nil_append] at h
    have h1 : (1 : Nat) % 2 ^ 32 = 1 := by decide
    rw [h1] at h
    exact h
  · intro fuel hfuel
    obtain ⟨v, hv, hv0, hvp⟩ := branchLoop_short hnames fuel m 1 [] 0 hfuel
    exact ⟨v, hv, hv0, by omega⟩
  · intro i
    rw [mem_setBits_iff]
    constructor
    · exact fun h => h.2
    · intro h
      refine ⟨?_, h⟩
      by_contra hge
      rw [testBit_eq_false_of_lt hsize (Nat.le_of_not_lt hge)] at h
      exact absurd h (by decide)
  · intro h0
    subst h0
    rfl

theorem branchLoop_bounded_witness :
    shardA.branchNames[0]? = some (branchMap ["HEAD", "dev", "rel"]) ∧
    (Nat.size 5 = 3 ∧ Nat.size 5 ≤ 5) ∧
    branchLoop shardA 0 5 ⟨5, 1, [], 0⟩ =
      .ok ⟨0, 2 ^ Nat.size 5 % 2 ^ 32,
        (setBits (Nat.size 5) 5).map fun i => branchMap ["HEAD", "dev", "rel"] (2 ^ i % 2 ^ 32),
        Nat.size 5⟩ ∧
    branchLoop shardA 0 5 ⟨5, 1, [], 0⟩ = .ok ⟨0, 8, ["HEAD", "rel"], 3⟩ :=
  ⟨rfl,
   ⟨Nat.le_antisymm (Nat.size_le.mpr (by decide)) (Nat.lt_size.mpr (by decide)),
    Nat.size_le.mpr (by decide)⟩,
   (branchLoop_bounded shardA 0 5 (branchMap ["HEAD", "dev", "rel"]) rfl).1 5
     (Nat.size_le.mpr (by decide)),
   by decide⟩

/-- C17, counterexample: the first document of `noTableShard` belongs to
repository 0 and has mask `0b0001`, one set bit, but `branchNames` is empty.  The
loop panics in its first pass, at `d.branchNames[repoID]`: no name is appended,
and `merge` ends with that panic.  With the mask 0 the loop makes no pass and
the missing table is not looked at. -/
theorem branch_loop_needs_table :
    noTableShard.fileBranchMasks[0]? = some 1 ∧ noTableShard.repos[0]? = some 0 ∧
    noTableShard.branchNames.length = 0 ∧
    setBits 64 1 = [0] ∧
    branchLoop noTableShard 0 1 ⟨1, 1, [], 0⟩ = .panic ∧
    calcBranches noTableShard 0 1 = .panic ∧
    assemble noTableShard 0 0 = .panic ∧
    merge acceptAll [noTableShard] = .panic ∧
    branchLoop noTableShard 0 0 ⟨0, 1, [], 0⟩ = .ok ⟨0, 1, [], 0⟩ ∧
    calcBranches noTableShard 0 0 = .ok [] := by
  decide


/-! ## No out-of-range access on well-formed shards -/

theorem Outcome.bind_ne_panic {α β : Type} {x : Outcome α} {f : α → Outcome β}
    (hx : x ≠ .panic) (hf : ∀ a, x = .ok a → f a ≠ .panic) : x.bind f ≠ .panic := by
  cases x with
  | ok a => exact hf a rfl
  | error e => simp
  | panic => exact absurd rfl hx

theorem index_of_lt {α : Type} {xs : List α} {i : Nat} (h : i < xs.length) :
    ∃ x, index xs i = .ok x ∧ xs[i]? = some x :=
  ⟨xs[i], index_eq_ok.mpr (List.getElem?_eq_getElem h), List.getElem?_eq_getElem h⟩

theorem ofExcept_ne_panic {α : Type} (x : Except Error α) : Outcome.ofExcept x ≠ .panic := by
  cases x <;> simp [Outcome.ofExcept]

theorem symbolsMetaData_ne_panic {d : IndexData} {docID : Nat} (n : Nat)
    (h : docID < d.fileEndSymbol.length) : symbolsMetaData d docID n ≠ .panic := by
  obtain ⟨base, hbase, -⟩ := index_of_lt h
  unfold symbolsMetaData
  by_cases hn : n = 0 <;> simp [hn, hbase]

theorem calcBranches_ne_panic {d : IndexData} {repoID : Nat} (mask : Nat)
    (h : repoID < d.branchNames.length) : calcBranches d repoID mask ≠ .panic := by
  obtain ⟨names, -, hnames⟩ := index_of_lt h
  rw [calcBranches_eq hnames mask mask (Nat.lt_two_pow mask)]
  simp

theorem assemble_ne_panic {d : IndexData} {docID repoID : Nat} (hd : TablesInRange d)
    (hdoc : docID < d.fileBranchMasks.length) (hrepo : d.repos[docID]? = some repoID) :
    assemble d docID repoID ≠ .panic := by
  obtain ⟨-, -, hlang, hsym, hall⟩ := hd
  obtain ⟨-, hbr, paths, sub, hpaths, hsub, hlt⟩ := hall docID repoID hdoc hrepo
  obtain ⟨path, hpath, -⟩ := index_of_lt hlt
  obtain ⟨lang, hl, -⟩ := index_of_lt (Nat.lt_of_lt_of_le hdoc hlang)
  obtain ⟨mask, hmask, -⟩ := index_of_lt hdoc
  unfold assemble
  simp only [index_eq_ok.mpr hpaths, index_eq_ok.mpr hsub, hpath, hl, Outcome.ok_bind]
  refine Outcome.bind_ne_panic (ofExcept_ne_panic _) fun content _ => ?_
  refine Outcome.bind_ne_panic (ofExcept_ne_panic _) fun symbols _ => ?_
  refine Outcome.bind_ne_panic
    (symbolsMetaData_ne_panic _ (Nat.lt_of_lt_of_le hdoc hsym)) fun meta _ => ?_
  rw [hmask]
  simp only [Outcome.ok_bind]
  refine Outcome.bind_ne_panic (calcBranches_ne_panic _ hbr) fun branches _ => ?_
  simp

theorem checkRepo_ne_panic {d : IndexData} {docID repoID : Nat} (st : MergeState)
    (h : repoID < d.repoMetaData.length) : checkRepo d docID repoID st ≠ .panic := by
  obtain ⟨r, hr, -⟩ := index_of_lt h
  unfold checkRepo
  by_cases h1 : (repoID : Int) ≠ st.2
  · by_cases h2 : st.2 + 1 ≠ (repoID : Int)
    · simp [h1, h2]
    · simp [h1, h2, hr]
  · simp [h1]

theorem Add_ne_panic (B : BuilderRules) (ib : IndexBuilder) (doc : Document) :
    ib.Add B doc ≠ .panic := by
  unfold IndexBuilder.Add
  cases B.addErr ib doc <;> simp

theorem mergeDoc_ne_panic {B : BuilderRules} {d : IndexData} {docID : Nat} (st : MergeState)
    (hd : TablesInRange d) (hdoc : docID < d.fileBranchMasks.length) :
    mergeDoc B d st docID ≠ .panic := by
  obtain ⟨repoID, hidx, hrepo⟩ := index_of_lt (Nat.lt_of_lt_of_le hdoc hd.1)
  unfold mergeDoc
  rw [hidx]
  simp only [Outcome.ok_bind]
  refine Outcome.bind_ne_panic
    (checkRepo_ne_panic st (hd.2.2.2.2 docID repoID hdoc hrepo).1) fun st1 _ => ?_
  refine Outcome.bind_ne_panic (assemble_ne_panic hd hdoc hrepo) fun doc _ => ?_
  refine Outcome.bind_ne_panic (Add_ne_panic B _ _) fun ib _ => ?_
  simp

theorem mergeDocs_ne_panic {B : BuilderRules} {d : IndexData} (hd : TablesInRange d)
    (ids : List Nat) (hids : ∀ i ∈ ids, i < d.fileBranchMasks.length) (st : MergeState) :
    mergeDocs B d ids st ≠ .panic := by
  induction ids generalizing st with
  | nil => simp [mergeDocs]
  | cons i ids ih =>
    simp only [mergeDocs]
    exact Outcome.bind_ne_panic (mergeDoc_ne_panic st hd (hids i (List.mem_cons_self i ids)))
      fun st1 _ => ih (fun j hj => hids j (List.mem_cons_of_mem i hj)) st1

theorem mergeShards_ne_panic {B : BuilderRules} (ds : List IndexData)
    (hds : ∀ d ∈ ds, TablesInRange d) (st : MergeState) : mergeShards B ds st ≠ .panic := by
  induction ds generalizing st with
  | nil => simp [mergeShards]
  | cons d ds ih =>
    simp only [mergeShards]
    refine Outcome.bind_ne_panic ?_ fun st1 _ => ih (fun d1 h1 => hds d1 (List.mem_cons_of_mem d h1)) st1
    simp only [mergeShard]
    refine Outcome.bind_ne_panic
      (mergeDocs_ne_panic (hds d (List.mem_cons_self d ds)) _
        (fun i hi => List.mem_range.mp hi) st) fun st1 _ => ?_
    simp

theorem tablesInRange_sound {d : IndexData} (h : tablesInRange d = true) : TablesInRange d := by
  simp only [tablesInRange, Bool.and_eq_true, decide_eq_true_eq, List.all_eq_true,
    List.mem_range] at h
  obtain ⟨⟨⟨⟨h1, h2⟩, h3⟩, h4⟩, hall⟩ := h
  refine ⟨h1, h2, h3, h4, ?_⟩
  intro docID repoID hdoc hrepo
  have hcheck := hall docID hdoc
  simp only [docInRange, hrepo, Bool.and_eq_true, decide_eq_true_eq] at hcheck
  obtain ⟨⟨hm, hb⟩, hsub⟩ := hcheck
  refine ⟨hm, hb, ?_⟩
  cases hp : d.subRepoPaths[repoID]? with
  | none => simp [hp] at hsub
  | some paths =>
    cases hs : d.subRepos[docID]? with
    | none => simp [hp, hs] at hsub
    | some sub =>
      simp only [hp, hs, decide_eq_true_eq] at hsub
      exact ⟨paths, sub, rfl, rfl, hsub⟩

/-- C18 (totality under well-formed shards): when the first shard has at least
one repository-metadata record and every shard satisfies `TablesInRange`,
`merge` makes no out-of-range access: it returns a builder or an error.  The
contiguity check alone does not give these bounds: `shortShard` has the
contiguous repository ids `0, 0` and makes `merge` panic.  The condition on the
first shard is needed: `bareShard` satisfies `TablesInRange` and makes `merge`
panic at line 75, before any check. -/
theorem merge_total (B : BuilderRules) (d0 : IndexData) (rest : List IndexData) :
    (0 < d0.repoMetaData.length → (∀ d ∈ d0 :: rest, TablesInRange d) →
      merge B (d0 :: rest) ≠ .panic ∧
      ((∃ ib, merge B (d0 :: rest) = .ok ib) ∨ ∃ e, merge B (d0 :: rest) = .error e)) ∧
    (shortShard.repos = [0, 0] ∧ shortShard.fileBranchMasks.length = 2 ∧
      merge acceptAll [shortShard] = .panic) ∧
    (TablesInRange bareShard ∧ merge acceptAll [bareShard] = .panic) := by
  refine ⟨fun hmeta hds => ?_, ⟨rfl, rfl, by decide⟩, ⟨?_, by decide⟩⟩
  · have hne : merge B (d0 :: rest) ≠ .panic := by
      obtain ⟨r0, hr0, -⟩ := index_of_lt hmeta
      unfold merge
      refine Outcome.bind_ne_panic ?_ fun st0 _ =>
        Outcome.bind_ne_panic (mergeShards_ne_panic _ hds st0) fun st _ => by simp
      simp only [mergeInit, IndexData.Repository, hr0, Outcome.ok_bind, NewIndexBuilder]
      cases B.newErr r0 <;> simp
    refine ⟨hne, ?_⟩
    cases hres : merge B (d0 :: rest) with
    | ok ib => exact Or.inl ⟨ib, rfl⟩
    | error e => exact Or.inr ⟨e, rfl⟩
    | panic => exact absurd hres hne
  · exact tablesInRange_sound (by decide)

theorem merge_total_witness :
    (0 < shardA.repoMetaData.length ∧ tablesInRange shardA = true ∧
      tablesInRange shardB = true) ∧
    merge acceptAll (shardA :: [shardB]) ≠ .panic :=
  ⟨by decide,
   ((merge_total acceptAll shardA [shardB]).1 (by decide) (by
      intro d hd
      simp only [List.mem_cons, List.mem_singleton, List.not_mem_nil, or_false] at hd
      rcases hd with rfl | rfl
      · exact tablesInRange_sound (by decide)
      · exact tablesInRange_sound (by decide))).1⟩


/-! ## Shards without documents -/

theorem Outcome.bind_congr {α β : Type} {x : Outcome α} {f g : α → Outcome β}
    (h : ∀ a, x = .ok a → f a = g a) : x.bind f = x.bind g := by
  cases x with
  | ok a => exact h a rfl
  | error e => rfl
  | panic => rfl

theorem mergeShard_empty (B : BuilderRules) {d : IndexData} (h : d.fileBranchMasks.length = 0)
    (st : MergeState) : mergeShard B d st = .ok (st.1, -1) := by
  simp [mergeShard, h, mergeDocs]

theorem mergeInit_append (B : BuilderRules) {pre : List IndexData} (hpre : pre ≠ [])
    (xs ys : List IndexData) : mergeInit B (pre ++ xs) = mergeInit B (pre ++ ys) := by
  cases pre with
  | nil => exact absurd rfl hpre
  | cons p ps => rfl

/-- C19 (empty shards are neutral except in first position): removing a shard
without documents that is not the first of the list leaves the result of
`merge` unchanged, whether it is an error, a panic or a builder (the same calls
in the same order).  A first shard without documents still gives the builder
its initial repository: the registered repositories are its record 0 followed
by what the other shards register. -/
theorem merge_empty_shard (B : BuilderRules) (pre : List IndexData) (e : IndexData)
    (post : List IndexData) (he : e.fileBranchMasks.length = 0) :
    (pre ≠ [] → merge B (pre ++ e :: post) = merge B (pre ++ post)) ∧
    (∀ ib, merge B (e :: post) = .ok ib →
      ∃ r0, e.repoMetaData[0]? = some r0 ∧ ib.registered = r0 :: ownedRepos post) := by
  constructor
  · intro hpre
    unfold merge
    rw [mergeInit_append B hpre (e :: post) post]
    apply Outcome.bind_congr
    intro st0 _
    rw [mergeShards_append, mergeShards_append]
    congr 1
    apply Outcome.bind_congr
    intro st hst
    have hlast : st.2 = -1 := mergeShards_last pre hpre hst
    simp only [mergeShards, mergeShard_empty B he, Outcome.ok_bind]
    congr 1
    exact Prod.ext rfl hlast.symm
  · intro ib h
    obtain ⟨st0, st, h0, h1, rfl⟩ := merge_eq_ok.mp h
    obtain ⟨d0, rest, r0, hds, hr0, -, hst0⟩ := mergeInit_eq_ok.mp h0
    simp only [List.cons.injEq] at hds
    obtain ⟨rfl, rfl⟩ := hds
    subst hst0
    simp only [mergeShards, mergeShard_empty B he, Outcome.ok_bind] at h1
    have hreg := mergeShards_registered post rfl h1
    refine ⟨r0, hr0, ?_⟩
    rw [hreg]
    simp [IndexBuilder.registered]

theorem merge_empty_shard_witness :
    (emptyShard.fileBranchMasks.length = 0 ∧
      merge acceptAll ([shardA] ++ [shardB]) = .ok mergedAB) ∧
    merge acceptAll ([shardA] ++ emptyShard :: [shardB]) = merge acceptAll ([shardA] ++ [shardB]) ∧
    (merge acceptAll (emptyShard :: [shardA]) = .ok mergedEmptyA ∧
      ∃ r0, emptyShard.repoMetaData[0]? = some r0 ∧
        mergedEmptyA.registered = r0 :: ownedRepos [shardA]) :=
  ⟨by decide,
   (merge_empty_shard acceptAll [shardA] emptyShard [shardB] (by decide)).1 (by simp),
   by decide,
   (merge_empty_shard acceptAll [shardA] emptyShard [shardA] (by decide)).2 mergedEmptyA
     (by decide)⟩


/-! ## Merging the output of a merge -/

theorem Grows.trans {B : BuilderRules} {a b c : List BuilderCall} (h1 : Grows B a b)
    (h2 : Grows B b c) : Grows B a c := by
  induction h1 with
  | done cs => exact h2
  | add hacc _ ih => exact Grows.add hacc (ih h2)
  | register hacc _ ih => exact Grows.register hacc (ih h2)

theorem Grows.suffix {B : BuilderRules} {cs fin : List BuilderCall} (h : Grows B cs fin) :
    ∃ tail, fin = cs ++ tail := by
  induction h with
  | done cs => exact ⟨[], by simp⟩
  | add _ _ ih =>
    obtain ⟨tail, ht⟩ := ih
    exact ⟨_, ht.trans (List.append_assoc _ _ _)⟩
  | register _ _ ih =>
    obtain ⟨tail, ht⟩ := ih
    exact ⟨_, ht.trans (List.append_assoc _ _ _)⟩

theorem mergeDoc_grows {B : BuilderRules} {d : IndexData} {st st1 : MergeState} {docID : Nat}
    (h : mergeDoc B d st docID = .ok st1) : Grows B st.1.calls st1.1.calls := by
  obtain ⟨repoID, doc, -, -, hcase⟩ := mergeDoc_eq_ok.mp h
  rcases hcase with ⟨-, hacc, hst⟩ | ⟨-, r, -, hacc, hst⟩
  · subst hst
    exact Grows.add hacc (Grows.done _)
  · subst hst
    exact Grows.register hacc (Grows.done _)

theorem mergeDocs_grows {B : BuilderRules} {d : IndexData} (ids : List Nat) {st st1 : MergeState}
    (h : mergeDocs B d ids st = .ok st1) : Grows B st.1.calls st1.1.calls := by
  induction ids generalizing st with
  | nil =>
    simp only [mergeDocs, Outcome.ok.injEq] at h
    subst h
    exact Grows.done _
  | cons i ids ih =>
    simp only [mergeDocs, Outcome.bind_eq_ok] at h
    obtain ⟨st2, h1, h2⟩ := h
    exact (mergeDoc_grows h1).trans (ih h2)

theorem mergeShards_grows {B : BuilderRules} (ds : List IndexData) {st st1 : MergeState}
    (h : mergeShards B ds st = .ok st1) : Grows B st.1.calls st1.1.calls := by
  induction ds generalizing st with
  | nil =>
    simp only [mergeShards, Outcome.ok.injEq] at h
    subst h
    exact Grows.done _
  | cons d ds ih =>
    simp only [mergeShards, mergeShard, Outcome.bind_eq_ok] at h
    obtain ⟨st2, ⟨st3, h3, h4⟩, h2⟩ := h
    simp only [Outcome.ok.injEq] at h4
    subst h4
    have hrest : Grows B st3.1.calls st1.1.calls := @ih (st3.1, -1) h2
    exact (mergeDocs_grows _ h3).trans hrest

/-- The calls of a successful `merge`: the builder was opened on an accepted
repository and grew from there. -/
theorem merge_grows {B : BuilderRules} {ds : List IndexData} {ib : IndexBuilder}
    (h : merge B ds = .ok ib) :
    ∃ r0, B.newErr r0 = none ∧ Grows B [.setRepository r0] ib.calls := by
  obtain ⟨st0, st, h0, h1, rfl⟩ := merge_eq_ok.mp h
  obtain ⟨d0, rest, r0, -, -, hnew, hst0⟩ := mergeInit_eq_ok.mp h0
  subst hst0
  exact ⟨r0, hnew, mergeShards_grows ds h1⟩

theorem ownerIdxFrom_append (n : Nat) (xs ys : List BuilderCall) :
    ownerIdxFrom n (xs ++ ys) =
      ownerIdxFrom n xs ++ ownerIdxFrom (n + (IndexBuilder.mk xs).registered.length) ys := by
  induction xs generalizing n with
  | nil => simp [ownerIdxFrom, IndexBuilder.registered]
  | cons c cs ih =>
    cases c with
    | setRepository r =>
      have hlen : (IndexBuilder.mk (.setRepository r :: cs)).registered.length =
          (IndexBuilder.mk cs).registered.length + 1 := by
        simp [IndexBuilder.registered]
      rw [List.cons_append, hlen]
      simp only [ownerIdxFrom]
      rw [ih]
      congr 2
      omega
    | add doc =>
      have hlen : (IndexBuilder.mk (.add doc :: cs)).registered.length =
          (IndexBuilder.mk cs).registered.length := by
        simp [IndexBuilder.registered]
      rw [List.cons_append, hlen]
      simp only [ownerIdxFrom]
      rw [ih]
      rfl

theorem length_ownerIdxFrom (n : Nat) (cs : List BuilderCall) :
    (ownerIdxFrom n cs).length = (IndexBuilder.mk cs).added.length := by
  induction cs generalizing n with
  | nil => rfl
  | cons c cs ih =>
    cases c <;> simp [ownerIdxFrom, ih, IndexBuilder.added]


theorem getElem?_append_length {α : Type} (xs : List α) (x : α) (ys : List α) :
    (xs ++ x :: ys)[xs.length]? = some x := by
  rw [List.getElem?_append_right (Nat.le_refl _)]
  simp

theorem added_at_add (cs : List BuilderCall) (doc : Document) (tail : List BuilderCall) :
    (IndexBuilder.mk (cs ++ [.add doc] ++ tail)).added[(IndexBuilder.mk cs).added.length]? =
      some doc := by
  have h : (IndexBuilder.mk (cs ++ [.add doc] ++ tail)).added =
      (IndexBuilder.mk cs).added ++ doc :: (IndexBuilder.mk tail).added := by
    simp [IndexBuilder.added, List.filterMap_append]
  rw [h]
  exact getElem?_append_length _ _ _

theorem added_at_register (cs : List BuilderCall) (r : Repository) (doc : Document)
    (tail : List BuilderCall) :
    (IndexBuilder.mk (cs ++ [.setRepository r, .add doc] ++ tail)).added[
      (IndexBuilder.mk cs).added.length]? = some doc := by
  have h : (IndexBuilder.mk (cs ++ [.setRepository r, .add doc] ++ tail)).added =
      (IndexBuilder.mk cs).added ++ doc :: (IndexBuilder.mk tail).added := by
    simp [IndexBuilder.added, List.filterMap_append]
  rw [h]
  exact getElem?_append_length _ _ _

theorem registered_at_register (cs : List BuilderCall) (r : Repository) (doc : Document)
    (tail : List BuilderCall) :
    (IndexBuilder.mk (cs ++ [.setRepository r, .add doc] ++ tail)).registered[
      (IndexBuilder.mk cs).registered.length]? = some r := by
  have h : (IndexBuilder.mk (cs ++ [.setRepository r, .add doc] ++ tail)).registered =
      (IndexBuilder.mk cs).registered ++ r :: (IndexBuilder.mk tail).registered := by
    simp [IndexBuilder.registered, List.filterMap_append]
  rw [h]
  exact getElem?_append_length _ _ _

theorem owner_at_add (cs : List BuilderCall) (doc : Document) (tail : List BuilderCall) :
    (ownerIdxFrom 0 (cs ++ [.add doc] ++ tail))[(IndexBuilder.mk cs).added.length]? =
      some ((IndexBuilder.mk cs).registered.length - 1) := by
  rw [List.append_assoc, ownerIdxFrom_append, ← length_ownerIdxFrom 0 cs]
  simp only [List.singleton_append, ownerIdxFrom, Nat.zero_add]
  exact getElem?_append_length _ _ _

theorem owner_at_register (cs : List BuilderCall) (r : Repository) (doc : Document)
    (tail : List BuilderCall) :
    (ownerIdxFrom 0 (cs ++ [.setRepository r, .add doc] ++ tail))[
      (IndexBuilder.mk cs).added.length]? = some (IndexBuilder.mk cs).registered.length := by
  rw [List.append_assoc, ownerIdxFrom_append, ← length_ownerIdxFrom 0 cs]
  simp only [List.cons_append, List.nil_append, ownerIdxFrom, Nat.zero_add, Nat.add_sub_cancel]
  exact getElem?_append_length _ _ _

theorem added_length_le {B : BuilderRules} {cs fin : List BuilderCall} (h : Grows B cs fin) :
    (IndexBuilder.mk cs).added.length ≤ (IndexBuilder.mk fin).added.length := by
  obtain ⟨tail, rfl⟩ := h.suffix
  simp [IndexBuilder.added, List.filterMap_append]

/-- Re-running the loop on a shard that holds the calls `fin` as documents and
repositories, from a state that holds the calls `cs`, makes the remaining calls. -/
theorem remerge_docs {B : BuilderRules} {out : IndexData} {cs fin : List BuilderCall}
    (h : Grows B cs fin)
    (hmeta : out.repoMetaData = (IndexBuilder.mk fin).registered)
    (hrepos : ∀ k idx : Nat, (ownerIdxFrom 0 fin)[k]? = some idx → out.repos[k]? = some idx)
    (hdocs : ∀ (k : Nat) (doc : Document) (idx : Nat), (IndexBuilder.mk fin).added[k]? = some doc →
      (ownerIdxFrom 0 fin)[k]? = some idx → assemble out k idx = .ok doc)
    (hs : 1 ≤ (IndexBuilder.mk cs).registered.length) :
    mergeDocs B out
      (List.range' (IndexBuilder.mk cs).added.length
        ((IndexBuilder.mk fin).added.length - (IndexBuilder.mk cs).added.length))
      (⟨cs⟩, ((IndexBuilder.mk cs).registered.length : Int) - 1) =
      .ok (⟨fin⟩, ((IndexBuilder.mk fin).registered.length : Int) - 1) := by
  induction h with
  | done cs => simp [mergeDocs]
  | @add cs fin doc hacc hg ih =>
    obtain ⟨tail, ht⟩ := hg.suffix
    have hle := added_length_le hg
    have hk : (IndexBuilder.mk (cs ++ [.add doc])).added.length =
        (IndexBuilder.mk cs).added.length + 1 := by
      simp [IndexBuilder.added, List.filterMap_append]
    have hr : (IndexBuilder.mk (cs ++ [.add doc])).registered.length =
        (IndexBuilder.mk cs).registered.length := by
      simp [IndexBuilder.registered, List.filterMap_append]
    have hdoc := added_at_add cs doc tail
    have hidx := owner_at_add cs doc tail
    rw [← ht] at hdoc hidx
    have hstep : mergeDoc B out
        (⟨cs⟩, ((IndexBuilder.mk cs).registered.length : Int) - 1)
        (IndexBuilder.mk cs).added.length =
        .ok (⟨cs ++ [.add doc]⟩, ((IndexBuilder.mk cs).registered.length : Int) - 1) := by
      refine mergeDoc_eq_ok.mpr ⟨_, doc, hrepos _ _ hidx, hdocs _ doc _ hdoc hidx, Or.inl ⟨?_, hacc, rfl⟩⟩
      show (((IndexBuilder.mk cs).registered.length - 1 : Nat) : Int) = _
      omega
    have hrange : List.range' (IndexBuilder.mk cs).added.length
        ((IndexBuilder.mk fin).added.length - (IndexBuilder.mk cs).added.length) =
        (IndexBuilder.mk cs).added.length ::
          List.range' ((IndexBuilder.mk cs).added.length + 1)
            ((IndexBuilder.mk fin).added.length - ((IndexBuilder.mk cs).added.length + 1)) := by
      rw [List.range'_eq_cons_iff]
      exact ⟨rfl, by omega, by congr 1⟩
    have ih1 := ih hmeta hrepos hdocs (by rw [hr]; exact hs)
    rw [hk, hr] at ih1
    rw [hrange, mergeDocs, hstep, Outcome.ok_bind]
    exact ih1
  | @register cs fin r doc hacc hg ih =>
    obtain ⟨tail, ht⟩ := hg.suffix
    have hle := added_length_le hg
    have hk : (IndexBuilder.mk (cs ++ [.setRepository r, .add doc])).added.length =
        (IndexBuilder.mk cs).added.length + 1 := by
      simp [IndexBuilder.added, List.filterMap_append]
    have hr : (IndexBuilder.mk (cs ++ [.setRepository r, .add doc])).registered.length =
        (IndexBuilder.mk cs).registered.length + 1 := by
      simp [IndexBuilder.registered, List.filterMap_append]
    have hdoc := added_at_register cs r doc tail
    have hidx := owner_at_register cs r doc tail
    have hreg := registered_at_register cs r doc tail
    rw [← ht] at hdoc hidx hreg
    rw [← hmeta] at hreg
    have hstep : mergeDoc B out
        (⟨cs⟩, ((IndexBuilder.mk cs).registered.length : Int) - 1)
        (IndexBuilder.mk cs).added.length =
        .ok (⟨cs ++ [.setRepository r, .add doc]⟩,
          ((IndexBuilder.mk cs).registered.length : Int)) := by
      refine mergeDoc_eq_ok.mpr ⟨_, doc, hrepos _ _ hidx, hdocs _ doc _ hdoc hidx,
        Or.inr ⟨?_, r, hreg, hacc, rfl⟩⟩
      show ((IndexBuilder.mk cs).registered.length : Int) = _
      omega
    have hrange : List.range' (IndexBuilder.mk cs).added.length
        ((IndexBuilder.mk fin).added.length - (IndexBuilder.mk cs).added.length) =
        (IndexBuilder.mk cs).added.length ::
          List.range' ((IndexBuilder.mk cs).added.length + 1)
            ((IndexBuilder.mk fin).added.length - ((IndexBuilder.mk cs).added.length + 1)) := by
      rw [List.range'_eq_cons_iff]
      exact ⟨rfl, by omega, by congr 1⟩
    have ih1 := ih hmeta hrepos hdocs (by rw [hr]; omega)
    rw [hk, hr] at ih1
    rw [hrange, mergeDocs, hstep, Outcome.ok_bind]
    have hcast : (((IndexBuilder.mk cs).registered.length + 1 : Nat) : Int) - 1 =
        ((IndexBuilder.mk cs).registered.length : Int) := by omega
    rw [hcast] at ih1
    exact ih1


/-- What the relation `Decodes` says document by document. -/
theorem Decodes.pointwise {out : IndexData} {ib : IndexBuilder} (h : Decodes out ib) :
    (∀ k idx : Nat, (ownerIdxFrom 0 ib.calls)[k]? = some idx → out.repos[k]? = some idx) ∧
    (∀ (k : Nat) (doc : Document) (idx : Nat), ib.added[k]? = some doc →
      (ownerIdxFrom 0 ib.calls)[k]? = some idx → assemble out k idx = .ok doc) := by
  obtain ⟨-, -, hrepos, hdocs⟩ := h
  have hr : ∀ k idx : Nat, (ownerIdxFrom 0 ib.calls)[k]? = some idx →
      out.repos[k]? = some idx := by
    intro k idx hk
    have hk1 : (out.repos.take ib.added.length)[k]? = some idx := by
      rw [hrepos]
      exact hk
    rw [List.getElem?_take] at hk1
    by_cases hlt : k < ib.added.length
    · simpa [hlt] using hk1
    · simp [hlt] at hk1
  refine ⟨hr, ?_⟩
  intro k doc idx hdoc hidx
  have hlt : k < ib.added.length := (List.getElem?_eq_some_iff.mp hdoc).1
  have h1 : ((List.range ib.added.length).map
      (fun docID => (index out.repos docID).bind (assemble out docID)))[k]? =
      some ((index out.repos k).bind (assemble out k)) := by
    simp [List.getElem?_map, List.getElem?_range hlt]
  rw [hdocs, List.getElem?_map, hdoc] at h1
  simp only [Option.map_some', Option.some.injEq] at h1
  rw [index_eq_ok.mpr (hr k idx hidx), Outcome.ok_bind] at h1
  exact h1.symm

/-- C13 (idempotent re-merge): with the builder as the ordered record of
registered repositories and added documents, and the decoded output shard as a
shard that reads back as that record (`Decodes`), the decoded output of every
successful merge is accepted by `merge` as its sole input, and the re-merge
returns the same builder: the same repositories, and the same documents in the
same order with the same name, content, branches, language and sub-repository
path. -/
theorem merge_remerge (B : BuilderRules) (ds : List IndexData) (ib : IndexBuilder)
    (out : IndexData) (h : merge B ds = .ok ib) (hdec : Decodes out ib) :
    merge B [out] = .ok ib ∧
    ∃ ib2, merge B [out] = .ok ib2 ∧ ib2.registered = ib.registered ∧
      List.Forall₂
        (fun a b => a.Name = b.Name ∧ a.Content = b.Content ∧ a.Branches = b.Branches ∧
          a.Language = b.Language ∧ a.SubRepositoryPath = b.SubRepositoryPath)
        ib2.added ib.added := by
  have main : merge B [out] = .ok ib := by
    obtain ⟨r0, hnew, hg⟩ := merge_grows h
    obtain ⟨hrepos, hdocs⟩ := hdec.pointwise
    obtain ⟨hmeta, hlen, -, -⟩ := hdec
    obtain ⟨tail, ht⟩ := hg.suffix
    have hr0 : out.repoMetaData[0]? = some r0 := by
      rw [hmeta]
      simp [IndexBuilder.registered, ht]
    have hinit : mergeInit B [out] = .ok (⟨[.setRepository r0]⟩, 0) :=
      mergeInit_eq_ok.mpr ⟨out, [], r0, rfl, hr0, hnew, rfl⟩
    have hloop := remerge_docs hg hmeta hrepos hdocs (by simp [IndexBuilder.registered])
    have h0 : (IndexBuilder.mk [BuilderCall.setRepository r0]).added.length = 0 := rfl
    have h1 : (((IndexBuilder.mk [BuilderCall.setRepository r0]).registered.length : Nat) : Int)
        - 1 = 0 := rfl
    rw [h0, h1, Nat.sub_zero, ← List.range_eq_range'] at hloop
    have hlen2 : out.fileBranchMasks.length = (IndexBuilder.mk ib.calls).added.length := hlen
    simp only [merge, hinit, Outcome.ok_bind, mergeShards, mergeShard, hlen2, hloop]
  refine ⟨main, ib, main, rfl, ?_⟩
  exact List.forall₂_same.mpr fun _ _ => ⟨rfl, rfl, rfl, rfl, rfl⟩

theorem merge_remerge_witness :
    (merge acceptAll [shardA, shardB] = .ok mergedAB ∧ Decodes decodedAB mergedAB) ∧
    merge acceptAll [decodedAB] = .ok mergedAB :=
  ⟨⟨by decide, by decide, by decide, by decide, by decide⟩,
   (merge_remerge acceptAll [shardA, shardB] mergedAB decodedAB (by decide)
      ⟨by decide, by decide, by decide, by decide⟩).1⟩

end Zoekt
